import Mathlib

/-!
# OpenClaw Memory Governance: a shallow embedding with proofs

This file embeds the core of the OpenClaw memory-governance scripts
(entry-store parser and renderer, secret redactor, heuristic contradiction
classifier, confidence gate, daily consolidator, candidate generator,
identity promoter grouping, importance scorer, and the cadence-job lock
skeletons) as executable Lean definitions, and proves or refutes the
spec-level claims about them.

Modelling conventions:
* Python `str` is modelled by `String` (backed by `List Char`); helper
  functions reproduce Python semantics (`str.strip`, `str.splitlines`,
  `str.lower`, `in`-substring tests) over the character lists.
* Python `float` is modelled by exact rationals (`PyF` also carries the
  non-numeric values `nan`/`inf`); the double-rounding gap between binary
  floats and rationals is irrelevant at the comparison thresholds used by
  the scripts for any realistically sized inputs.
* Python `dict[str, str]` metadata is modelled as an association list kept
  sorted by key.  The scripts never observe dict insertion order (the
  renderer orders known keys by `DEFAULT_META_ORDER` and sorts the rest),
  so the sorted form is observation-equivalent and makes map equality
  definitional.
* `datetime` values are modelled by exact rational epoch seconds; naive
  values are treated as UTC exactly where the scripts normalise them.
* Filesystem directories are modelled as association lists from file name
  to parsed content; `glob` plus `sorted` becomes sorting by name.
-/

namespace OpenClaw

/-! ## Python-style character and string utilities -/

/-- Characters Python `str.isspace` (and `str.strip` with no argument)
    treats as whitespace, restricted to the code points that can occur in
    the data handled by these scripts. -/
def isPyWs (c : Char) : Bool :=
  c = ' ' || c = '\t' || c = '\n' || c = '\r' ||
  c = (Char.ofNat 0x0b) || c = (Char.ofNat 0x0c) ||
  c = (Char.ofNat 0x1c) || c = (Char.ofNat 0x1d) ||
  c = (Char.ofNat 0x1e) || c = (Char.ofNat 0x1f) ||
  c = (Char.ofNat 0x85) || c = (Char.ofNat 0xa0)

/-- Line-break characters recognised by Python `str.splitlines`
    (`\r\n` is additionally treated as a single break). -/
def isLineBreak (c : Char) : Bool :=
  c = '\n' || c = '\r' ||
  c = (Char.ofNat 0x0b) || c = (Char.ofNat 0x0c) ||
  c = (Char.ofNat 0x1c) || c = (Char.ofNat 0x1d) ||
  c = (Char.ofNat 0x1e) || c = (Char.ofNat 0x85) ||
  c = (Char.ofNat 0x2028) || c = (Char.ofNat 0x2029)

/-- `str.splitlines` on the character list: split at every line break,
    treating `\r\n` as one break, with no trailing empty line. -/
def splitlinesChars : List Char → List (List Char)
  | [] => []
  | '\r' :: '\n' :: cs => [] :: splitlinesChars cs
  | c :: cs =>
    if isLineBreak c then
      [] :: splitlinesChars cs
    else
      match splitlinesChars cs with
      | [] => [[c]]
      | l :: ls => (c :: l) :: ls

/-- Python `str.splitlines`. -/
def pySplitlines (s : String) : List String :=
  (splitlinesChars s.data).map (fun l => ⟨l⟩)

/-- `sep.join(parts)` on lists. -/
def joinWith {α : Type} (sep : List α) : List (List α) → List α
  | [] => []
  | [a] => a
  | a :: b :: rest => a ++ sep ++ joinWith sep (b :: rest)

/-- `"\n".join` over strings. -/
def joinNL (lines : List String) : String :=
  ⟨joinWith ['\n'] (lines.map String.data)⟩

def stripLeftChars (l : List Char) : List Char :=
  l.dropWhile (fun c => isPyWs c)

def stripRightChars (l : List Char) : List Char :=
  (stripLeftChars l.reverse).reverse

/-- Python `str.strip()`. -/
def pyStrip (s : String) : String :=
  ⟨stripRightChars (stripLeftChars s.data)⟩

/-- Python `str.rstrip()`. -/
def pyRstrip (s : String) : String :=
  ⟨stripRightChars s.data⟩

/-- ASCII-only `str.lower`; the scripts only rely on ASCII case folding. -/
def pyLowerChar (c : Char) : Char :=
  if 'A' ≤ c && c ≤ 'Z' then Char.ofNat (c.toNat + 32) else c

/-- Python `str.lower` (ASCII fold). -/
def pyLower (s : String) : String :=
  ⟨s.data.map pyLowerChar⟩

/-- Does list `n` occur contiguously inside list `h`?  This is Python's
    `n in h` test for strings, as a boolean function. -/
def subAt (n h : List Char) : Bool :=
  match n, h with
  | [], _ => true
  | _ :: _, [] => false
  | a :: ns, b :: hs => a = b && subAt ns hs

def containsSub (h n : List Char) : Bool :=
  match h with
  | [] => subAt n []
  | _ :: hs => subAt n h || containsSub hs n

/-- Python `needle in hay` for strings. -/
def strContains (hay needle : String) : Bool :=
  containsSub hay.data needle.data

/-- Word characters of the token alphabet `[a-z0-9_]` (used after
    lowering). -/
def isTokChar (c : Char) : Bool :=
  ('a' ≤ c && c ≤ 'z') || ('0' ≤ c && c ≤ '9') || c = '_'

/-- `re.findall(r"[a-z0-9_]+", s)`: maximal runs of token characters. -/
def findTokenRuns : List Char → List (List Char)
  | [] => []
  | c :: cs =>
    if isTokChar c then
      match findTokenRuns cs with
      | [] => [[c]]
      | l :: ls =>
        match cs with
        | [] => [[c]]
        | c2 :: _ => if isTokChar c2 then (c :: l) :: ls else [c] :: l :: ls
    else
      findTokenRuns cs

/-- Tokens of a string: `re.findall(r"[a-z0-9_]+", s.lower())`. -/
def strTokens (s : String) : List String :=
  (findTokenRuns (pyLower s).data).map (fun l => ⟨l⟩)

/-- `memory_lib.normalize_text`: lowercase, keep `[a-z0-9_]+` runs,
    join with single spaces. -/
def normalize_text (s : String) : String :=
  String.intercalate " " (strTokens s)

/-- Deduplicate a list keeping first occurrences (models building a set
    and iterating it, for properties that do not depend on set order). -/
def dedup (l : List String) : List String :=
  l.foldl (fun acc x => if x ∈ acc then acc else acc ++ [x]) []

/-- Size of the intersection of two lists viewed as sets. -/
def interCount (a b : List String) : Nat :=
  (dedup a).countP (fun x => x ∈ b)

/-- Size of the union of two lists viewed as sets. -/
def unionCount (a b : List String) : Nat :=
  (dedup (a ++ b)).length

/-- `memory_lib.jaccard_similarity` on token lists viewed as sets;
    returns 0 when either side is empty. -/
def jaccard_similarity (a b : List String) : ℚ :=
  if (dedup a).isEmpty || (dedup b).isEmpty then 0
  else
    let u := unionCount a b
    if u = 0 then 0 else (interCount a b : ℚ) / (u : ℚ)

/-! ## Python float model

`PyF` models the values Python `float` can take in these scripts: exact
rationals stand in for binary doubles, plus `nan` and the two infinities.
Comparisons mirror IEEE semantics (`nan` is incomparable). -/

inductive PyF where
  | num (q : ℚ)
  | nan
  | inf
  | ninf
  deriving DecidableEq, Repr

namespace PyF

def lt : PyF → PyF → Bool
  | num a, num b => a < b
  | num _, inf => true
  | ninf, num _ => true
  | ninf, inf => true
  | _, _ => false

def le : PyF → PyF → Bool
  | num a, num b => a ≤ b
  | num _, inf => true
  | num _, _ => false
  | nan, _ => false
  | inf, inf => true
  | inf, _ => false
  | ninf, nan => false
  | ninf, _ => true

def beq : PyF → PyF → Bool
  | num a, num b => a = b
  | inf, inf => true
  | ninf, ninf => true
  | _, _ => false

end PyF

/-- Digit character to its value. -/
def digitVal (c : Char) : Nat := c.toNat - 48

def isDigitChar (c : Char) : Bool := '0' ≤ c && c ≤ '9'

/-- Parse a non-empty digit run into (value, digit count, rest). -/
def parseDigits : List Char → Option (Nat × Nat × List Char)
  | [] => none
  | c :: cs =>
    if isDigitChar c then
      match parseDigits cs with
      | some (v, n, rest) =>
        if cs.headD ' ' |>.isDigit then some (digitVal c * 10 ^ n + v, n + 1, rest)
        else some (digitVal c, 1, cs)
      | none => some (digitVal c, 1, cs)
    else none

/-- Parse `float(str)` for the forms the scripts can meet: optional sign,
    decimal digits with optional fraction and exponent, or the special
    words `inf`/`infinity`/`nan` (case-insensitive); surrounding
    whitespace allowed.  Underscore digit grouping is not modelled. -/
def parsePyFloatCore (l : List Char) : Option PyF :=
  let l := stripRightChars (stripLeftChars l)
  let l := l.map pyLowerChar
  let (sign, body) :=
    match l with
    | '+' :: r => ((1 : ℚ), r)
    | '-' :: r => ((-1 : ℚ), r)
    | r => ((1 : ℚ), r)
  if body = ['i', 'n', 'f'] || body = ['i', 'n', 'f', 'i', 'n', 'i', 't', 'y'] then
    some (if sign = 1 then PyF.inf else PyF.ninf)
  else if body = ['n', 'a', 'n'] then
    some PyF.nan
  else
    -- [digits][.digits][e[sign]digits], at least one digit overall
    let intPart := parseDigits body
    let (ival, afterInt, hasInt) :=
      match intPart with
      | some (v, _, rest) => ((v : ℚ), rest, true)
      | none => ((0 : ℚ), body, false)
    let (fval, afterFrac, hasFrac) :=
      match afterInt with
      | '.' :: r =>
        match parseDigits r with
        | some (v, n, rest) => ((v : ℚ) / (10 ^ n : ℚ), rest, true)
        | none => ((0 : ℚ), r, false)
      | _ => ((0 : ℚ), afterInt, false)
    let dotOnly := match afterInt with | '.' :: _ => true | _ => false
    if !hasInt && !hasFrac then none
    else
      let mantissa := ival + fval
      match afterFrac with
      | [] =>
        if dotOnly && !hasFrac && !hasInt then none
        else some (PyF.num (sign * mantissa))
      | 'e' :: r =>
        let (esign, er) :=
          match r with
          | '+' :: r2 => ((1 : ℤ), r2)
          | '-' :: r2 => ((-1 : ℤ), r2)
          | r2 => ((1 : ℤ), r2)
        match parseDigits er with
        | some (v, _, []) =>
          let e : ℤ := esign * (v : ℤ)
          some (PyF.num (sign * mantissa * (10 : ℚ) ^ e))
        | _ => none
      | _ => none

def parsePyFloat (s : String) : Option PyF := parsePyFloatCore s.data

/-! ## Dates and times

Dates are modelled as integer day numbers (days since 1970-01-01);
timestamps as exact rational epoch seconds, with naive datetimes treated
as UTC (the scripts normalise them that way before every use). -/

/-- Days since the epoch for a civil date (Gregorian, proleptic). -/
def daysFromCivil (y : ℤ) (m d : ℕ) : ℤ :=
  let y : ℤ := if m ≤ 2 then y - 1 else y
  let era : ℤ := Int.fdiv y 400
  let yoe : ℤ := y - era * 400
  let mp : ℤ := if m > 2 then (m : ℤ) - 3 else (m : ℤ) + 9
  let doy : ℤ := Int.fdiv (153 * mp + 2) 5 + (d : ℤ) - 1
  let doe : ℤ := yoe * 365 + Int.fdiv yoe 4 - Int.fdiv yoe 100 + doy
  era * 146097 + doe - 719468

/-- Civil date from a day number (inverse of `daysFromCivil`). -/
def civilFromDays (z : ℤ) : ℤ × ℕ × ℕ :=
  let z := z + 719468
  let era : ℤ := Int.fdiv z 146097
  let doe : ℤ := z - era * 146097
  let yoe : ℤ := Int.fdiv (doe - Int.fdiv doe 1460 + Int.fdiv doe 36524 - Int.fdiv doe 146096) 365
  let y : ℤ := yoe + era * 400
  let doy : ℤ := doe - (365 * yoe + Int.fdiv yoe 4 - Int.fdiv yoe 100)
  let mp : ℤ := Int.fdiv (5 * doy + 2) 153
  let d : ℤ := doy - Int.fdiv (153 * mp + 2) 5 + 1
  let m : ℤ := if mp < 10 then mp + 3 else mp - 9
  (if m ≤ 2 then y + 1 else y, m.toNat, d.toNat)

def isLeapYear (y : ℤ) : Bool :=
  y % 4 = 0 && (y % 100 ≠ 0 || y % 400 = 0)

def daysInMonth (y : ℤ) (m : ℕ) : ℕ :=
  if m = 2 then (if isLeapYear y then 29 else 28)
  else if m = 4 || m = 6 || m = 9 || m = 11 then 30
  else 31

/-- Render a natural number as fixed-width zero-padded decimal digits. -/
def padNat (width n : ℕ) : String :=
  let s := toString n
  ⟨List.replicate (width - s.length) '0'⟩ ++ s

/-- `date.isoformat` for a day number. -/
def dateIso (z : ℤ) : String :=
  let (y, m, d) := civilFromDays z
  padNat 4 y.toNat ++ "-" ++ padNat 2 m ++ "-" ++ padNat 2 d

/-- Parse exactly `n` digits. -/
def parseFixedDigits (n : ℕ) (l : List Char) : Option (ℕ × List Char) :=
  match n, l with
  | 0, l => some (0, l)
  | n + 1, c :: cs =>
    if isDigitChar c then
      match parseFixedDigits n cs with
      | some (v, rest) => some (digitVal c * 10 ^ n + v, rest)
      | none => none
    else none
  | _ + 1, [] => none

/-- Parse `YYYY-MM-DD` with range validation, as `date.fromisoformat`;
    returns the day number. -/
def parseIsoDateOnly (l : List Char) : Option (ℤ × List Char) :=
  match parseFixedDigits 4 l with
  | some (y, '-' :: r1) =>
    match parseFixedDigits 2 r1 with
    | some (m, '-' :: r2) =>
      match parseFixedDigits 2 r2 with
      | some (d, rest) =>
        if 1 ≤ m && m ≤ 12 && 1 ≤ d && d ≤ daysInMonth y m then
          some (daysFromCivil (y : ℤ) m d, rest)
        else none
      | none => none
    | _ => none
  | _ => none

/-- Parse `HH:MM[:SS[.ffffff]]`, returning rational seconds-of-day. -/
def parseIsoTime (l : List Char) : Option (ℚ × List Char) :=
  match parseFixedDigits 2 l with
  | some (h, ':' :: r1) =>
    match parseFixedDigits 2 r1 with
    | some (mi, rest) =>
      if h ≤ 23 && mi ≤ 59 then
        match rest with
        | ':' :: r2 =>
          match parseFixedDigits 2 r2 with
          | some (s, rest2) =>
            if s ≤ 59 then
              match rest2 with
              | '.' :: r3 =>
                match parseDigits r3 with
                | some (f, n, rest3) =>
                  if n = 3 || n = 6 then
                    some ((h * 3600 + mi * 60 + s : ℚ) + (f : ℚ) / (10 ^ n : ℚ), rest3)
                  else none
                | none => none
              | _ => some ((h * 3600 + mi * 60 + s : ℚ), rest2)
            else none
          | none => none
        | _ => some ((h * 3600 + mi * 60 : ℚ), rest)
      else none
    | _ => none
  | _ => none

/-- `memory_lib.parse_iso_date`: strip, replace a trailing `Z` by
    `+00:00`, then `datetime.fromisoformat`.  Result: rational epoch
    seconds (naive values are read as UTC, matching how every caller
    normalises them) -- `none` on empty or unparsable input. -/
def parse_iso_date (s : String) : Option ℚ :=
  let l := stripRightChars (stripLeftChars s.data)
  let l := if l ≠ [] && l.getLastD ' ' = 'Z' then l.dropLast ++ ['+', '0', '0', ':', '0', '0'] else l
  match parseIsoDateOnly l with
  | some (z, rest) =>
    match rest with
    | [] => some ((z : ℚ) * 86400)
    | sep :: r1 =>
      if sep = 'T' || sep = ' ' then
        match parseIsoTime r1 with
        | some (tod, rest2) =>
          let base := (z : ℚ) * 86400 + tod
          match rest2 with
          | [] => some base
          | '+' :: r2 =>
            match parseFixedDigits 2 r2 with
            | some (oh, ':' :: r3) =>
              match parseFixedDigits 2 r3 with
              | some (om, []) => some (base - (oh * 3600 + om * 60 : ℚ))
              | _ => none
            | _ => none
          | '-' :: r2 =>
            match parseFixedDigits 2 r2 with
            | some (oh, ':' :: r3) =>
              match parseFixedDigits 2 r3 with
              | some (om, []) => some (base + (oh * 3600 + om * 60 : ℚ))
              | _ => none
            | _ => none
          | _ => none
        | none => none
      else none
  | none => none

/-- `memory_lib.parse_date_from_filename`: strip a final extension and
    parse the stem as `YYYY-MM-DD`; returns a day number. -/
def parse_date_from_filename (name : String) : Option ℤ :=
  let l := name.data
  let stem :=
    if '.' ∈ l then
      let beforeLastDot := ((l.reverse.dropWhile (fun c => c ≠ '.')).drop 1).reverse
      if beforeLastDot = [] then l else beforeLastDot
    else l
  match parseIsoDateOnly stem with
  | some (z, []) => some z
  | _ => none

/-! ## Metadata maps and memory entries

Python `dict[str, str]` metadata is modelled as an association list kept
sorted by key (code-point order, as Python string comparison).  No script
modelled here observes dict insertion order, so this canonical form is
observation-equivalent and makes equality of meta maps definitional. -/

/-- Code-point lexicographic order on character lists (Python `<`). -/
def charsLt : List Char → List Char → Bool
  | [], [] => false
  | [], _ :: _ => true
  | _ :: _, [] => false
  | a :: as, b :: bs =>
    if a.toNat < b.toNat then true
    else if b.toNat < a.toNat then false
    else charsLt as bs

def strLtB (a b : String) : Bool := charsLt a.data b.data

/-- Stable insertion of a string into an ascending list. -/
def insertStr (x : String) : List String → List String
  | [] => [x]
  | y :: ys => if strLtB x y then x :: y :: ys else y :: insertStr x ys

/-- Python `sorted` on strings (ascending, stable). -/
def sortStrings (l : List String) : List String :=
  l.foldr insertStr []

theorem dropWhile_length_le {α : Type} (p : α → Bool) (l : List α) :
    (l.dropWhile p).length ≤ l.length := by
  induction l with
  | nil => simp
  | cons a l ih =>
    rw [List.dropWhile_cons]
    split
    · simpa using Nat.le_succ_of_le ih
    · simp

abbrev MetaMap := List (String × String)

/-- Insert or replace a key, keeping the list sorted by key. -/
def metaSet (m : MetaMap) (k v : String) : MetaMap :=
  match m with
  | [] => [(k, v)]
  | (k0, v0) :: rest =>
    if strLtB k k0 then (k, v) :: (k0, v0) :: rest
    else if k = k0 then (k, v) :: rest
    else (k0, v0) :: metaSet rest k v

def metaGet (m : MetaMap) (k : String) : Option String :=
  match m with
  | [] => none
  | (k0, v0) :: rest => if k = k0 then some v0 else metaGet rest k

def metaGetD (m : MetaMap) (k d : String) : String :=
  (metaGet m k).getD d

/-- Build a meta map from (key, value) pairs, later pairs overriding. -/
def metaOfList (l : List (String × String)) : MetaMap :=
  l.foldl (fun acc p => metaSet acc p.1 p.2) []

/-- `memory_lib.MemoryEntry`. -/
structure MemoryEntry where
  entry_id : String
  meta : MetaMap
  body : String
  deriving DecidableEq, Repr

namespace MemoryEntry

/-- `MemoryEntry.get_float`: parse the meta value as a float, with the
    default on a missing key or unparsable value. -/
def get_float (e : MemoryEntry) (key : String) (default : PyF) : PyF :=
  match metaGet e.meta key with
  | none => default
  | some v =>
    match parsePyFloat v with
    | some f => f
    | none => default

/-- Strip any run of `"` and `'` characters from both ends
    (Python `str.strip("\x22\x27")`). -/
def stripQuotes (s : String) : String :=
  let isQ : Char → Bool := fun c => c = '"' || c = (Char.ofNat 39)
  ⟨((s.data.dropWhile isQ).reverse.dropWhile isQ).reverse⟩

/-- Parse a Python list literal whose elements are quoted strings
    (the fragment of `ast.literal_eval` these tag lists use; no escape
    sequences, which `str(list_of_plain_tags)` never produces). -/
def parseStrListLit (l : List Char) : Option (List String) :=
  let l := l.dropWhile (fun c => isPyWs c)
  match l with
  | '[' :: rest => go (rest.length + 1) rest [] true
  | _ => none
where
  /-- Element loop; the fuel bounds the iteration count (each step
      consumes at least one character, so the initial fuel is enough). -/
  go : Nat → List Char → List String → Bool → Option (List String)
    | 0, _, _, _ => none
    | fuel + 1, l, acc, first =>
      let l := l.dropWhile (fun c => isPyWs c)
      match l with
      | ']' :: tail => if tail.dropWhile (fun c => isPyWs c) = [] then some acc.reverse else none
      | q :: rest =>
        if first || q = ',' then
          let rest2 := if first then q :: rest else rest
          let rest2 := rest2.dropWhile (fun c => isPyWs c)
          match rest2 with
          | q2 :: rest3 =>
            if q2 = '"' || q2 = (Char.ofNat 39) then
              let elemChars := rest3.takeWhile (fun c => c ≠ q2 && c ≠ '\\')
              match rest3.dropWhile (fun c => c ≠ q2 && c ≠ '\\') with
              | c :: rest4 =>
                if c = q2 then go fuel rest4 (⟨elemChars⟩ :: acc) false else none
              | [] => none
            else none
          | [] => none
        else none
      | [] => none

/-- `MemoryEntry.tags`. -/
def tags (e : MemoryEntry) : List String :=
  let raw := pyStrip (metaGetD e.meta "tags" "[]")
  if raw = "" then []
  else
    match parseStrListLit raw.data with
    | some parsed => (parsed.map pyStrip).filter (fun t => t ≠ "")
    | none =>
      let raw2 :=
        if raw.data.headD ' ' = '[' && raw.data.getLastD ' ' = ']' then
          ⟨(raw.data.drop 1).dropLast⟩
        else raw
      ((raw2.data.splitOn ',').map (fun part => stripQuotes (pyStrip ⟨part⟩))).filter
        (fun t => pyStrip t ≠ "")

/-- `MemoryEntry.token_set` as a deduplicated token list. -/
def token_set (e : MemoryEntry) : List String :=
  dedup (strTokens e.body)

end MemoryEntry

/-! ## Entry-store parser and renderer (`memory_lib.parse_memory_file`,
`memory_lib.render_memory_file`) -/

def isEntryIdChar (c : Char) : Bool :=
  ('a' ≤ c && c ≤ 'z') || ('A' ≤ c && c ≤ 'Z') || ('0' ≤ c && c ≤ '9') || c = '_' || c = '-'

/-- `ENTRY_RE.match`: `^###\s+mem:([a-zA-Z0-9_-]+)\s*$`, returning the
    captured id. -/
def entryHeader (line : String) : Option String :=
  match line.data with
  | '#' :: '#' :: '#' :: rest =>
    match rest with
    | [] => none
    | c :: _ =>
      if isPyWs c then
        match rest.dropWhile (fun c => isPyWs c) with
        | 'm' :: 'e' :: 'm' :: ':' :: r =>
          if (r.takeWhile (fun c => isEntryIdChar c)) ≠ [] &&
              (r.dropWhile (fun c => isEntryIdChar c)).all (fun c => isPyWs c) then
            some ⟨r.takeWhile (fun c => isEntryIdChar c)⟩
          else none
        | _ => none
      else none
  | _ => none

def noHeader (s : String) : Bool := (entryHeader s).isNone

/-- Metadata block of an entry: consume `key: value` lines until the
    `---` separator line, skipping colon-free lines; returns the meta map
    and the remaining lines after the separator. -/
def parseMeta : List String → MetaMap → MetaMap × List String
  | [], acc => (acc, [])
  | l :: rest, acc =>
    let ls := pyStrip l
    if ls = "---" then (acc, rest)
    else if ':' ∈ ls.data then
      let k := pyStrip ⟨ls.data.takeWhile (fun c => c ≠ ':')⟩
      let v := pyStrip ⟨(ls.data.dropWhile (fun c => c ≠ ':')).drop 1⟩
      parseMeta rest (metaSet acc k v)
    else parseMeta rest acc

theorem parseMeta_rest_le (ls : List String) (acc : MetaMap) :
    (parseMeta ls acc).2.length ≤ ls.length := by
  induction ls generalizing acc with
  | nil => simp [parseMeta]
  | cons l rest ih =>
    simp only [parseMeta]
    split
    · simp
    · split <;> exact le_trans (ih _) (by simp)

/-- Entry blocks: the input starts at an entry header (or is empty); a
    non-header head cannot arise from `parse_memory_file`, and yields no
    entries. -/
def parseEntries : List String → List MemoryEntry
  | [] => []
  | l :: rest =>
    match entryHeader l with
    | none => []
    | some id =>
      have _h : ((parseMeta rest []).2.dropWhile noHeader).length < rest.length + 1 :=
        Nat.lt_succ_of_le
          (le_trans (dropWhile_length_le noHeader (parseMeta rest []).2)
            (parseMeta_rest_le rest []))
      { entry_id := id, meta := (parseMeta rest []).1,
        body := pyStrip (joinNL ((parseMeta rest []).2.takeWhile noHeader)) } ::
        parseEntries ((parseMeta rest []).2.dropWhile noHeader)
  termination_by l => l.length
  decreasing_by simp_wf; omega

/-- `memory_lib.parse_memory_file` on the file text. -/
def parse_memory_file (text : String) : String × List MemoryEntry :=
  let lines := pySplitlines text
  let preLines := lines.takeWhile noHeader
  let rest := lines.dropWhile noHeader
  (pyStrip (joinNL preLines), parseEntries rest)

def DEFAULT_META_ORDER : List String :=
  ["time", "layer", "importance", "confidence", "status", "source", "tags", "supersedes"]

/-- Keys of an entry in render order: `DEFAULT_META_ORDER` keys that are
    present, then the remaining keys sorted. -/
def renderKeys (e : MemoryEntry) : List String :=
  DEFAULT_META_ORDER.filter (fun k => (metaGet e.meta k).isSome) ++
    sortStrings ((e.meta.map Prod.fst).filter (fun k => k ∉ DEFAULT_META_ORDER))

/-- One rendered entry block (joined lines, right-stripped). -/
def renderEntry (e : MemoryEntry) : String :=
  let lines := ("### mem:" ++ e.entry_id) ::
    ((renderKeys e).map (fun k => k ++ ": " ++ metaGetD e.meta k "")) ++
    ["---", pyStrip e.body]
  pyRstrip (joinNL lines)

/-- The rendered entry, as the list of its lines. -/
def renderEntryLines (e : MemoryEntry) : List String :=
  ("### mem:" ++ e.entry_id) ::
    ((renderKeys e).map (fun k => k ++ ": " ++ metaGetD e.meta k "")) ++
    ["---"] ++ pySplitlines e.body

/-- `memory_lib.render_memory_file`. -/
def render_memory_file (preamble : String) (entries : List MemoryEntry) : String :=
  let blocks :=
    (if pyStrip preamble ≠ "" then [pyStrip preamble] else []) ++ entries.map renderEntry
  pyRstrip ⟨joinWith ['\n', '\n'] (blocks.map String.data)⟩ ++ "\n"

/-! ## Lemmas: splitlines, join, strip -/

/-- A character list with no line-break characters (a single line). -/
def breakFree (l : List Char) : Bool := l.all (fun c => !isLineBreak c)

/-- A character list whose only line breaks are `\n`. -/
def nlOnly (l : List Char) : Bool := l.all (fun c => !isLineBreak c || c = '\n')

theorem isLineBreak_nl : isLineBreak '\n' = true := by decide

theorem isLineBreak_cr : isLineBreak '\r' = true := by decide

theorem isPyWs_nl : isPyWs '\n' = true := by decide

set_option maxHeartbeats 1000000 in
theorem splitlines_eq_cons (c : Char) (cs : List Char)
    (hnot : ∀ cs2, c = '\r' → cs = '\n' :: cs2 → False) :
    splitlinesChars (c :: cs) =
      if isLineBreak c = true then [] :: splitlinesChars cs
      else
        match splitlinesChars cs with
        | [] => [[c]]
        | l :: ls => (c :: l) :: ls :=
  splitlinesChars.eq_3 c cs hnot

theorem splitlines_cons_nl (cs : List Char) :
    splitlinesChars ('\n' :: cs) = [] :: splitlinesChars cs := by
  rw [splitlines_eq_cons '\n' cs (fun cs2 h _ => by cases h), if_pos isLineBreak_nl]

/-- Unfolding for a break character not starting a `\r\n` pair. -/
theorem splitlines_cons_break {c : Char} {cs : List Char} (hb : isLineBreak c = true)
    (hnot : ∀ cs2, c = '\r' → cs = '\n' :: cs2 → False) :
    splitlinesChars (c :: cs) = [] :: splitlinesChars cs := by
  rw [splitlinesChars.eq_3 c cs hnot, if_pos hb]

theorem splitlines_cons_nonbreak {c : Char} (h : isLineBreak c = false) (cs : List Char) :
    splitlinesChars (c :: cs) =
      match splitlinesChars cs with
      | [] => [[c]]
      | l :: ls => (c :: l) :: ls := by
  have hcr : c ≠ '\r' := by
    intro hEq; rw [hEq] at h; exact absurd h (by simp [isLineBreak_cr])
  rw [splitlinesChars.eq_3 c cs (fun cs2 h1 _ => hcr h1), if_neg (by simp [h])]

theorem splitlines_nil_iff (l : List Char) : splitlinesChars l = [] ↔ l = [] := by
  constructor
  · intro h
    cases l with
    | nil => rfl
    | cons c cs =>
      exfalso
      by_cases hb : isLineBreak c = true
      · by_cases hcrn : c = '\r' ∧ ∃ cs2, cs = '\n' :: cs2
        · obtain ⟨hc, cs2, hcs⟩ := hcrn
          subst hc; subst hcs
          rw [splitlinesChars.eq_2] at h
          simp at h
        · rw [splitlines_cons_break hb (fun cs2 h1 h2 => hcrn ⟨h1, cs2, h2⟩)] at h
          simp at h
      · rw [splitlines_cons_nonbreak (by simpa using hb)] at h
        split at h <;> simp_all
  · intro h; simp [h, splitlinesChars.eq_1]

theorem breakFree_cons {c : Char} {cs : List Char} :
    breakFree (c :: cs) = true ↔ isLineBreak c = false ∧ breakFree cs = true := by
  simp [breakFree]

theorem nlOnly_cons {c : Char} {cs : List Char} :
    nlOnly (c :: cs) = true ↔ (isLineBreak c = false ∨ c = '\n') ∧ nlOnly cs = true := by
  simp only [nlOnly, List.all_cons, Bool.and_eq_true, Bool.or_eq_true,
    Bool.not_eq_true', decide_eq_true_eq]

theorem getLastD_indep {α : Type} {l : List α} (h : l ≠ []) (d e : α) :
    l.getLastD d = l.getLastD e := by
  rw [List.getLastD_eq_getLast?, List.getLastD_eq_getLast?]
  cases hl : l.getLast? with
  | none => exact absurd (List.getLast?_eq_none_iff.mp hl) h
  | some a => rfl

theorem splitlines_breakFree {l : List Char} (h : breakFree l = true) :
    splitlinesChars l = if l = [] then [] else [l] := by
  induction l with
  | nil => simp [splitlinesChars.eq_1]
  | cons c cs ih =>
    obtain ⟨h1, h2⟩ := breakFree_cons.mp h
    rw [splitlines_cons_nonbreak h1]
    have hr := ih h2
    by_cases hcs : cs = []
    · subst hcs; simp at hr; simp [hr]
    · rw [hr]; simp [hcs]

theorem splitlines_append_nl {a : List Char} (h : breakFree a = true) (b : List Char) :
    splitlinesChars (a ++ '\n' :: b) = a :: splitlinesChars b := by
  induction a with
  | nil => simpa using splitlines_cons_nl b
  | cons c cs ih =>
    obtain ⟨h1, h2⟩ := breakFree_cons.mp h
    rw [List.cons_append, splitlines_cons_nonbreak h1, ih h2]

theorem splitlines_members_breakFree (l : List Char) :
    ∀ x ∈ splitlinesChars l, breakFree x = true := by
  induction l using splitlinesChars.induct with
  | case1 => simp [splitlinesChars.eq_1]
  | case2 cs ih =>
    intro x hx
    rw [splitlinesChars.eq_2] at hx
    rcases List.mem_cons.mp hx with h | h
    · simp [h, breakFree]
    · exact ih x h
  | case3 c cs hnot hb ih =>
    intro x hx
    rw [splitlines_cons_break hb (fun cs2 h1 h2 => hnot cs2 h1 h2)] at hx
    rcases List.mem_cons.mp hx with h | h
    · simp [h, breakFree]
    · exact ih x h
  | case4 c cs hnot hb hnil ih =>
    intro x hx
    rw [splitlines_cons_nonbreak (by simpa using hb), hnil] at hx
    simp at hx
    subst hx
    rw [breakFree_cons]
    exact ⟨by simpa using hb, rfl⟩
  | case5 c cs hnot hb l0 ls0 heq ih =>
    intro x hx
    rw [splitlines_cons_nonbreak (by simpa using hb), heq] at hx
    rcases List.mem_cons.mp hx with h | h
    · subst h
      have hl0 := ih l0 (by rw [heq]; exact List.mem_cons_self _ _)
      rw [breakFree_cons]
      exact ⟨by simpa using hb, hl0⟩
    · exact ih x (by rw [heq]; exact List.mem_cons_of_mem _ h)

theorem nlOnly_of_breakFree {l : List Char} (h : breakFree l = true) : nlOnly l = true := by
  simp only [breakFree, List.all_eq_true] at h
  simp only [nlOnly, List.all_eq_true]
  intro x hx
  simp [h x hx]

/-- Joining split lines with `\n` restores a string whose breaks are all
    `\n` and which does not end in `\n`. -/
theorem join_splitlines {l : List Char} (hnl : nlOnly l = true)
    (hlast : l.getLastD 'x' ≠ '\n') :
    joinWith ['\n'] (splitlinesChars l) = l := by
  induction l with
  | nil => simp [splitlinesChars.eq_1, joinWith]
  | cons c cs ih =>
    obtain ⟨h1, h2⟩ := nlOnly_cons.mp hnl
    by_cases hb : isLineBreak c = true
    · have hcn : c = '\n' := by
        rcases h1 with h | h
        · rw [h] at hb; cases hb
        · exact h
      subst hcn
      rw [splitlines_cons_nl]
      have hcs : cs ≠ [] := by
        intro h; subst h; simp at hlast
      have hlast2 : cs.getLastD 'x' ≠ '\n' := by
        rw [List.getLastD_cons] at hlast
        rw [getLastD_indep hcs 'x' '\n']
        exact hlast
      have ihr := ih h2 hlast2
      have hne : splitlinesChars cs ≠ [] := by
        rw [Ne, splitlines_nil_iff]; exact hcs
      cases hsp : splitlinesChars cs with
      | nil => exact absurd hsp hne
      | cons y ys =>
        rw [hsp] at ihr
        cases ys with
        | nil => simp [joinWith] at ihr ⊢; simp [ihr]
        | cons z zs => simp [joinWith] at ihr ⊢; simp [ihr]
    · rw [splitlines_cons_nonbreak (by simpa using hb)]
      by_cases hcs : cs = []
      · subst hcs
        simp [splitlinesChars.eq_1, joinWith]
      · have hlast2 : cs.getLastD 'x' ≠ '\n' := by
          rw [List.getLastD_cons] at hlast
          rw [getLastD_indep hcs 'x' c]
          exact hlast
        have ihr := ih h2 hlast2
        have hne : splitlinesChars cs ≠ [] := by
          rw [Ne, splitlines_nil_iff]; exact hcs
        cases hsp : splitlinesChars cs with
        | nil => exact absurd hsp hne
        | cons y ys =>
          rw [hsp] at ihr
          cases ys with
          | nil => simp [joinWith] at ihr ⊢; simp [ihr]
          | cons z zs => simp [joinWith] at ihr ⊢; simp [ihr]

/-! ### Strip lemmas -/

def pyStripChars (l : List Char) : List Char :=
  stripRightChars (stripLeftChars l)

theorem pyStrip_data (s : String) : (pyStrip s).data = pyStripChars s.data := rfl

theorem stripLeft_cons_ws {c : Char} (h : isPyWs c = true) (l : List Char) :
    stripLeftChars (c :: l) = stripLeftChars l := by
  simp [stripLeftChars, List.dropWhile_cons, h]

theorem stripLeft_cons_nonws {c : Char} (h : isPyWs c = false) (l : List Char) :
    stripLeftChars (c :: l) = c :: l := by
  simp [stripLeftChars, List.dropWhile_cons, h]

theorem stripLeft_length_le (l : List Char) : (stripLeftChars l).length ≤ l.length :=
  dropWhile_length_le _ l

theorem stripRight_length_le (l : List Char) : (stripRightChars l).length ≤ l.length := by
  have := stripLeft_length_le l.reverse
  simpa [stripRightChars] using this

theorem stripLeft_eq_self_of_length {l : List Char}
    (h : (stripLeftChars l).length = l.length) : stripLeftChars l = l := by
  cases l with
  | nil => rfl
  | cons c cs =>
    by_cases hc : isPyWs c = true
    · rw [stripLeft_cons_ws hc] at h
      have := stripLeft_length_le cs
      simp at h
      omega
    · exact stripLeft_cons_nonws (by simpa using hc) cs

theorem stripRight_eq_self_of_length {l : List Char}
    (h : (stripRightChars l).length = l.length) : stripRightChars l = l := by
  have h2 : (stripLeftChars l.reverse).length = l.reverse.length := by
    simpa [stripRightChars] using h
  have := stripLeft_eq_self_of_length h2
  simp [stripRightChars, this]

theorem stripped_both {l : List Char} (h : pyStripChars l = l) :
    stripLeftChars l = l ∧ stripRightChars l = l := by
  have hlen : (pyStripChars l).length = l.length := by rw [h]
  have h1 : (stripLeftChars l).length ≤ l.length := stripLeft_length_le l
  have h2 : (pyStripChars l).length ≤ (stripLeftChars l).length :=
    stripRight_length_le _
  have hL : stripLeftChars l = l := stripLeft_eq_self_of_length (by omega)
  refine ⟨hL, ?_⟩
  have : pyStripChars l = stripRightChars l := by rw [pyStripChars, hL]
  rw [← this, h]

theorem stripLeft_head_nonws {l : List Char} (h : stripLeftChars l = l) :
    l = [] ∨ ∃ c cs, l = c :: cs ∧ isPyWs c = false := by
  cases l with
  | nil => exact Or.inl rfl
  | cons c cs =>
    right
    refine ⟨c, cs, rfl, ?_⟩
    by_cases hc : isPyWs c = true
    · exfalso
      rw [stripLeft_cons_ws hc] at h
      have := stripLeft_length_le cs
      have := congrArg List.length h
      simp at this
      omega
    · simpa using hc

theorem stripRight_last_nonws {l : List Char} (h : stripRightChars l = l) :
    l = [] ∨ isPyWs (l.getLastD 'x') = false := by
  have h2 : stripLeftChars l.reverse = l.reverse := by
    have := congrArg List.reverse h
    simpa [stripRightChars] using this
  rcases stripLeft_head_nonws h2 with h3 | ⟨c, cs, h3, h4⟩
  · left
    simpa using congrArg List.reverse h3
  · right
    have : l = cs.reverse ++ [c] := by
      have := congrArg List.reverse h3
      simpa using this
    rw [this]
    simpa [List.getLastD_eq_getLast?] using h4

theorem stripLeft_id_of_head {c : Char} {l : List Char} (hc : isPyWs c = false)
    (h : l.headD 'x' = c) (hne : l ≠ []) : stripLeftChars l = l := by
  cases l with
  | nil => exact absurd rfl hne
  | cons a as =>
    simp at h
    subst h
    exact stripLeft_cons_nonws hc as

theorem stripRight_id_of_last {l : List Char} (hc : isPyWs (l.getLastD 'x') = false)
    (hne : l ≠ []) : stripRightChars l = l := by
  have hrev : l.reverse ≠ [] := by simp [hne]
  have hh : l.reverse.headD 'x' = l.getLastD 'x' := by
    cases hl : l.reverse with
    | nil => exact absurd hl hrev
    | cons a as =>
      have : l = as.reverse ++ [a] := by
        have := congrArg List.reverse hl
        simpa using this
      rw [this]
      simp [List.getLastD_eq_getLast?]
  have := stripLeft_id_of_head hc hh hrev
  simp [stripRightChars, this]

theorem stripRight_append_ws {c : Char} (hc : isPyWs c = true) (l : List Char) :
    stripRightChars (l ++ [c]) = stripRightChars l := by
  simp [stripRightChars, stripLeft_cons_ws hc]

theorem dropWhile_append_cases {α : Type} [DecidableEq α] (p : α → Bool) (a b : List α) :
    (a ++ b).dropWhile p =
      if a.dropWhile p = [] then b.dropWhile p else a.dropWhile p ++ b := by
  induction a with
  | nil => simp
  | cons x xs ih =>
    by_cases hx : p x = true
    · simp only [List.cons_append, List.dropWhile_cons, hx, if_true, ih]
    · simp [List.dropWhile_cons, hx]

theorem strip_append_ws {c : Char} (hc : isPyWs c = true) (l : List Char) :
    pyStripChars (l ++ [c]) = pyStripChars l := by
  rw [pyStripChars, pyStripChars, stripLeftChars, stripLeftChars,
    dropWhile_append_cases (fun c => isPyWs c) l [c]]
  by_cases h : l.dropWhile (fun c => isPyWs c) = []
  · rw [if_pos h, h]
    simp [List.dropWhile_cons, hc, stripRightChars, stripLeftChars]
  · rw [if_neg h]
    rw [show stripRightChars (List.dropWhile (fun c => isPyWs c) l ++ [c]) =
        stripRightChars (stripLeftChars l ++ [c]) from rfl, stripRight_append_ws hc _]
    rfl

theorem strip_cons_ws {c : Char} (hc : isPyWs c = true) (l : List Char) :
    pyStripChars (c :: l) = pyStripChars l := by
  rw [pyStripChars, stripLeft_cons_ws hc]
  rfl

theorem strip_id_of_ends {l : List Char} (hne : l ≠ [])
    (hh : isPyWs (l.headD 'x') = false) (hl : isPyWs (l.getLastD 'x') = false) :
    pyStripChars l = l := by
  rw [pyStripChars, stripLeft_id_of_head hh rfl hne, stripRight_id_of_last hl hne]

theorem mem_of_mem_dropWhile {α : Type} {p : α → Bool} {x : α} {l : List α}
    (h : x ∈ l.dropWhile p) : x ∈ l := by
  induction l with
  | nil => simp at h
  | cons a as ih =>
    rw [List.dropWhile_cons] at h
    split at h
    · exact List.mem_cons_of_mem _ (ih h)
    · exact h

theorem mem_of_mem_stripRight {x : Char} {l : List Char}
    (h : x ∈ stripRightChars l) : x ∈ l := by
  rw [stripRightChars, List.mem_reverse] at h
  have h1 : x ∈ l.reverse := mem_of_mem_dropWhile h
  simpa using h1

theorem mem_of_mem_strip {x : Char} {l : List Char} (h : x ∈ pyStripChars l) : x ∈ l :=
  mem_of_mem_dropWhile (mem_of_mem_stripRight h)

theorem takeWhile_append_dropWhile_eq {α : Type} (p : α → Bool) (l : List α) :
    l.takeWhile p ++ l.dropWhile p = l := by
  induction l with
  | nil => rfl
  | cons a as ih =>
    by_cases ha : p a = true
    · simp [List.takeWhile_cons, List.dropWhile_cons, ha, ih]
    · simp [List.takeWhile_cons, List.dropWhile_cons, ha]

/-- `stripRightChars l` is an initial segment of `l`. -/
theorem stripRight_isInitial (l : List Char) : ∃ t, l = stripRightChars l ++ t := by
  refine ⟨(l.reverse.takeWhile (fun c => isPyWs c)).reverse, ?_⟩
  have h := takeWhile_append_dropWhile_eq (fun c => isPyWs c) l.reverse
  have h2 := congrArg List.reverse h
  simp only [List.reverse_append, List.reverse_reverse] at h2
  rw [stripRightChars, stripLeftChars]
  exact h2.symm

theorem stripLeft_idem (l : List Char) :
    stripLeftChars (stripLeftChars l) = stripLeftChars l := by
  induction l with
  | nil => rfl
  | cons c cs ih =>
    by_cases hc : isPyWs c = true
    · rw [stripLeft_cons_ws hc, ih]
    · rw [stripLeft_cons_nonws (by simpa using hc), stripLeft_cons_nonws (by simpa using hc)]

theorem stripRight_idem (l : List Char) :
    stripRightChars (stripRightChars l) = stripRightChars l := by
  simp only [stripRightChars, List.reverse_reverse]
  rw [stripLeft_idem]

theorem stripLeft_of_stripRight_stripLeft (l : List Char) :
    stripLeftChars (stripRightChars (stripLeftChars l)) =
      stripRightChars (stripLeftChars l) := by
  rcases hsl : stripLeftChars l with _ | ⟨c, cs⟩
  · rfl
  · have hc : isPyWs c = false := by
      have h := stripLeft_idem l
      rw [hsl] at h
      by_cases hcw : isPyWs c = true
      · exfalso
        rw [stripLeft_cons_ws hcw] at h
        have h1 := stripLeft_length_le cs
        have h2 := congrArg List.length h
        simp at h2
        omega
      · simpa using hcw
    rcases stripRight_isInitial (c :: cs) with ⟨t, ht⟩
    rcases hsr : stripRightChars (c :: cs) with _ | ⟨d, ds⟩
    · rfl
    · have hd : d = c := by
        rw [hsr] at ht
        cases ht
        rfl
      subst hd
      exact stripLeft_cons_nonws hc ds

theorem strip_idem (l : List Char) : pyStripChars (pyStripChars l) = pyStripChars l := by
  rw [pyStripChars, pyStripChars, stripLeft_of_stripRight_stripLeft, stripRight_idem]

/-- A stripped, non-empty list has non-whitespace first and last characters. -/
theorem stripped_ends {l : List Char} (h : pyStripChars l = l) (hne : l ≠ []) :
    isPyWs (l.headD 'x') = false ∧ isPyWs (l.getLastD 'x') = false := by
  obtain ⟨hL, hR⟩ := stripped_both h
  constructor
  · rcases stripLeft_head_nonws hL with h1 | ⟨c, cs, h1, h2⟩
    · exact absurd h1 hne
    · rw [h1]; simpa using h2
  · rcases stripRight_last_nonws hR with h1 | h1
    · exact absurd h1 hne
    · exact h1

theorem strip_nil : pyStripChars [] = [] := rfl

/-! ### joinWith lemmas -/

theorem joinWith_cons {α : Type} (sep : List α) (a : List α) {rest : List (List α)}
    (h : rest ≠ []) : joinWith sep (a :: rest) = a ++ sep ++ joinWith sep rest := by
  cases rest with
  | nil => exact absurd rfl h
  | cons b bs => rfl

theorem joinWith_append {α : Type} (sep : List α) {xs ys : List (List α)}
    (hx : xs ≠ []) (hy : ys ≠ []) :
    joinWith sep (xs ++ ys) = joinWith sep xs ++ sep ++ joinWith sep ys := by
  induction xs with
  | nil => exact absurd rfl hx
  | cons a as ih =>
    by_cases has : as = []
    · subst has
      rw [List.cons_append, List.nil_append, joinWith_cons sep a hy]
      rfl
    · have hne : as ++ ys ≠ [] := by
        intro hcon
        exact has (List.append_eq_nil.mp hcon).1
      rw [List.cons_append, joinWith_cons sep a hne, ih has, joinWith_cons sep a has]
      simp [List.append_assoc]

/-- Joining blocks of lines: newline-joining the blank-line-separated
    concatenation equals double-newline-joining the joined blocks. -/
theorem joinWith_blankSep (bls : List (List (List Char))) (hne : ∀ b ∈ bls, b ≠ []) :
    joinWith ['\n'] (joinWith [[]] bls) =
      joinWith ['\n', '\n'] (bls.map (joinWith ['\n'])) := by
  induction bls with
  | nil => rfl
  | cons b bs ih =>
    by_cases hbs : bs = []
    · subst hbs
      simp [joinWith]
    · have hb : b ≠ [] := hne b (List.mem_cons_self _ _)
      have hmapne : bs.map (joinWith ['\n']) ≠ [] := by simpa using hbs
      have hjoin : joinWith [[]] bs ≠ [] := by
        cases bs with
        | nil => exact absurd rfl hbs
        | cons b2 bs2 =>
          have hb2 : b2 ≠ [] := hne b2 (List.mem_cons_of_mem _ (List.mem_cons_self _ _))
          by_cases hbs2 : bs2 = []
          · subst hbs2
            simpa [joinWith] using hb2
          · rw [joinWith_cons _ _ hbs2]
            intro hcon
            rw [List.append_assoc] at hcon
            exact hb2 (List.append_eq_nil.mp hcon).1
      rw [joinWith_cons [[]] b hbs,
        show b ++ [[]] ++ joinWith [[]] bs = b ++ (([] : List Char) :: joinWith [[]] bs) by simp,
        joinWith_append ['\n'] hb (by simp),
        joinWith_cons ['\n'] [] hjoin,
        List.map_cons, joinWith_cons ['\n', '\n'] _ hmapne,
        ih (fun x hx => hne x (List.mem_cons_of_mem _ hx))]
      simp

/-! ### Sorted meta-map lemmas -/

theorem charsLt_irrefl (l : List Char) : charsLt l l = false := by
  induction l with
  | nil => rfl
  | cons c cs ih => simp [charsLt, ih]

theorem char_toNat_inj {a b : Char} (h : a.toNat = b.toNat) : a = b := by
  unfold Char.toNat at h
  exact Char.ext (UInt32.toNat.inj h)

theorem charsLt_trans {a b c : List Char} (h1 : charsLt a b = true)
    (h2 : charsLt b c = true) : charsLt a c = true := by
  induction a generalizing b c with
  | nil =>
    cases b with
    | nil => simp [charsLt] at h1
    | cons y ys =>
      cases c with
      | nil => simp [charsLt] at h2
      | cons z zs => rfl
  | cons x xs ih =>
    cases b with
    | nil => simp [charsLt] at h1
    | cons y ys =>
      cases c with
      | nil => simp [charsLt] at h2
      | cons z zs =>
        simp only [charsLt] at h1 h2 ⊢
        by_cases hxy : x.toNat < y.toNat <;> by_cases hyz : y.toNat < z.toNat <;>
          by_cases hyx : y.toNat < x.toNat <;> by_cases hzy : z.toNat < y.toNat <;>
            simp [hxy, hyz, hyx, hzy] at h1 h2 ⊢ <;>
              first
              | omega
              | (exact Or.inr ⟨by omega, ih h1 h2⟩)

theorem charsLt_total_eq {a b : List Char} (h1 : charsLt a b = false)
    (h2 : charsLt b a = false) : a = b := by
  induction a generalizing b with
  | nil =>
    cases b with
    | nil => rfl
    | cons y ys => simp [charsLt] at h1
  | cons x xs ih =>
    cases b with
    | nil => simp [charsLt] at h2
    | cons y ys =>
      simp only [charsLt] at h1 h2
      by_cases hxy : x.toNat < y.toNat
      · rw [if_pos hxy] at h1; cases h1
      · rw [if_neg hxy] at h1
        by_cases hyx : y.toNat < x.toNat
        · rw [if_pos hyx] at h2; cases h2
        · rw [if_neg hyx] at h1 h2
          rw [if_neg hxy] at h2
          have hEq : x = y := char_toNat_inj (by omega)
          rw [hEq, ih h1 h2]

theorem strLt_irrefl (k : String) : strLtB k k = false := charsLt_irrefl k.data

theorem strLt_total_eq {a b : String} (h1 : strLtB a b = false)
    (h2 : strLtB b a = false) : a = b := by
  cases a with
  | mk da =>
    cases b with
    | mk db =>
      have := @charsLt_total_eq da db h1 h2
      rw [this]

/-- Meta maps are kept strictly sorted by key. -/
def metaSorted (m : MetaMap) : Prop :=
  List.Pairwise (fun p q => strLtB p.1 q.1 = true) m

theorem metaSorted_nil : metaSorted [] := List.Pairwise.nil

theorem metaSet_members (m : MetaMap) (k v : String) :
    ∀ p ∈ metaSet m k v, p = (k, v) ∨ p ∈ m := by
  induction m with
  | nil => intro p hp; simp [metaSet] at hp; simp [hp]
  | cons q rest ih =>
    intro p hp
    simp only [metaSet] at hp
    split at hp
    · rcases List.mem_cons.mp hp with h | h
      · simp [h]
      · exact Or.inr h
    · split at hp
      · rcases List.mem_cons.mp hp with h | h
        · simp [h]
        · exact Or.inr (List.mem_cons_of_mem _ h)
      · rcases List.mem_cons.mp hp with h | h
        · exact Or.inr (h ▸ List.mem_cons_self _ _)
        · rcases ih p h with h2 | h2
          · exact Or.inl h2
          · exact Or.inr (List.mem_cons_of_mem _ h2)

theorem metaSet_headKey (m : MetaMap) (k v : String) :
    ∀ p ∈ metaSet m k v, p.1 = k ∨ p ∈ m := by
  intro p hp
  rcases metaSet_members m k v p hp with h | h
  · exact Or.inl (by rw [h])
  · exact Or.inr h

theorem metaSet_sorted {m : MetaMap} (hs : metaSorted m) (k v : String) :
    metaSorted (metaSet m k v) := by
  induction m with
  | nil => exact List.pairwise_singleton _ _
  | cons q rest ih =>
    have hs2 : metaSorted rest := (List.pairwise_cons.mp hs).2
    have hq : ∀ p ∈ rest, strLtB q.1 p.1 = true := (List.pairwise_cons.mp hs).1
    simp only [metaSet]
    split
    · rename_i hlt
      exact List.pairwise_cons.mpr ⟨by
        intro p hp
        rcases List.mem_cons.mp hp with h | h
        · rw [h]; exact hlt
        · exact charsLt_trans hlt (hq p h), hs⟩
    · split
      · rename_i hlt heq
        subst heq
        exact List.pairwise_cons.mpr ⟨hq, hs2⟩
      · rename_i hlt hne
        refine List.pairwise_cons.mpr ⟨?_, ih hs2⟩
        intro p hp
        rcases metaSet_headKey rest k v p hp with h | h
        · rw [h]
          have h1 : strLtB k q.1 = false := by simpa using hlt
          have h2 : ¬(k = q.1) := fun hcon => hne (by rw [hcon])
          cases h3 : strLtB q.1 k with
          | true => rfl
          | false => exact absurd (strLt_total_eq h3 h1) (fun hcon => h2 hcon.symm)
        · exact hq p h

theorem metaGet_metaSet_self (m : MetaMap) (k v : String) :
    metaGet (metaSet m k v) k = some v := by
  induction m with
  | nil => simp [metaSet, metaGet]
  | cons q rest ih =>
    simp only [metaSet]
    split
    · simp [metaGet]
    · split
      · simp [metaGet]
      · rename_i hlt hne
        simp only [metaGet]
        rw [if_neg hne]
        exact ih

theorem metaGet_metaSet_ne (m : MetaMap) {k k2 : String} (v : String) (h : k2 ≠ k) :
    metaGet (metaSet m k v) k2 = metaGet m k2 := by
  induction m with
  | nil => simp [metaSet, metaGet, h]
  | cons q rest ih =>
    simp only [metaSet]
    split
    · simp [metaGet, h]
    · split
      · rename_i heq
        subst heq
        simp [metaGet, h]
      · simp only [metaGet]
        split
        · rfl
        · exact ih

/-- Keys of a sorted map are strictly ascending, hence lookups determine
    membership. -/
theorem metaGet_eq_some_of_mem {m : MetaMap} (hs : metaSorted m) {k v : String}
    (h : (k, v) ∈ m) : metaGet m k = some v := by
  induction m with
  | nil => simp at h
  | cons q rest ih =>
    have hq : ∀ p ∈ rest, strLtB q.1 p.1 = true := (List.pairwise_cons.mp hs).1
    rcases List.mem_cons.mp h with h1 | h1
    · rw [← h1]
      simp [metaGet]
    · simp only [metaGet]
      split
      · rename_i heq
        exfalso
        have := hq (k, v) h1
        rw [heq] at this
        rw [strLt_irrefl] at this
        cases this
      · exact ih ((List.pairwise_cons.mp hs).2) h1

theorem mem_of_metaGet_eq_some {m : MetaMap} {k v : String}
    (h : metaGet m k = some v) : (k, v) ∈ m := by
  induction m with
  | nil => simp [metaGet] at h
  | cons q rest ih =>
    simp only [metaGet] at h
    split at h
    · rename_i heq
      cases h
      subst heq
      exact List.mem_cons_self _ _
    · exact List.mem_cons_of_mem _ (ih h)

/-- Two sorted maps with the same lookups are equal. -/
theorem metaExt {m m2 : MetaMap} (h1 : metaSorted m) (h2 : metaSorted m2)
    (h : ∀ k, metaGet m k = metaGet m2 k) : m = m2 := by
  induction m generalizing m2 with
  | nil =>
    cases m2 with
    | nil => rfl
    | cons q rest =>
      have := h q.1
      simp [metaGet] at this
  | cons p rest ih =>
    cases m2 with
    | nil =>
      have := h p.1
      simp [metaGet] at this
    | cons q rest2 =>
      have hp : metaGet (p :: rest) p.1 = some p.2 := by simp [metaGet]
      have hq : metaGet (q :: rest2) q.1 = some q.2 := by simp [metaGet]
      have hkey : p.1 = q.1 := by
        by_contra hne
        -- p.1 must be a key of m2, and q.1 a key of m; sortedness makes
        -- the head keys the minimum on each side, forcing equality
        have hpq := (h p.1).symm ▸ hp
        have hp2 : (p.1, p.2) ∈ q :: rest2 := mem_of_metaGet_eq_some ((h p.1) ▸ hp)
        have hq2 : (q.1, q.2) ∈ p :: rest := mem_of_metaGet_eq_some ((h q.1).symm ▸ hq)
        rcases List.mem_cons.mp hp2 with hc | hc
        · exact hne (congrArg Prod.fst hc)
        · rcases List.mem_cons.mp hq2 with hd | hd
          · exact hne (congrArg Prod.fst hd).symm
          · have l1 := (List.pairwise_cons.mp h2).1 _ hc
            have l2 := (List.pairwise_cons.mp h1).1 _ hd
            simp only at l1 l2
            have := charsLt_trans l1 l2
            rw [charsLt_irrefl] at this
            cases this
      have hval : p.2 = q.2 := by
        have hh := h p.1
        rw [hp, hkey, hq] at hh
        exact Option.some.inj hh
      have hpq : p = q := Prod.ext hkey hval
      subst hpq
      congr 1
      apply ih (List.pairwise_cons.mp h1).2 (List.pairwise_cons.mp h2).2
      intro k
      by_cases hk : k = p.1
      · subst hk
        -- the key of the head cannot recur in either tail
        have hnone : ∀ (r : MetaMap), metaSorted (p :: r) → metaGet r p.1 = none := by
          intro r hr
          cases hg : metaGet r p.1 with
          | none => rfl
          | some v =>
            exfalso
            have hmem := mem_of_metaGet_eq_some hg
            have := (List.pairwise_cons.mp hr).1 _ hmem
            simp only at this
            rw [strLt_irrefl] at this
            cases this
        rw [hnone rest h1, hnone rest2 h2]
      · have := h k
        simp only [metaGet] at this
        rw [if_neg hk] at this
        rw [if_neg hk] at this
        exact this

theorem foldSet_sorted (ks : List String) (g : String → String) {m0 : MetaMap}
    (h0 : metaSorted m0) :
    metaSorted (ks.foldl (fun acc k => metaSet acc k (g k)) m0) := by
  induction ks generalizing m0 with
  | nil => exact h0
  | cons k ks ih => exact ih (metaSet_sorted h0 k (g k))

theorem foldSet_lookup (ks : List String) (g : String → String) (m0 : MetaMap)
    (key : String) :
    metaGet (ks.foldl (fun acc k => metaSet acc k (g k)) m0) key =
      if key ∈ ks then some (g key) else metaGet m0 key := by
  induction ks generalizing m0 with
  | nil => simp
  | cons k ks ih =>
    simp only [List.foldl_cons]
    rw [ih]
    by_cases hmem : key ∈ ks
    · simp [hmem]
    · by_cases hk : key = k
      · subst hk
        simp [hmem, metaGet_metaSet_self]
      · simp [hmem, hk, metaGet_metaSet_ne m0 (g k) hk]

/-! ### Well-formedness of parse output -/

/-- Invariants of a meta pair produced by the parser. -/
def wfKeyVal (p : String × String) : Prop :=
  pyStrip p.1 = p.1 ∧ (':' ∉ p.1.data) ∧ breakFree p.1.data = true ∧
  pyStrip p.2 = p.2 ∧ breakFree p.2.data = true

/-- Invariants of an entry produced by the parser. -/
def WFEntry (e : MemoryEntry) : Prop :=
  e.entry_id ≠ "" ∧ e.entry_id.data.all isEntryIdChar = true ∧
  metaSorted e.meta ∧ (∀ p ∈ e.meta, wfKeyVal p) ∧
  pyStrip e.body = e.body ∧ nlOnly e.body.data = true

/-- Invariants of a parse result. -/
def WFParse (pr : String × List MemoryEntry) : Prop :=
  pyStrip pr.1 = pr.1 ∧ nlOnly pr.1.data = true ∧ ∀ e ∈ pr.2, WFEntry e

theorem pyStrip_idem (s : String) : pyStrip (pyStrip s) = pyStrip s := by
  cases s with
  | mk l =>
    show String.mk (pyStripChars (pyStripChars l)) = String.mk (pyStripChars l)
    rw [strip_idem]

theorem mem_takeWhile_both {α : Type} {p : α → Bool} {x : α} {l : List α}
    (h : x ∈ l.takeWhile p) : x ∈ l ∧ p x = true := by
  induction l with
  | nil => simp at h
  | cons a as ih =>
    rw [List.takeWhile_cons] at h
    split at h
    · rcases List.mem_cons.mp h with h1 | h1
      · subst h1
        exact ⟨List.mem_cons_self _ _, by assumption⟩
      · have := ih h1
        exact ⟨List.mem_cons_of_mem _ this.1, this.2⟩
    · simp at h

theorem mem_joinWith_one {α : Type} {x y : α} {ls : List (List α)}
    (h : x ∈ joinWith [y] ls) : x = y ∨ ∃ l ∈ ls, x ∈ l := by
  induction ls with
  | nil => simp [joinWith] at h
  | cons a as ih =>
    by_cases has : as = []
    · subst has
      exact Or.inr ⟨a, List.mem_cons_self _ _, by simpa [joinWith] using h⟩
    · rw [joinWith_cons _ _ has] at h
      simp only [List.append_assoc, List.mem_append] at h
      rcases h with h | h
      · exact Or.inr ⟨a, List.mem_cons_self _ _, h⟩
      · rcases h with h | h
        · simp at h
          exact Or.inl h
        · rcases ih h with h1 | ⟨l, hl, hx⟩
          · exact Or.inl h1
          · exact Or.inr ⟨l, List.mem_cons_of_mem _ hl, hx⟩

theorem nlOnly_joinNL {ls : List String} (h : ∀ l ∈ ls, breakFree l.data = true) :
    nlOnly (joinNL ls).data = true := by
  simp only [nlOnly, List.all_eq_true]
  intro x hx
  rcases mem_joinWith_one (by simpa [joinNL] using hx) with h1 | ⟨l, hl, hxl⟩
  · simp [h1]
  · rcases List.mem_map.mp hl with ⟨str, hstr, hld⟩
    have := h str hstr
    simp only [breakFree, List.all_eq_true] at this
    have hb := this x (hld ▸ hxl)
    simp only [Bool.or_eq_true]
    exact Or.inl hb

theorem nlOnly_strip {s : String} (h : nlOnly s.data = true) :
    nlOnly (pyStrip s).data = true := by
  simp only [nlOnly, List.all_eq_true] at h ⊢
  intro x hx
  exact h x (mem_of_mem_strip (by simpa [pyStrip_data] using hx))

theorem entryHeader_some_wf {l : String} {id : String} (h : entryHeader l = some id) :
    id ≠ "" ∧ id.data.all isEntryIdChar = true := by
  unfold entryHeader at h
  split at h <;> try cases h
  split at h <;> try cases h
  split at h <;> try cases h
  split at h <;> try cases h
  split at h <;> try cases h
  rename_i hcond
  simp only [Bool.and_eq_true, ne_eq, decide_eq_true_eq] at hcond
  constructor
  · rename_i r _
    intro hcon
    apply hcond.1
    have h2 := congrArg String.data hcon
    simpa using h2
  · simp only [List.all_eq_true]
    intro x hx
    exact (mem_takeWhile_both hx).2

theorem parseMeta_lines_mem (ls : List String) (acc : MetaMap) :
    ∀ l ∈ (parseMeta ls acc).2, l ∈ ls := by
  induction ls generalizing acc with
  | nil => simp [parseMeta]
  | cons l rest ih =>
    intro x hx
    simp only [parseMeta] at hx
    split at hx
    · exact List.mem_cons_of_mem _ hx
    · split at hx
      · exact List.mem_cons_of_mem _ (ih _ x hx)
      · exact List.mem_cons_of_mem _ (ih _ x hx)

theorem parseMeta_wf {ls : List String} {acc : MetaMap}
    (hls : ∀ l ∈ ls, breakFree l.data = true)
    (hacc1 : metaSorted acc) (hacc2 : ∀ p ∈ acc, wfKeyVal p) :
    metaSorted (parseMeta ls acc).1 ∧ ∀ p ∈ (parseMeta ls acc).1, wfKeyVal p := by
  induction ls generalizing acc with
  | nil => exact ⟨hacc1, hacc2⟩
  | cons l rest ih =>
    have hrest : ∀ x ∈ rest, breakFree x.data = true :=
      fun x hx => hls x (List.mem_cons_of_mem _ hx)
    have hl : breakFree l.data = true := hls l (List.mem_cons_self _ _)
    simp only [parseMeta]
    split
    · exact ⟨hacc1, hacc2⟩
    · split
      · rename_i hcolon
        apply ih hrest (metaSet_sorted hacc1 _ _)
        intro p hp
        rcases metaSet_members _ _ _ p hp with hk | hk
        · subst hk
          refine ⟨pyStrip_idem _, ?_, ?_, pyStrip_idem _, ?_⟩
          · intro hcon
            have h1 := mem_of_mem_strip (by simpa [pyStrip_data] using hcon)
            have h2 := (mem_takeWhile_both h1).2
            simp at h2
          · simp only [breakFree, List.all_eq_true]
            intro x hx
            have h1 := mem_of_mem_strip (by simpa [pyStrip_data] using hx)
            have h2 := (mem_takeWhile_both h1).1
            have h3 := mem_of_mem_strip (by simpa [pyStrip_data] using h2)
            simp only [breakFree, List.all_eq_true] at hl
            exact hl x h3
          · simp only [breakFree, List.all_eq_true]
            intro x hx
            have h1 := mem_of_mem_strip (by simpa [pyStrip_data] using hx)
            have h2 : x ∈ (pyStrip l).data.dropWhile (fun c => !decide (c = ':')) :=
              List.tail_subset _ h1
            have h3 := mem_of_mem_dropWhile h2
            have h4 := mem_of_mem_strip (by simpa [pyStrip_data] using h3)
            simp only [breakFree, List.all_eq_true] at hl
            exact hl x h4
        · exact hacc2 p hk
      · exact ih hrest hacc1 hacc2

theorem pySplitlines_members_breakFree (s : String) :
    ∀ l ∈ pySplitlines s, breakFree l.data = true := by
  intro l hl
  rcases List.mem_map.mp hl with ⟨x, hx, hxl⟩
  have := splitlines_members_breakFree s.data x hx
  rw [← hxl]
  exact this

theorem parseEntries_wf (lines : List String) :
    (∀ l ∈ lines, breakFree l.data = true) →
    ∀ e ∈ parseEntries lines, WFEntry e := by
  induction lines using parseEntries.induct with
  | case1 => intro _; simp [parseEntries]
  | case2 l rest hnone =>
    intro hl e he
    rw [parseEntries] at he
    rw [hnone] at he
    simp at he
  | case3 l rest id hsome hlen ih =>
    intro hl e he
    rw [parseEntries] at he
    rw [hsome] at he
    have hrest : ∀ x ∈ rest, breakFree x.data = true :=
      fun x hx => hl x (List.mem_cons_of_mem _ hx)
    rcases List.mem_cons.mp he with h | h
    · subst h
      obtain ⟨hid1, hid2⟩ := entryHeader_some_wf hsome
      have hmeta := parseMeta_wf hrest metaSorted_nil (by simp)
      refine ⟨hid1, hid2, hmeta.1, hmeta.2, pyStrip_idem _, ?_⟩
      apply nlOnly_strip
      apply nlOnly_joinNL
      intro x hx
      have h1 := (mem_takeWhile_both hx).1
      exact hrest x (parseMeta_lines_mem rest [] x h1)
    · refine ih ?_ e h
      intro x hx
      exact hrest x (parseMeta_lines_mem rest [] x (mem_of_mem_dropWhile hx))

/-- The parser only produces well-formed results. -/
theorem parse_memory_file_wf (text : String) : WFParse (parse_memory_file text) := by
  unfold parse_memory_file WFParse
  refine ⟨pyStrip_idem _, ?_, ?_⟩
  · apply nlOnly_strip
    apply nlOnly_joinNL
    intro l hlmem
    exact pySplitlines_members_breakFree text l (mem_takeWhile_both hlmem).1
  · apply parseEntries_wf
    intro l hlmem
    exact pySplitlines_members_breakFree text l (mem_of_mem_dropWhile hlmem)

/-! ### Rendering as lines -/

theorem strMk_data (s : String) : (⟨s.data⟩ : String) = s := by cases s; rfl

theorem str_data_append (a b : String) : (a ++ b).data = a.data ++ b.data := rfl

theorem map_data_pySplitlines (s : String) :
    (pySplitlines s).map String.data = splitlinesChars s.data := by
  simp only [pySplitlines, List.map_map]
  have : (String.data ∘ fun l => (⟨l⟩ : String)) = id := by
    funext l; rfl
  rw [this, List.map_id]

theorem getLastD_append_right {α : Type} {b : List α} (a : List α) (hb : b ≠ []) (d : α) :
    (a ++ b).getLastD d = b.getLastD d := by
  rw [List.getLastD_eq_getLast?, List.getLastD_eq_getLast?, List.getLast?_append]
  cases hl : b.getLast? with
  | none => exact absurd (List.getLast?_eq_none_iff.mp hl) hb
  | some x => rfl

theorem isEntryIdChar_not_break {c : Char} (h : isEntryIdChar c = true) :
    isLineBreak c = false := by
  cases hx : isLineBreak c
  · rfl
  · exfalso
    simp only [isLineBreak, Bool.or_eq_true, decide_eq_true_eq] at hx
    rcases hx with ((((((((h1 | h1) | h1) | h1) | h1) | h1) | h1) | h1) | h1) | h1 <;>
      subst h1 <;> revert h <;> decide

theorem breakFree_append {a b : List Char} (ha : breakFree a = true)
    (hb : breakFree b = true) : breakFree (a ++ b) = true := by
  simp only [breakFree, List.all_eq_true] at ha hb ⊢
  intro x hx
  rcases List.mem_append.mp hx with h | h
  · exact ha x h
  · exact hb x h

theorem mem_insertStr {x y : String} {l : List String} :
    y ∈ insertStr x l ↔ y = x ∨ y ∈ l := by
  induction l with
  | nil => simp [insertStr]
  | cons a as ih =>
    simp only [insertStr]
    split
    · simp
    · rw [List.mem_cons, ih, List.mem_cons]
      tauto

theorem mem_sortStrings {x : String} {l : List String} :
    x ∈ sortStrings l ↔ x ∈ l := by
  induction l with
  | nil => simp [sortStrings]
  | cons a as ih =>
    simp only [sortStrings, List.foldr_cons]
    rw [mem_insertStr]
    simp only [sortStrings] at ih
    rw [ih, List.mem_cons]

/-- Every key listed by `renderKeys` is present in the (sorted) meta map. -/
theorem renderKeys_present {e : MemoryEntry} (hms : metaSorted e.meta) {k : String}
    (hk : k ∈ renderKeys e) : ∃ v, metaGet e.meta k = some v := by
  simp only [renderKeys] at hk
  rcases List.mem_append.mp hk with h | h
  · have := (List.mem_filter.mp h).2
    cases hg : metaGet e.meta k with
    | none => rw [hg] at this; simp at this
    | some v => exact ⟨v, rfl⟩
  · have h2 := mem_sortStrings.mp h
    have h3 := (List.mem_filter.mp h2).1
    rcases List.mem_map.mp h3 with ⟨p, hp, hpk⟩
    exact ⟨p.2, hpk ▸ metaGet_eq_some_of_mem hms (by
      have : p = (p.1, p.2) := rfl
      rw [← this]
      exact hp)⟩

/-- Every line of a rendered entry is break-free, given well-formedness. -/
theorem renderEntryLines_breakFree {e : MemoryEntry} (hwf : WFEntry e) :
    ∀ l ∈ renderEntryLines e, breakFree l.data = true := by
  obtain ⟨hid1, hid2, hms, hmwf, hb1, hb2⟩ := hwf
  intro l hl
  simp only [renderEntryLines] at hl
  rcases List.mem_cons.mp hl with h | h
  · subst h
    rw [str_data_append]
    apply breakFree_append
    · decide
    · simp only [breakFree, List.all_eq_true]
      intro x hx
      simp only [List.all_eq_true] at hid2
      rw [isEntryIdChar_not_break (hid2 x hx)]
      rfl
  · rcases List.mem_append.mp h with h | h
    · rcases List.mem_append.mp h with h | h
      · rcases List.mem_map.mp h with ⟨k, hk, hkl⟩
        subst hkl
        obtain ⟨v, hv⟩ := renderKeys_present hms hk
        have hkv := hmwf (k, v) (mem_of_metaGet_eq_some hv)
        rw [str_data_append, str_data_append]
        apply breakFree_append
        · apply breakFree_append hkv.2.2.1
          decide
        · rw [show metaGetD e.meta k "" = v by simp [metaGetD, hv]]
          exact hkv.2.2.2.2
      · simp at h
        subst h
        decide
    · exact pySplitlines_members_breakFree e.body l h

/-- The separator-and-body tail of a rendered block, reshaped. -/
theorem renderEntry_data {e : MemoryEntry} (hwf : WFEntry e) :
    (renderEntry e).data = joinWith ['\n'] ((renderEntryLines e).map String.data) := by
  obtain ⟨hid1, hid2, hms, hmwf, hb1, hb2⟩ := hwf
  have hback : (pyRstrip (joinNL (("### mem:" ++ e.entry_id) ::
      ((renderKeys e).map (fun k => k ++ ": " ++ metaGetD e.meta k "")) ++
      ["---", pyStrip e.body]))).data = (renderEntry e).data := rfl
  rw [← hback, hb1]
  have hsplit : ("### mem:" ++ e.entry_id) ::
      ((renderKeys e).map (fun k => k ++ ": " ++ metaGetD e.meta k "")) ++
      ["---", e.body] =
      (("### mem:" ++ e.entry_id) ::
        ((renderKeys e).map (fun k => k ++ ": " ++ metaGetD e.meta k "")) ++
        ["---"]) ++ [e.body] := by
    simp
  rw [hsplit]
  have hlines : renderEntryLines e =
      (("### mem:" ++ e.entry_id) ::
        ((renderKeys e).map (fun k => k ++ ": " ++ metaGetD e.meta k "")) ++
        ["---"]) ++ pySplitlines e.body := by
    simp [renderEntryLines]
  rw [hlines]
  generalize hpre : ("### mem:" ++ e.entry_id) ::
      ((renderKeys e).map (fun k => k ++ ": " ++ metaGetD e.meta k "")) ++ ["---"] = pre
  have hprene : pre.map String.data ≠ [] := by
    rw [← hpre]; simp
  have hprelast : (joinWith ['\n'] (pre.map String.data)).getLastD 'x' = '-' := by
    rw [← hpre]
    have hshape : (("### mem:" ++ e.entry_id) ::
        ((renderKeys e).map (fun k => k ++ ": " ++ metaGetD e.meta k "")) ++
        ["---"]).map String.data =
        ((("### mem:" ++ e.entry_id) ::
          ((renderKeys e).map (fun k => k ++ ": " ++ metaGetD e.meta k ""))).map
            String.data) ++ ["---".data] := by
      simp
    rw [hshape, joinWith_append ['\n'] (by simp) (by simp)]
    rw [List.append_assoc]
    rw [getLastD_append_right _ (by simp) 'x']
    rw [getLastD_append_right _ (by decide) 'x']
    decide
  by_cases hb : e.body = ""
  · rw [hb]
    have hmap : (pre ++ [("" : String)]).map String.data = pre.map String.data ++ [[]] := by
      simp
    have hmap2 : (pre ++ pySplitlines "").map String.data = pre.map String.data := by
      have : pySplitlines "" = [] := rfl
      simp [this]
    show (pyRstrip (joinNL (pre ++ [("" : String)]))).data = _
    rw [hmap2]
    have hjoin : (joinNL (pre ++ [("" : String)])).data =
        joinWith ['\n'] (pre.map String.data) ++ ['\n'] := by
      show joinWith ['\n'] ((pre ++ [("" : String)]).map String.data) = _
      rw [hmap, joinWith_append ['\n'] hprene (by simp)]
      simp [joinWith]
    show stripRightChars (joinNL (pre ++ [("" : String)])).data = _
    rw [hjoin, stripRight_append_ws isPyWs_nl]
    apply stripRight_id_of_last
    · rw [hprelast]; decide
    · intro hcon
      rw [hcon] at hprelast
      simp at hprelast
  · have hbodyne : e.body.data ≠ [] := by
      intro hcon
      apply hb
      rw [← strMk_data e.body, hcon]
    have hlast : isPyWs (e.body.data.getLastD 'x') = false := by
      have := stripped_ends (l := e.body.data) (by rw [← pyStrip_data, hb1]) hbodyne
      exact this.2
    have hmap : (pre ++ [e.body]).map String.data = pre.map String.data ++ [e.body.data] := by
      simp
    have hjoin : (joinNL (pre ++ [e.body])).data =
        (joinWith ['\n'] (pre.map String.data) ++ ['\n']) ++ e.body.data := by
      show joinWith ['\n'] ((pre ++ [e.body]).map String.data) = _
      rw [hmap, joinWith_append ['\n'] hprene (by simp)]
      simp [joinWith]
    show stripRightChars (joinNL (pre ++ [e.body])).data = _
    rw [hjoin]
    rw [stripRight_id_of_last (by rw [getLastD_append_right _ hbodyne 'x']; exact hlast)
      (by simp [hbodyne])]
    have hsb : (pre ++ pySplitlines e.body).map String.data =
        pre.map String.data ++ splitlinesChars e.body.data := by
      rw [List.map_append, map_data_pySplitlines]
    rw [hsb]
    have hsne : splitlinesChars e.body.data ≠ [] := by
      rw [Ne, splitlines_nil_iff]
      exact hbodyne
    rw [joinWith_append ['\n'] hprene hsne]
    rw [join_splitlines hb2 (by
      intro hcon
      rw [hcon] at hlast
      exact absurd hlast (by decide))]

/-- Mapping a function into a join. -/
theorem map_joinWith {α β : Type} (f : α → β) (sep : List α) (ls : List (List α)) :
    (joinWith sep ls).map f = joinWith (sep.map f) (ls.map (fun l => l.map f)) := by
  induction ls with
  | nil => rfl
  | cons a as ih =>
    by_cases has : as = []
    · subst has; rfl
    · rw [joinWith_cons _ _ has, List.map_cons,
        joinWith_cons _ _ (by simpa using has)]
      simp [ih]

theorem joinWith_ne_nil {α : Type} {sep : List α} {b : List α} {bs : List (List α)}
    (hb : b ≠ []) : joinWith sep (b :: bs) ≠ [] := by
  by_cases hbs : bs = []
  · subst hbs; simpa [joinWith]
  · rw [joinWith_cons _ _ hbs]
    intro hcon
    rw [List.append_assoc] at hcon
    exact hb (List.append_eq_nil.mp hcon).1

/-- The rendered entry block is non-empty and does not end in whitespace. -/
theorem renderEntry_ends {e : MemoryEntry} (hwf : WFEntry e) :
    (renderEntry e).data ≠ [] ∧ isPyWs ((renderEntry e).data.getLastD 'x') = false := by
  have hne : (renderEntry e).data ≠ [] := by
    rw [renderEntry_data hwf]
    apply joinWith_ne_nil
    rw [str_data_append]
    simp only [ne_eq, List.append_eq_nil]
    intro ⟨hcon, _⟩
    cases hcon
  have hsr : stripRightChars (renderEntry e).data = (renderEntry e).data := by
    show stripRightChars (pyRstrip (joinNL _)).data = _
    have : (pyRstrip (joinNL (("### mem:" ++ e.entry_id) ::
        ((renderKeys e).map (fun k => k ++ ": " ++ metaGetD e.meta k "")) ++
        ["---", pyStrip e.body]))).data =
        stripRightChars (joinNL (("### mem:" ++ e.entry_id) ::
        ((renderKeys e).map (fun k => k ++ ": " ++ metaGetD e.meta k "")) ++
        ["---", pyStrip e.body])).data := rfl
    rw [this, stripRight_idem]
    rfl
  rcases stripRight_last_nonws hsr with h | h
  · exact absurd h hne
  · exact ⟨hne, h⟩

/-- The rendered file, as the list of its lines. -/
def renderLines (p : String) (es : List MemoryEntry) : List String :=
  joinWith [""]
    ((if pyStrip p ≠ "" then [pySplitlines (pyStrip p)] else []) ++ es.map renderEntryLines)

theorem getLastD_map_ne {α β : Type} (f : α → β) {l : List α} (hne : l ≠ []) :
    ∀ (d : β) (a : α), (l.map f).getLastD d = f (l.getLastD a) := by
  induction l with
  | nil => exact absurd rfl hne
  | cons x xs ih =>
    intro d a
    by_cases hxs : xs = []
    · subst hxs; rfl
    · rw [List.map_cons, List.getLastD_cons, List.getLastD_cons, ih hxs (f x) x]

theorem joinWith_singleton_ne {α : Type} {sep : List α} (hsep : sep ≠ [])
    {x : List α} {xs : List (List α)} (hxs : xs ≠ []) :
    joinWith sep (x :: xs) ≠ [] := by
  rw [joinWith_cons _ _ hxs, List.append_assoc]
  intro hcon
  rcases List.append_eq_nil.mp hcon with ⟨_, h2⟩
  exact hsep (List.append_eq_nil.mp h2).1

/-- The last element of a join, when the final piece is non-empty. -/
theorem getLastD_joinWith {α : Type} {sep : List α} (hsep : sep ≠ []) :
    ∀ (ls : List (List α)), ls ≠ [] → ls.getLastD [] ≠ [] → ∀ d,
    (joinWith sep ls).getLastD d = (ls.getLastD []).getLastD d := by
  intro ls
  induction ls with
  | nil => intro h; exact absurd rfl h
  | cons b bs ih =>
    intro _ hlast d
    by_cases hbs : bs = []
    · subst hbs
      simp [joinWith]
    · have hlast2 : bs.getLastD [] ≠ [] := by
        rw [List.getLastD_cons] at hlast
        rwa [getLastD_indep hbs b []] at hlast
      have hjoin_ne : joinWith sep bs ≠ [] := by
        cases bs with
        | nil => exact absurd rfl hbs
        | cons b2 bs2 =>
          by_cases hbs2 : bs2 = []
          · subst hbs2
            have hb2 : b2 ≠ [] := by simpa using hlast2
            simpa [joinWith] using hb2
          · exact joinWith_singleton_ne hsep hbs2
      rw [joinWith_cons _ _ hbs, List.append_assoc,
        getLastD_append_right _ (fun hcon => hsep (List.append_eq_nil.mp hcon).1) d,
        getLastD_append_right _ hjoin_ne d,
        ih hbs hlast2 d, List.getLastD_cons, getLastD_indep hbs b []]

/-- Splitting a newline-join of break-free lines recovers the lines. -/
theorem splitlines_join {ls : List (List Char)} (hne : ls ≠ [])
    (hbf : ∀ l ∈ ls, breakFree l = true) :
    splitlinesChars (joinWith ['\n'] ls ++ ['\n']) = ls := by
  induction ls with
  | nil => exact absurd rfl hne
  | cons a as ih =>
    by_cases has : as = []
    · subst has
      have := splitlines_append_nl (hbf a (List.mem_cons_self _ _)) []
      simpa [joinWith] using this
    · rw [joinWith_cons _ _ has]
      rw [List.append_assoc, List.append_assoc]
      rw [show (['\n'] : List Char) ++ (joinWith ['\n'] as ++ ['\n']) =
          '\n' :: (joinWith ['\n'] as ++ ['\n']) by rfl]
      rw [splitlines_append_nl (hbf a (List.mem_cons_self _ _))]
      rw [ih has (fun l hl => hbf l (List.mem_cons_of_mem _ hl))]

set_option maxHeartbeats 1000000 in
/-- Splitting the rendered file into lines yields exactly the rendered
    line list, for well-formed non-trivial inputs. -/
theorem render_split {p : String} {es : List MemoryEntry}
    (hp1 : pyStrip p = p) (hp2 : nlOnly p.data = true)
    (hes : ∀ e ∈ es, WFEntry e) (hne : p ≠ "" ∨ es ≠ []) :
    pySplitlines (render_memory_file p es) = renderLines p es := by
  rw [render_memory_file]
  simp only [hp1]
  generalize hbls :
      ((if p ≠ "" then [pySplitlines p] else []) ++ es.map renderEntryLines).map
        (List.map String.data) = bls
  have hpne : p ≠ "" → p.data ≠ [] := by
    intro hpe hcon
    exact hpe (by rw [← strMk_data p, hcon])
  have hplast : p ≠ "" → p.data.getLastD 'x' ≠ '\n' := by
    intro hpe
    have h1 := (stripped_ends (l := p.data) (by rw [← pyStrip_data, hp1]) (hpne hpe)).2
    intro hcon
    rw [hcon] at h1
    exact absurd h1 (by decide)
  have hblocksmap : ((if p ≠ "" then [p] else []) ++ es.map renderEntry).map String.data =
      bls.map (joinWith ['\n']) := by
    rw [← hbls]
    rw [List.map_append, List.map_append, List.map_append,
      List.map_map, List.map_map, List.map_map]
    congr 1
    · by_cases hpe : p = ""
      · simp [hpe]
      · simp only [hpe, ne_eq, not_false_eq_true, if_true, List.map_cons, List.map_nil,
          Function.comp]
        rw [map_data_pySplitlines, join_splitlines hp2 (hplast hpe)]
    · rw [List.map_map]
      apply List.map_congr_left
      intro e he
      show String.data (renderEntry e) = joinWith ['\n'] ((renderEntryLines e).map String.data)
      exact renderEntry_data (hes e he)
  have hblsne : ∀ b ∈ bls, b ≠ [] := by
    intro b hb
    rw [← hbls] at hb
    rcases List.mem_map.mp hb with ⟨lsb, hlsb, hmap⟩
    rcases List.mem_append.mp hlsb with h | h
    · by_cases hpe : p = ""
      · rw [hpe] at h; simp at h
      · rw [if_pos hpe] at h
        simp at h
        subst h
        rw [← hmap]
        intro hcon
        apply hpne hpe
        rw [← splitlines_nil_iff]
        have h2 : (pySplitlines p).map String.data = [] := hcon
        rw [map_data_pySplitlines] at h2
        exact h2
    · rcases List.mem_map.mp h with ⟨e, he, hel⟩
      rw [← hmap, ← hel]
      simp [renderEntryLines]
  have hblsne2 : bls ≠ [] := by
    rw [← hbls]
    rcases hne with h | h
    · simp [h]
    · simp only [ne_eq, List.map_eq_nil_iff, List.append_eq_nil]
      intro ⟨_, hcon⟩
      exact h (by simpa using hcon)
  rw [hblocksmap, ← joinWith_blankSep bls hblsne]
  -- the joined text ends at the last block, which does not end in whitespace
  have hblockne : (if p ≠ "" then [p] else []) ++ es.map renderEntry ≠ [] := by
    rcases hne with h | h
    · simp [h]
    · simp only [ne_eq, List.append_eq_nil]
      intro ⟨_, hcon⟩
      exact h (by simpa using hcon)
  have hlastblock :
      isPyWs ((((if p ≠ "" then [p] else []) ++
        es.map renderEntry).getLastD "").data.getLastD 'x') = false ∧
      (((if p ≠ "" then [p] else []) ++ es.map renderEntry).getLastD "").data ≠ [] := by
    by_cases hese : es = []
    · rcases hne with h | h
      · subst hese
        simp only [List.map_nil, List.append_nil, h, ne_eq, not_false_eq_true, if_true]
        have h1 := stripped_ends (l := p.data) (by rw [← pyStrip_data, hp1]) (hpne h)
        exact ⟨h1.2, hpne h⟩
      · exact absurd hese h
    · have hmapne : es.map renderEntry ≠ [] := by simpa using hese
      rw [getLastD_append_right _ hmapne ""]
      have hesne2 : es ≠ [] := hese
      have hlastmem : es.getLast (by simpa using hese) ∈ es := List.getLast_mem _
      have hwl := renderEntry_ends (hes _ hlastmem)
      rw [getLastD_map_ne renderEntry hesne2 "" (es.getLast (by simpa using hese))]
      rw [show es.getLastD (es.getLast (by simpa using hese)) =
          es.getLast (by simpa using hese) from by
        rw [List.getLastD_eq_getLast?, List.getLast?_eq_getLast _ (by simpa using hese)]
        rfl]
      exact ⟨hwl.2, hwl.1⟩
  have hxlast : isPyWs ((joinWith ['\n'] (joinWith [[]] bls)).getLastD 'x') = false := by
    rw [joinWith_blankSep bls hblsne, ← hblocksmap]
    rw [getLastD_joinWith (show (['\n', '\n'] : List Char) ≠ [] by simp) _
      (by simpa using hblockne)
      (by rw [getLastD_map_ne String.data hblockne [] ""]; exact hlastblock.2) 'x']
    rw [getLastD_map_ne String.data hblockne [] ""]
    exact hlastblock.1
  have hstriprid : stripRightChars (joinWith ['\n'] (joinWith [[]] bls)) =
      joinWith ['\n'] (joinWith [[]] bls) := by
    by_cases hjn : joinWith ['\n'] (joinWith [[]] bls) = []
    · rw [hjn]; rfl
    · exact stripRight_id_of_last hxlast hjn
  have hall : joinWith [[]] bls ≠ [] := by
    cases hb : bls with
    | nil => exact absurd hb hblsne2
    | cons b bs =>
      exact joinWith_ne_nil (hblsne b (hb ▸ List.mem_cons_self _ _))
  have hmembf : ∀ x ∈ joinWith [[]] bls, breakFree x = true := by
    intro x hx
    rcases mem_joinWith_one hx with h | ⟨b, hbmem, hxb⟩
    · subst h; rfl
    · rw [← hbls] at hbmem
      rcases List.mem_map.mp hbmem with ⟨lsb, hlsb, hmap⟩
      rw [← hmap] at hxb
      rcases List.mem_map.mp hxb with ⟨lstr, hlstr, hld⟩
      rw [← hld]
      rcases List.mem_append.mp hlsb with h | h
      · by_cases hpe : p = ""
        · rw [hpe] at h; simp at h
        · rw [if_pos hpe] at h
          simp at h
          subst h
          exact pySplitlines_members_breakFree p lstr hlstr
      · rcases List.mem_map.mp h with ⟨e, he, hel⟩
        subst hel
        exact renderEntryLines_breakFree (hes e he) lstr hlstr
  show pySplitlines (pyRstrip ⟨joinWith ['\n'] (joinWith [[]] bls)⟩ ++ "\n") = _
  have hrdata : (pyRstrip ⟨joinWith ['\n'] (joinWith [[]] bls)⟩ ++ "\n").data =
      joinWith ['\n'] (joinWith [[]] bls) ++ ['\n'] := by
    rw [str_data_append]
    show stripRightChars (joinWith ['\n'] (joinWith [[]] bls)) ++ _ = _
    rw [hstriprid]
  rw [pySplitlines, hrdata, splitlines_join hall hmembf]
  -- wrap the char-level lines back into strings
  rw [← hbls, map_joinWith]
  rw [renderLines]
  simp only [hp1]
  rw [List.map_map]
  have hid : (List.map (fun l : List Char => (⟨l⟩ : String)) ∘ List.map String.data) =
      (fun l : List String => l) := by
    funext l
    simp only [Function.comp, List.map_map]
    conv_rhs => rw [← List.map_id l]
    apply List.map_congr_left
    intro x _
    exact strMk_data x
  rw [hid]
  congr 1
  simp

/-! ### Parsing the rendered lines -/

theorem takeWhile_all {α : Type} {p : α → Bool} {l : List α}
    (h : ∀ x ∈ l, p x = true) : l.takeWhile p = l := by
  induction l with
  | nil => rfl
  | cons a as ih =>
    simp only [List.takeWhile_cons, h a (List.mem_cons_self _ _), if_true]
    rw [ih (fun x hx => h x (List.mem_cons_of_mem _ hx))]

theorem dropWhile_all {α : Type} {p : α → Bool} {l : List α}
    (h : ∀ x ∈ l, p x = true) : l.dropWhile p = [] := by
  induction l with
  | nil => rfl
  | cons a as ih =>
    simp only [List.dropWhile_cons, h a (List.mem_cons_self _ _), if_true]
    exact ih (fun x hx => h x (List.mem_cons_of_mem _ hx))

theorem takeWhile_append_all {α : Type} {p : α → Bool} {a : List α}
    (h : ∀ x ∈ a, p x = true) (b : List α) :
    (a ++ b).takeWhile p = a ++ b.takeWhile p := by
  induction a with
  | nil => rfl
  | cons x xs ih =>
    simp only [List.cons_append, List.takeWhile_cons, h x (List.mem_cons_self _ _), if_true]
    rw [ih (fun y hy => h y (List.mem_cons_of_mem _ hy))]

theorem dropWhile_append_all {α : Type} [DecidableEq α] {p : α → Bool} {a : List α}
    (h : ∀ x ∈ a, p x = true) (b : List α) :
    (a ++ b).dropWhile p = b.dropWhile p := by
  rw [dropWhile_append_cases, if_pos (dropWhile_all h)]

/-- A rendered header line parses back to the same id. -/
theorem entryHeader_header {id : String} (h1 : id ≠ "")
    (h2 : id.data.all isEntryIdChar = true) :
    entryHeader ("### mem:" ++ id) = some id := by
  have hred : entryHeader ("### mem:" ++ id) =
      (if ((id.data.takeWhile (fun c => isEntryIdChar c)) ≠ [] &&
          (id.data.dropWhile (fun c => isEntryIdChar c)).all (fun c => isPyWs c)) = true then
        some ⟨id.data.takeWhile (fun c => isEntryIdChar c)⟩
      else none) := rfl
  have hall : ∀ x ∈ id.data, isEntryIdChar x = true := List.all_eq_true.mp h2
  have hne : id.data ≠ [] := fun hcon => h1 (by rw [← strMk_data id, hcon])
  rw [hred, takeWhile_all hall, dropWhile_all hall]
  simp [hne, strMk_data]

/-- Inversion: a line accepted by `entryHeader` has the regex shape. -/
theorem entryHeader_shape {l : String} {id : String} (h : entryHeader l = some id) :
    ∃ w r, l.data = '#' :: '#' :: '#' :: (w ++ 'm' :: 'e' :: 'm' :: ':' :: (id.data ++ r)) ∧
      w ≠ [] ∧ (∀ c ∈ w, isPyWs c = true) ∧ (∀ c ∈ r, isPyWs c = true) := by
  unfold entryHeader at h
  split at h <;> try cases h
  split at h <;> try cases h
  split at h <;> try cases h
  split at h <;> try cases h
  split at h <;> try cases h
  rename_i a b hd hs heq1 hws c r heq2 hcond
  rw [Bool.and_eq_true] at hcond
  refine ⟨(hd :: hs).takeWhile (fun c => isPyWs c),
    List.dropWhile (fun c => isEntryIdChar c) r, ?_, ?_, ?_, ?_⟩
  · rw [heq1]
    congr 1
    congr 1
    congr 1
    conv_rhs => rw [show (⟨List.takeWhile (fun c => isEntryIdChar c) r⟩ : String).data =
      List.takeWhile (fun c => isEntryIdChar c) r from rfl]
    rw [takeWhile_append_dropWhile_eq (fun c => isEntryIdChar c) r, ← heq2,
      takeWhile_append_dropWhile_eq]
  · simp [List.takeWhile_cons, hws]
  · intro x hx
    exact (mem_takeWhile_both hx).2
  · intro x hx
    exact List.all_eq_true.mp hcond.2 x hx

/-- A rendered `key: value` metadata line is never an entry header. -/
theorem entryHeader_metaLine {k v : String} (hk : ':' ∉ k.data) :
    entryHeader (k ++ ": " ++ v) = none := by
  cases hh : entryHeader (k ++ ": " ++ v) with
  | none => rfl
  | some id =>
    exfalso
    obtain ⟨w, r, hdata, hwne, hwws, hrws⟩ := entryHeader_shape hh
    obtain ⟨hid1, hid2⟩ := entryHeader_some_wf hh
    have hkdata : (k ++ ": " ++ v).data = k.data ++ ':' :: ' ' :: v.data := by
      rw [str_data_append, str_data_append]
      simp
    rw [hkdata] at hdata
    have hresh : '#' :: '#' :: '#' :: (w ++ 'm' :: 'e' :: 'm' :: ':' :: (id.data ++ r)) =
        (['#', '#', '#'] ++ w ++ ['m', 'e', 'm']) ++ ':' :: (id.data ++ r) := by
      simp
    rw [hresh] at hdata
    have hL : (k.data ++ ':' :: ' ' :: v.data).dropWhile (fun c => !decide (c = ':')) =
        ':' :: ' ' :: v.data := by
      rw [dropWhile_append_all (fun x hx => by
        simpa using (show x ≠ ':' from fun hcon => hk (hcon ▸ hx)))]
      simp [List.dropWhile_cons]
    have hR : ((['#', '#', '#'] ++ w ++ ['m', 'e', 'm']) ++
        ':' :: (id.data ++ r)).dropWhile (fun c => !decide (c = ':')) =
        ':' :: (id.data ++ r) := by
      rw [dropWhile_append_all (fun x hx => by
        have hxne : x ≠ ':' := by
          rcases List.mem_append.mp hx with h | h
          · rcases List.mem_append.mp h with h | h
            · intro hcon
              subst hcon
              revert h
              decide
            · exact fun hcon => absurd (hwws _ h) (by rw [hcon]; decide)
          · intro hcon
            subst hcon
            revert h
            decide
        simpa using hxne)]
      simp [List.dropWhile_cons]
    have hcol : (':' :: ' ' :: v.data : List Char) = ':' :: (id.data ++ r) := by
      rw [← hL, ← hR, hdata]
    injection hcol with _ hcol2
    cases hidd : id.data with
    | nil => exact hid1 (by rw [← strMk_data id, hidd])
    | cons c cs =>
      rw [hidd, List.cons_append] at hcol2
      injection hcol2 with hc _
      have hcmem : c ∈ id.data := by
        rw [hidd]
        exact List.mem_cons_self _ _
      have hidc := List.all_eq_true.mp hid2 c hcmem
      rw [← hc] at hidc
      exact absurd hidc (by decide)

/-- Stripping a rendered `key: value` line only removes the padding after
    the colon when the value is empty. -/
theorem metaLine_strip {k v : String} (hkw : wfKeyVal (k, v)) :
    (pyStrip (k ++ ": " ++ v)).data =
      k.data ++ ':' :: (if v = "" then [] else ' ' :: v.data) := by
  obtain ⟨hk1, hk2, hk3, hv1, hv2⟩ := hkw
  have hkdata : (k ++ ": " ++ v).data = k.data ++ ':' :: ' ' :: v.data := by
    rw [str_data_append, str_data_append]
    simp
  have hkstr : pyStripChars k.data = k.data := by
    have := congrArg String.data hk1
    rw [pyStrip_data] at this
    exact this
  have hhead : ∀ t : List Char, isPyWs ((k.data ++ ':' :: t).headD 'x') = false := by
    intro t
    cases hkd : k.data with
    | nil => rfl
    | cons c cs =>
      rw [List.cons_append, List.headD_cons]
      have := (stripped_ends (hkd ▸ hkstr) (by simp)).1
      rw [List.headD_cons] at this
      exact this
  rw [pyStrip_data, hkdata]
  by_cases hv : v = ""
  · subst hv
    rw [if_pos rfl]
    have hresh : (k.data ++ ':' :: ' ' :: ("" : String).data) =
        (k.data ++ [':']) ++ [' '] := by
      simp
    rw [hresh, strip_append_ws (by decide)]
    apply strip_id_of_ends
    · simp
    · have := hhead []
      simpa using this
    · rw [getLastD_append_right k.data (by simp) 'x']
      decide
  · rw [if_neg hv]
    have hvne : v.data ≠ [] := fun hcon => hv (by rw [← strMk_data v, hcon])
    have hvstr : pyStripChars v.data = v.data := by
      have := congrArg String.data hv1
      rw [pyStrip_data] at this
      exact this
    apply strip_id_of_ends
    · simp
    · exact hhead _
    · rw [getLastD_append_right k.data (by simp) 'x', List.getLastD_cons, List.getLastD_cons,
        getLastD_indep hvne ' ' 'x']
      exact (stripped_ends hvstr hvne).2

/-- `parseMeta` consumes a rendered `key: value` line into exactly the
    original pair. -/
theorem parseMeta_metaLine {k v : String} (hkw : wfKeyVal (k, v)) (rest : List String)
    (acc : MetaMap) :
    parseMeta ((k ++ ": " ++ v) :: rest) acc = parseMeta rest (metaSet acc k v) := by
  have hstrip := metaLine_strip hkw
  obtain ⟨hk1, hk2, hk3, hv1, hv2⟩ := hkw
  have hk1' : pyStrip k = k := hk1
  have hk2' : ':' ∉ k.data := hk2
  have hv1' : pyStrip v = v := hv1
  have hne : pyStrip (k ++ ": " ++ v) ≠ "---" := by
    intro hcon
    have h2 := congrArg String.data hcon
    rw [hstrip] at h2
    have hmem : ':' ∈ (("---" : String).data) := by
      rw [← h2]
      simp
    simp at hmem
  have hcolon : ':' ∈ (pyStrip (k ++ ": " ++ v)).data := by
    rw [hstrip]
    simp
  simp only [parseMeta]
  rw [if_neg hne, if_pos hcolon, hstrip]
  have hallk : ∀ x ∈ k.data, (fun c => decide (c ≠ ':')) x = true := by
    intro x hx
    exact decide_eq_true (fun hcon => hk2' (hcon ▸ hx))
  rw [takeWhile_append_all hallk, dropWhile_append_all hallk]
  simp only [List.takeWhile_cons, List.dropWhile_cons, decide_not, decide_eq_true_eq]
  norm_num
  rw [show (⟨k.data⟩ : String) = k from strMk_data k, hk1']
  by_cases hv : v = ""
  · subst hv
    rw [if_pos rfl]
    rfl
  · rw [if_neg hv]
    have hval : pyStrip ⟨' ' :: v.data⟩ = v := by
      have hvstr : pyStripChars v.data = v.data := by
        have h3 := congrArg String.data hv1'
        rw [pyStrip_data] at h3
        exact h3
      show (⟨pyStripChars (' ' :: v.data)⟩ : String) = v
      rw [strip_cons_ws (by decide), hvstr, strMk_data]
    rw [hval]

/-- `parseMeta` over the rendered metadata block recovers the fold of the
    key/value pairs and stops at the separator. -/
theorem parseMeta_rendered (ks : List String) (g : String → String)
    (h : ∀ x ∈ ks, wfKeyVal (x, g x)) (rest : List String) (acc : MetaMap) :
    parseMeta ((ks.map (fun x => x ++ ": " ++ g x)) ++ "---" :: rest) acc =
      (ks.foldl (fun a x => metaSet a x (g x)) acc, rest) := by
  induction ks generalizing acc with
  | nil =>
    simp only [List.map_nil, List.nil_append, List.foldl_nil, parseMeta]
    rw [if_pos (show pyStrip "---" = "---" by decide)]
  | cons x xs ih =>
    simp only [List.map_cons, List.cons_append, List.foldl_cons]
    rw [parseMeta_metaLine (h x (List.mem_cons_self _ _))]
    exact ih (fun y hy => h y (List.mem_cons_of_mem _ hy)) _

/-- Every present key appears in `renderKeys`. -/
theorem renderKeys_complete {e : MemoryEntry} {key v : String}
    (h : metaGet e.meta key = some v) : key ∈ renderKeys e := by
  by_cases hd : key ∈ DEFAULT_META_ORDER
  · refine List.mem_append.mpr (Or.inl (List.mem_filter.mpr ⟨hd, ?_⟩))
    rw [h]
    rfl
  · refine List.mem_append.mpr (Or.inr (mem_sortStrings.mpr (List.mem_filter.mpr ⟨?_, ?_⟩)))
    · exact List.mem_map.mpr ⟨(key, v), mem_of_metaGet_eq_some h, rfl⟩
    · simpa using hd

/-- Re-inserting the rendered keys in order rebuilds the sorted meta map. -/
theorem foldSet_renderKeys {e : MemoryEntry} (hms : metaSorted e.meta) :
    (renderKeys e).foldl (fun a x => metaSet a x (metaGetD e.meta x "")) [] = e.meta := by
  apply metaExt (foldSet_sorted _ _ metaSorted_nil) hms
  intro key
  rw [foldSet_lookup]
  by_cases hk : key ∈ renderKeys e
  · rw [if_pos hk]
    obtain ⟨v, hv⟩ := renderKeys_present hms hk
    rw [hv]
    simp [metaGetD, hv]
  · rw [if_neg hk]
    cases hg : metaGet e.meta key with
    | none => rfl
    | some v => exact absurd (renderKeys_complete hg) hk

/-- Stripping the rejoined split lines of a stripped body is the identity. -/
theorem strip_join_splitlines {b : String} (h1 : pyStrip b = b) (h2 : nlOnly b.data = true) :
    pyStrip (joinNL (pySplitlines b)) = b := by
  by_cases hb : b = ""
  · subst hb
    rfl
  · have hbne : b.data ≠ [] := fun hcon => hb (by rw [← strMk_data b, hcon])
    have hstr : pyStripChars b.data = b.data := by
      have h3 := congrArg String.data h1
      rw [pyStrip_data] at h3
      exact h3
    have hlast : b.data.getLastD 'x' ≠ '\n' := by
      intro hcon
      have h4 := (stripped_ends hstr hbne).2
      rw [hcon] at h4
      exact absurd h4 (by decide)
    have hjoin : joinNL (pySplitlines b) = b := by
      show (⟨joinWith ['\n'] ((pySplitlines b).map String.data)⟩ : String) = b
      rw [map_data_pySplitlines, join_splitlines h2 hlast, strMk_data]
    rw [hjoin, h1]

/-- The same, with the blank separator line that precedes the next block. -/
theorem strip_join_splitlines_blank {b : String} (h1 : pyStrip b = b)
    (h2 : nlOnly b.data = true) :
    pyStrip (joinNL (pySplitlines b ++ [""])) = b := by
  by_cases hb : b = ""
  · subst hb
    rfl
  · have hbne : b.data ≠ [] := fun hcon => hb (by rw [← strMk_data b, hcon])
    have hstr : pyStripChars b.data = b.data := by
      have h3 := congrArg String.data h1
      rw [pyStrip_data] at h3
      exact h3
    have hlast : b.data.getLastD 'x' ≠ '\n' := by
      intro hcon
      have h4 := (stripped_ends hstr hbne).2
      rw [hcon] at h4
      exact absurd h4 (by decide)
    have hmapne : (pySplitlines b).map String.data ≠ [] := by
      rw [map_data_pySplitlines]
      intro hcon
      exact hbne ((splitlines_nil_iff b.data).mp hcon)
    show (⟨pyStripChars (joinWith ['\n'] ((pySplitlines b ++ [""]).map String.data))⟩ :
      String) = b
    rw [List.map_append, joinWith_append ['\n'] hmapne (by simp)]
    rw [show ((([""] : List String).map String.data) : List (List Char)) = [[]] from rfl]
    rw [show (joinWith ['\n'] [[]] : List Char) = [] from rfl, List.append_nil,
      strip_append_ws (by decide), map_data_pySplitlines, join_splitlines h2 hlast, hstr,
      strMk_data]

/-- Unfolding of `parseEntries` at a header line. -/
theorem parseEntries_cons_some {l : String} {id : String} (h : entryHeader l = some id)
    (rest : List String) :
    parseEntries (l :: rest) =
      { entry_id := id, meta := (parseMeta rest []).1,
        body := pyStrip (joinNL ((parseMeta rest []).2.takeWhile noHeader)) } ::
      parseEntries ((parseMeta rest []).2.dropWhile noHeader) := by
  rw [parseEntries, h]

theorem parseEntries_nil : parseEntries [] = [] := by rw [parseEntries]

/-- Parsing the line blocks of rendered entries recovers the entries,
    provided no body line looks like an entry header. -/
theorem parseEntries_rendered {es : List MemoryEntry} (hwf : ∀ e ∈ es, WFEntry e)
    (hhf : ∀ e ∈ es, (pySplitlines e.body).all noHeader = true) :
    parseEntries (joinWith [""] (es.map renderEntryLines)) = es := by
  induction es with
  | nil =>
    rw [List.map_nil]
    exact parseEntries_nil
  | cons e rest ih =>
    obtain ⟨hid1, hid2, hms, hmwf, hb1, hb2⟩ := hwf e (List.mem_cons_self _ _)
    have hkwf : ∀ x ∈ renderKeys e, wfKeyVal (x, metaGetD e.meta x "") := by
      intro x hx
      obtain ⟨v, hv⟩ := renderKeys_present hms hx
      have h5 := hmwf (x, v) (mem_of_metaGet_eq_some hv)
      rw [show metaGetD e.meta x "" = v from by simp [metaGetD, hv]]
      exact h5
    have hhead := entryHeader_header hid1 hid2
    have hbodyall : ∀ x ∈ pySplitlines e.body, noHeader x = true :=
      List.all_eq_true.mp (hhf e (List.mem_cons_self _ _))
    cases rest with
    | nil =>
      show parseEntries (renderEntryLines e) = [e]
      simp only [renderEntryLines, List.cons_append, List.append_assoc,
        List.singleton_append]
      rw [parseEntries_cons_some hhead]
      simp only [parseMeta_rendered (renderKeys e) (fun x => metaGetD e.meta x "") hkwf,
        List.nil_append]
      rw [takeWhile_all hbodyall, dropWhile_all hbodyall,
        foldSet_renderKeys hms, strip_join_splitlines hb1 hb2, parseEntries_nil]
    | cons e2 rest2 =>
      obtain ⟨hid1b, hid2b, _, _, _, _⟩ :=
        hwf e2 (List.mem_cons_of_mem _ (List.mem_cons_self _ _))
      have hheadb := entryHeader_header hid1b hid2b
      have hnhb : noHeader ("### mem:" ++ e2.entry_id) = false := by
        simp [noHeader, hheadb]
      have hJ : ∃ t, joinWith [""] ((e2 :: rest2).map renderEntryLines) =
          ("### mem:" ++ e2.entry_id) :: t := by
        cases rest2 with
        | nil => exact ⟨_, rfl⟩
        | cons e3 rest3 =>
          refine ⟨((renderKeys e2).map (fun x => x ++ ": " ++ metaGetD e2.meta x "") ++
            ["---"] ++ pySplitlines e2.body) ++ ([""] ++
            joinWith [""] ((e3 :: rest3).map renderEntryLines)), ?_⟩
          rw [List.map_cons, joinWith_cons _ _ (by simp)]
          simp only [renderEntryLines, List.cons_append, List.append_assoc]
      obtain ⟨t, hJt⟩ := hJ
      rw [List.map_cons, joinWith_cons _ _ (by simp), hJt]
      simp only [renderEntryLines, List.cons_append, List.append_assoc, List.singleton_append]
      rw [parseEntries_cons_some hhead]
      simp only [parseMeta_rendered (renderKeys e) (fun x => metaGetD e.meta x "") hkwf,
        List.nil_append]
      have htw : (pySplitlines e.body ++ "" :: ("### mem:" ++ e2.entry_id) :: t).takeWhile
          noHeader = pySplitlines e.body ++ [""] := by
        rw [takeWhile_append_all hbodyall]
        simp [List.takeWhile_cons, hnhb, show noHeader "" = true from rfl]
      have hdw : (pySplitlines e.body ++ "" :: ("### mem:" ++ e2.entry_id) :: t).dropWhile
          noHeader = ("### mem:" ++ e2.entry_id) :: t := by
        rw [dropWhile_append_all hbodyall]
        simp [List.dropWhile_cons, hnhb, show noHeader "" = true from rfl]
      rw [htw, hdw, foldSet_renderKeys hms, strip_join_splitlines_blank hb1 hb2, ← hJt,
        ih (fun x hx => hwf x (List.mem_cons_of_mem _ hx))
          (fun x hx => hhf x (List.mem_cons_of_mem _ hx))]

/-- The first rendered line of a nonempty entry list is its header. -/
theorem renderBlocks_head (e : MemoryEntry) (rest : List MemoryEntry) :
    ∃ t, joinWith [""] ((e :: rest).map renderEntryLines) =
      ("### mem:" ++ e.entry_id) :: t := by
  cases rest with
  | nil => exact ⟨_, rfl⟩
  | cons e3 rest3 =>
    refine ⟨((renderKeys e).map (fun x => x ++ ": " ++ metaGetD e.meta x "") ++
      ["---"] ++ pySplitlines e.body) ++ ([""] ++
      joinWith [""] ((e3 :: rest3).map renderEntryLines)), ?_⟩
    rw [List.map_cons, joinWith_cons _ _ (by simp)]
    simp only [renderEntryLines, List.cons_append, List.append_assoc]

/-- Re-parsing a rendered well-formed parse result recovers it, provided
    no preamble or body line is an entry header. -/
theorem parse_render {p : String} {es : List MemoryEntry}
    (hwf : WFParse (p, es))
    (hp : (pySplitlines p).all noHeader = true)
    (hb : ∀ e ∈ es, (pySplitlines e.body).all noHeader = true) :
    parse_memory_file (render_memory_file p es) = (p, es) := by
  obtain ⟨hp1, hp2, hes⟩ := hwf
  have hp1' : pyStrip p = p := hp1
  have hp2' : nlOnly p.data = true := hp2
  have hpall : ∀ x ∈ pySplitlines p, noHeader x = true := List.all_eq_true.mp hp
  by_cases hboth : p = "" ∧ es = []
  · obtain ⟨h1, h2⟩ := hboth
    subst h1
    subst h2
    have h0 : render_memory_file "" [] = "\n" := rfl
    rw [h0]
    show (pyStrip (joinNL ((pySplitlines "\n").takeWhile noHeader)),
      parseEntries ((pySplitlines "\n").dropWhile noHeader)) = ("", [])
    rw [show ((pySplitlines "\n").dropWhile noHeader) = [] from rfl, parseEntries_nil]
    rfl
  · have hne : p ≠ "" ∨ es ≠ [] := by
      by_cases h1 : p = ""
      · exact Or.inr (fun h2 => hboth ⟨h1, h2⟩)
      · exact Or.inl h1
    have hsplit := render_split hp1' hp2' hes hne
    show (pyStrip (joinNL ((pySplitlines (render_memory_file p es)).takeWhile noHeader)),
      parseEntries ((pySplitlines (render_memory_file p es)).dropWhile noHeader)) = (p, es)
    rw [hsplit, renderLines]
    simp only [hp1']
    by_cases hpe : p = ""
    · subst hpe
      simp only [ne_eq, not_true_eq_false, if_false, List.nil_append]
      cases hese : es with
      | nil =>
        rcases hne with h | h
        · exact absurd rfl h
        · exact absurd hese h
      | cons e rest =>
        obtain ⟨hid1, hid2, _, _, _, _⟩ := hes e (hese ▸ List.mem_cons_self _ _)
        have hnh : noHeader ("### mem:" ++ e.entry_id) = false := by
          simp [noHeader, entryHeader_header hid1 hid2]
        obtain ⟨t, hJt⟩ := renderBlocks_head e rest
        rw [hJt, List.takeWhile_cons, List.dropWhile_cons, hnh]
        simp only [if_neg (by simp : ¬(false = true))]
        rw [← hJt, parseEntries_rendered (hese ▸ hes) (hese ▸ hb)]
        rfl
    · simp only [hpe, ne_eq, not_false_eq_true, if_true]
      cases hese : es with
      | nil =>
        show (pyStrip (joinNL ((pySplitlines p).takeWhile noHeader)),
          parseEntries ((pySplitlines p).dropWhile noHeader)) = (p, [])
        rw [takeWhile_all hpall, dropWhile_all hpall, parseEntries_nil,
          strip_join_splitlines hp1' hp2']
      | cons e rest =>
        obtain ⟨hid1, hid2, _, _, _, _⟩ := hes e (hese ▸ List.mem_cons_self _ _)
        have hnh : noHeader ("### mem:" ++ e.entry_id) = false := by
          simp [noHeader, entryHeader_header hid1 hid2]
        obtain ⟨t, hJt⟩ := renderBlocks_head e rest
        simp only [List.singleton_append]
        rw [joinWith_cons _ _ (by simp), hJt]
        have hresh : pySplitlines p ++ [""] ++ ("### mem:" ++ e.entry_id) :: t =
            pySplitlines p ++ "" :: ("### mem:" ++ e.entry_id) :: t := by
          simp
        rw [hresh]
        have htw : (pySplitlines p ++ "" :: ("### mem:" ++ e.entry_id) :: t).takeWhile
            noHeader = pySplitlines p ++ [""] := by
          rw [takeWhile_append_all hpall]
          simp [List.takeWhile_cons, hnh, show noHeader "" = true from rfl]
        have hdw : (pySplitlines p ++ "" :: ("### mem:" ++ e.entry_id) :: t).dropWhile
            noHeader = ("### mem:" ++ e.entry_id) :: t := by
          rw [dropWhile_append_all hpall]
          simp [List.dropWhile_cons, hnh, show noHeader "" = true from rfl]
        rw [htw, hdw, strip_join_splitlines_blank hp1' hp2', ← hJt,
          parseEntries_rendered (hese ▸ hes) (hese ▸ hb)]

/-! ## C1: parse/render round trip -/

/-- No line of the parsed preamble or of any parsed body re-reads as an
    entry header when rendered verbatim. -/
def headerFree (pr : String × List MemoryEntry) : Prop :=
  (pySplitlines pr.1).all noHeader = true ∧
  ∀ e ∈ pr.2, (pySplitlines e.body).all noHeader = true

/-- C1 (counterexample): the round trip `parse (render (parse F)) = parse F`
    fails for `F = " ### mem:q\nhello"`: the indented header-like line is
    preamble on the first parse, but stripping the preamble promotes it to a
    real entry header, so the second parse returns an entry instead. -/
theorem C1_roundtrip_cex :
    parse_memory_file (render_memory_file
      (parse_memory_file " ### mem:q\nhello").1
      (parse_memory_file " ### mem:q\nhello").2) ≠
    parse_memory_file " ### mem:q\nhello" := by
  have hparse : parse_memory_file " ### mem:q\nhello" =
      ("### mem:q\nhello", ([] : List MemoryEntry)) := by
    show (pyStrip (joinNL ((pySplitlines " ### mem:q\nhello").takeWhile noHeader)),
      parseEntries ((pySplitlines " ### mem:q\nhello").dropWhile noHeader)) = _
    rw [show (pySplitlines " ### mem:q\nhello").dropWhile noHeader = [] from rfl,
      parseEntries_nil]
    rfl
  rw [hparse]
  show parse_memory_file (render_memory_file "### mem:q\nhello" []) ≠ _
  rw [show render_memory_file "### mem:q\nhello" [] = "### mem:q\nhello\n" from rfl]
  have hparse2 : parse_memory_file "### mem:q\nhello\n" =
      ("", [⟨"q", [], ""⟩]) := by
    show (pyStrip (joinNL ((pySplitlines "### mem:q\nhello\n").takeWhile noHeader)),
      parseEntries ((pySplitlines "### mem:q\nhello\n").dropWhile noHeader)) = _
    rw [show (pySplitlines "### mem:q\nhello\n").dropWhile noHeader =
      ["### mem:q", "hello"] from rfl]
    rw [parseEntries_cons_some (show entryHeader "### mem:q" = some "q" from rfl)]
    simp only [show parseMeta ["hello"] [] = (([] : MetaMap), ([] : List String)) from rfl]
    rw [show (([] : List String).dropWhile noHeader) = [] from rfl, parseEntries_nil]
    rfl
  rw [hparse2]
  decide

/-- C1 (amended: the round trip holds only for parse results none of whose
    preamble or body lines re-reads as an entry header; stripping can promote
    an indented header-like line, as the counterexample shows): for every
    file text `F`, if `parse_memory_file F` is header-free in that sense,
    then rendering it and parsing again returns it unchanged. -/
theorem C1_roundtrip_amended (F : String)
    (h : headerFree (parse_memory_file F)) :
    parse_memory_file
      (render_memory_file (parse_memory_file F).1 (parse_memory_file F).2) =
      parse_memory_file F := by
  obtain ⟨h1, h2⟩ := h
  have hwf := parse_memory_file_wf F
  rcases hF : parse_memory_file F with ⟨p, es⟩
  rw [hF] at hwf h1 h2
  exact parse_render hwf h1 h2

theorem C1_roundtrip_amended_witness :
    headerFree (parse_memory_file "intro\n\n### mem:a1\ntime: 2024-05-01\n---\nBody text\n") ∧
    parse_memory_file (render_memory_file
      (parse_memory_file "intro\n\n### mem:a1\ntime: 2024-05-01\n---\nBody text\n").1
      (parse_memory_file "intro\n\n### mem:a1\ntime: 2024-05-01\n---\nBody text\n").2) =
      parse_memory_file "intro\n\n### mem:a1\ntime: 2024-05-01\n---\nBody text\n" := by
  have hparse : parse_memory_file "intro\n\n### mem:a1\ntime: 2024-05-01\n---\nBody text\n" =
      ("intro", [⟨"a1", [("time", "2024-05-01")], "Body text"⟩]) := by
    show (pyStrip (joinNL ((pySplitlines
        "intro\n\n### mem:a1\ntime: 2024-05-01\n---\nBody text\n").takeWhile noHeader)),
      parseEntries ((pySplitlines
        "intro\n\n### mem:a1\ntime: 2024-05-01\n---\nBody text\n").dropWhile noHeader)) = _
    rw [show (pySplitlines
        "intro\n\n### mem:a1\ntime: 2024-05-01\n---\nBody text\n").dropWhile noHeader =
      ["### mem:a1", "time: 2024-05-01", "---", "Body text"] from rfl]
    rw [parseEntries_cons_some (show entryHeader "### mem:a1" = some "a1" from rfl)]
    simp only [show parseMeta ["time: 2024-05-01", "---", "Body text"] [] =
      (([("time", "2024-05-01")] : MetaMap), (["Body text"] : List String)) from rfl]
    rw [show ((["Body text"] : List String).dropWhile noHeader) = [] from rfl,
      parseEntries_nil]
    rfl
  constructor
  · rw [hparse]
    exact ⟨by decide, by decide⟩
  · exact C1_roundtrip_amended _ (by rw [hparse]; exact ⟨by decide, by decide⟩)

/-! ## C2: heuristic drift classifier -/

/-- `weekly_drift_review.SUPERSEDE_HINTS` (src/scripts). -/
def SUPERSEDE_HINTS : List String :=
  ["no longer", "replaced", "supersede", "superseded", "instead", "changed to",
   "moved from", "switched to", "switched from", "switched", "changed", "moved",
   "updated", "migrated", "deprecated", "outdated", "obsolete"]

/-- `weekly_drift_review.classify_relation_heuristic`. -/
def classify_relation_heuristic (newer older : MemoryEntry) : String :=
  let sim := jaccard_similarity newer.token_set older.token_set
  let body := pyLower newer.body
  if sim ≥ 5/100 ∧ SUPERSEDE_HINTS.any (fun h => strContains body h) = true then
    "SUPERSEDES"
  else if sim ≥ 85/100 then "REINFORCES"
  else if sim ≥ 55/100 then "REFINES"
  else "UNRELATED"

/-- The supersede-hint phrases as the spec lists them (15 phrases; for the
    refinement comparison with the code's list). -/
def SPEC_SUPERSEDE_HINTS : List String :=
  ["no longer", "replaced", "supersede", "instead", "changed to", "moved from",
   "switched to", "switched", "changed", "moved", "updated", "migrated",
   "deprecated", "outdated", "obsolete"]

theorem subAt_of_append {a b h : List Char} (hs : subAt (a ++ b) h = true) :
    subAt a h = true := by
  induction a generalizing h with
  | nil => rfl
  | cons x xs ih =>
    cases h with
    | nil => simp [subAt] at hs
    | cons y ys =>
      simp only [List.cons_append, subAt, Bool.and_eq_true] at hs ⊢
      exact ⟨hs.1, ih hs.2⟩

theorem containsSub_of_append {hay a b : List Char}
    (h : containsSub hay (a ++ b) = true) : containsSub hay a = true := by
  induction hay with
  | nil =>
    simp only [containsSub] at h ⊢
    cases a with
    | nil => rfl
    | cons x xs => simp [subAt] at h
  | cons c cs ih =>
    simp only [containsSub, Bool.or_eq_true] at h ⊢
    rcases h with h | h
    · exact Or.inl (subAt_of_append h)
    · exact Or.inr (ih h)

theorem strContains_of_append {hay a b : String}
    (h : strContains hay (a ++ b) = true) : strContains hay a = true := by
  have h2 : containsSub hay.data (a.data ++ b.data) = true := by
    rw [← str_data_append]
    exact h
  exact containsSub_of_append h2

/-- The code's 17 hint phrases fire exactly when one of the spec's 15 does:
    the two extra phrases contain a listed phrase. -/
theorem hints_iff (body : String) :
    SUPERSEDE_HINTS.any (fun h => strContains body h) = true ↔
      ∃ h ∈ SPEC_SUPERSEDE_HINTS, strContains body h = true := by
  constructor
  · intro hh
    rcases List.any_eq_true.mp hh with ⟨x, hx, hpx⟩
    fin_cases hx
    · exact ⟨"no longer", by decide, hpx⟩
    · exact ⟨"replaced", by decide, hpx⟩
    · exact ⟨"supersede", by decide, hpx⟩
    · exact ⟨"supersede", by decide,
        strContains_of_append (show strContains body ("supersede" ++ "d") = true from hpx)⟩
    · exact ⟨"instead", by decide, hpx⟩
    · exact ⟨"changed to", by decide, hpx⟩
    · exact ⟨"moved from", by decide, hpx⟩
    · exact ⟨"switched to", by decide, hpx⟩
    · exact ⟨"switched", by decide,
        strContains_of_append (show strContains body ("switched" ++ " from") = true from hpx)⟩
    · exact ⟨"switched", by decide, hpx⟩
    · exact ⟨"changed", by decide, hpx⟩
    · exact ⟨"moved", by decide, hpx⟩
    · exact ⟨"updated", by decide, hpx⟩
    · exact ⟨"migrated", by decide, hpx⟩
    · exact ⟨"deprecated", by decide, hpx⟩
    · exact ⟨"outdated", by decide, hpx⟩
    · exact ⟨"obsolete", by decide, hpx⟩
  · intro ⟨h, hmem, hp⟩
    apply List.any_eq_true.mpr
    refine ⟨h, ?_, hp⟩
    have hsub : ∀ x ∈ SPEC_SUPERSEDE_HINTS, x ∈ SUPERSEDE_HINTS := by decide
    exact hsub h hmem

/-- C2: for every ordered pair of entries, the heuristic classifier returns
    SUPERSEDES exactly when the token Jaccard similarity is at least 0.05 and
    the newer entry's lowercased body contains one of the spec's supersede-hint
    phrases; otherwise REINFORCES at J ≥ 0.85, REFINES at J ≥ 0.55, and
    UNRELATED below. -/
theorem C2_classifier_matches_spec (newer older : MemoryEntry) :
    classify_relation_heuristic newer older =
      if jaccard_similarity newer.token_set older.token_set ≥ 5/100 ∧
          (∃ h ∈ SPEC_SUPERSEDE_HINTS, strContains (pyLower newer.body) h = true) then
        "SUPERSEDES"
      else if jaccard_similarity newer.token_set older.token_set ≥ 85/100 then
        "REINFORCES"
      else if jaccard_similarity newer.token_set older.token_set ≥ 55/100 then
        "REFINES"
      else "UNRELATED" := by
  simp only [classify_relation_heuristic]
  rw [if_congr (and_congr_right (fun _ => hints_iff (pyLower newer.body))) rfl rfl]

/-! ## C3: the LLM review path is unreachable -/

/-- Top-level names defined by `src/scripts/llm_contradiction_client.py`
    (classes, functions and module constants). -/
def llm_contradiction_client_names : List String :=
  ["DEFAULT_MODEL", "DEFAULT_TIMEOUT", "OLLAMA_HOST", "MAX_RETRIES",
   "MAX_CACHE_SIZE", "CACHE_TTL_SECONDS", "LLMContradictionError",
   "LLMUnavailableError", "ClassificationResult", "LLMContradictionClient",
   "main"]

/-- Top-level names defined by `src/scripts/candidate_generator.py`. -/
def candidate_generator_names : List String :=
  ["compute_similarity", "SemanticEntry", "CandidatePair",
   "ContradictionCandidateGenerator", "load_test_data", "main"]

/-- Top-level names defined by `src/scripts/classification_engine.py`
    (were its own imports to succeed). -/
def classification_engine_names : List String :=
  ["ClassificationAction", "ClassificationReport", "ClassificationEngine",
   "create_default_engine"]

/-- Python `from M import a, b, ...` succeeds iff every requested name is a
    top-level name of the module. -/
def fromImportOk (defined requested : List String) : Bool :=
  requested.all (fun n => n ∈ defined)

/-- `weekly_drift_review.NEW_COMPONENTS_AVAILABLE`: true iff every import of
    the try block succeeds.  (This over-approximates the last conjunct:
    `classification_engine` itself would fail to load because its line-18
    statement requests the same missing names, but the middle conjunct is
    already false.) -/
def NEW_COMPONENTS_AVAILABLE : Bool :=
  fromImportOk candidate_generator_names
      ["ContradictionCandidateGenerator", "CandidatePair", "SemanticEntry"] &&
    fromImportOk llm_contradiction_client_names
      ["LLMContradictionClient", "ContradictionResult", "RelationType"] &&
    fromImportOk classification_engine_names
      ["ClassificationEngine", "ClassificationAction", "create_default_engine"]

/-- `weekly_drift_review.main`: `use_legacy = not args.use_llm or not
    NEW_COMPONENTS_AVAILABLE`. -/
def drift_use_legacy (use_llm : Bool) : Bool :=
  !use_llm || !NEW_COMPONENTS_AVAILABLE

/-- C3: the import of `ContradictionResult` and `RelationType` from
    `llm_contradiction_client` always fails (the module defines
    `ClassificationResult` and no `RelationType`), so
    `NEW_COMPONENTS_AVAILABLE` is always false and the weekly drift review
    takes the legacy heuristic path regardless of the `--use-llm` flag. -/
theorem C3_llm_path_unreachable :
    ("ContradictionResult" ∉ llm_contradiction_client_names) ∧
    ("RelationType" ∉ llm_contradiction_client_names) ∧
    NEW_COMPONENTS_AVAILABLE = false ∧
    ∀ use_llm : Bool, drift_use_legacy use_llm = true := by
  refine ⟨by decide, by decide, by decide, ?_⟩
  intro use_llm
  cases use_llm <;> decide

/-! ## Daily consolidation (semantic dedup) -/

/-- `daily_consolidate._status_rank`. -/
def _status_rank (status : String) : Nat :=
  if status = "active" then 3
  else if status = "refined" then 2
  else if status = "historical" then 1
  else 0

/-- The entry's importance as read by the consolidator. -/
def importanceOf (e : MemoryEntry) : PyF := e.get_float "importance" (PyF.num 0)

/-- `entry.meta.get("status", "")`. -/
def statusOf (e : MemoryEntry) : String := metaGetD e.meta "status" ""

/-- `entry.meta.get("supersedes", "none")`. -/
def supOf (e : MemoryEntry) : String := metaGetD e.meta "supersedes" "none"

/-- The winner/loser choice of `consolidate_semantic`: higher importance
    wins; on equal importance the higher status rank wins; otherwise the
    existing entry stays. -/
def consolidateWinner (existing entry : MemoryEntry) : MemoryEntry × MemoryEntry :=
  if PyF.lt (importanceOf existing) (importanceOf entry) then (entry, existing)
  else if PyF.beq (importanceOf entry) (importanceOf existing) &&
      decide (_status_rank (statusOf existing) < _status_rank (statusOf entry)) then
    (entry, existing)
  else (existing, entry)

/-- The supersedes inheritance of `consolidate_semantic`: a winner whose
    pointer is `none` takes the loser's non-`none` pointer. -/
def inheritSup (winner loser : MemoryEntry) : MemoryEntry :=
  if supOf winner = "none" ∧ supOf loser ≠ "none" then
    { winner with meta := metaSet winner.meta "supersedes" (supOf loser) }
  else winner

/-- `best_by_key.get` on the insertion-ordered association list. -/
def bestGet (best : List (String × MemoryEntry)) (k : String) : Option MemoryEntry :=
  match best with
  | [] => none
  | (k0, e0) :: rest => if k = k0 then some e0 else bestGet rest k

/-- `best_by_key[k] = e`: replace in place, or append a new key. -/
def bestSet (best : List (String × MemoryEntry)) (k : String) (e : MemoryEntry) :
    List (String × MemoryEntry) :=
  match best with
  | [] => [(k, e)]
  | (k0, e0) :: rest => if k = k0 then (k0, e) :: rest else (k0, e0) :: bestSet rest k e

/-- One loop iteration of `consolidate_semantic` over an entry. -/
def consolidateStep (acc : List (String × MemoryEntry) × Nat) (entry : MemoryEntry) :
    List (String × MemoryEntry) × Nat :=
  let key := normalize_text entry.body
  match bestGet acc.1 key with
  | none => (bestSet acc.1 key entry, acc.2)
  | some existing =>
    let wl := consolidateWinner existing entry
    (bestSet acc.1 key (inheritSup wl.1 wl.2), acc.2 + 1)

/-- The per-file dedup of `consolidate_semantic`: the merged entries (dict
    value order) and the number of removed duplicates. -/
def consolidate_entries (entries : List MemoryEntry) : List MemoryEntry × Nat :=
  let r := entries.foldl consolidateStep ([], 0)
  (r.1.map Prod.snd, r.2)

/-- `confidence_gate.clamp`. -/
def clamp (value low high : ℚ) : ℚ := max low (min high value)

/-- `confidence_gate.evaluate_confidence_gate`: the action, the (unrounded)
    confidence score, and the trigger reasons.  The payload also rounds the
    score to four decimals and attaches a fixed prompt; neither affects the
    action. -/
def evaluate_confidence_gate (avg_similarity : ℚ) (result_count : ℤ)
    (retrieval_confidence : ℚ) (continuation_intent : Bool)
    (min_similarity : ℚ) (min_results : ℤ) (min_confidence : ℚ) :
    String × ℚ × List String :=
  let s := clamp avg_similarity 0 1
  let n := max result_count 0
  let rc := if retrieval_confidence < 0 then s else clamp retrieval_confidence 0 1
  let result_strength := clamp ((n : ℚ) / ((max min_results 1 : ℤ) : ℚ)) 0 1
  let confidence_score := clamp (rc * (7/10) + result_strength * (3/10)) 0 1
  let trigger_reasons :=
    (if s < min_similarity then ["weak_similarity"] else []) ++
    (if n < min_results then ["sparse_results"] else []) ++
    (if continuation_intent = true ∧ confidence_score < min_confidence then
      ["continuation_gap"] else [])
  (if trigger_reasons ≠ [] then "partial_and_ask_lookup" else "respond_normally",
   confidence_score, trigger_reasons)

theorem clamp_mono {a b lo hi : ℚ} (h : a ≤ b) : clamp a lo hi ≤ clamp b lo hi :=
  max_le_max le_rfl (min_le_min le_rfl h)

/-- C6: the confidence gate is monotone: raising `avg_similarity` and/or
    `result_count` with everything else fixed never moves the action from
    `respond_normally` to `partial_and_ask_lookup`. -/
theorem C6_gate_monotone (s s' : ℚ) (n n' : ℤ) (rc : ℚ) (ci : Bool)
    (ms : ℚ) (mr : ℤ) (mc : ℚ) (hs : s ≤ s') (hn : n ≤ n')
    (h : (evaluate_confidence_gate s n rc ci ms mr mc).1 = "respond_normally") :
    (evaluate_confidence_gate s' n' rc ci ms mr mc).1 = "respond_normally" := by
  simp only [evaluate_confidence_gate] at h ⊢
  -- the unprimed run has no trigger reasons
  have hre : ((if clamp s 0 1 < ms then ["weak_similarity"] else []) ++
      (if max n 0 < mr then ["sparse_results"] else []) ++
      (if ci = true ∧ clamp ((if rc < 0 then clamp s 0 1 else clamp rc 0 1) * (7/10) +
          clamp (((max n 0 : ℤ) : ℚ) / ((max mr 1 : ℤ) : ℚ)) 0 1 * (3/10)) 0 1 < mc then
        ["continuation_gap"] else [])) = [] := by
    by_contra hcon
    rw [if_pos hcon] at h
    exact absurd h (by decide)
  rw [List.append_eq_nil, List.append_eq_nil] at hre
  obtain ⟨⟨h1, h2⟩, h3⟩ := hre
  have hc1 : ¬(clamp s 0 1 < ms) := by
    intro hcon
    rw [if_pos hcon] at h1
    cases h1
  have hc2 : ¬(max n 0 < mr) := by
    intro hcon
    rw [if_pos hcon] at h2
    cases h2
  have hc3 : ¬(ci = true ∧
      clamp ((if rc < 0 then clamp s 0 1 else clamp rc 0 1) * (7/10) +
        clamp (((max n 0 : ℤ) : ℚ) / ((max mr 1 : ℤ) : ℚ)) 0 1 * (3/10)) 0 1 < mc) := by
    intro hcon
    rw [if_pos hcon] at h3
    cases h3
  rw [if_neg]
  simp only [ne_eq, not_not]
  rw [List.append_eq_nil, List.append_eq_nil]
  have hd : (0 : ℚ) < ((max mr 1 : ℤ) : ℚ) := by
    have : (1 : ℤ) ≤ max mr 1 := le_max_right _ _
    exact_mod_cast lt_of_lt_of_le one_pos (by exact_mod_cast this)
  have hCle : clamp ((if rc < 0 then clamp s 0 1 else clamp rc 0 1) * (7/10) +
        clamp (((max n 0 : ℤ) : ℚ) / ((max mr 1 : ℤ) : ℚ)) 0 1 * (3/10)) 0 1 ≤
      clamp ((if rc < 0 then clamp s' 0 1 else clamp rc 0 1) * (7/10) +
        clamp (((max n' 0 : ℤ) : ℚ) / ((max mr 1 : ℤ) : ℚ)) 0 1 * (3/10)) 0 1 := by
    apply clamp_mono
    apply add_le_add
    · apply mul_le_mul_of_nonneg_right _ (by norm_num)
      split
      · exact clamp_mono hs
      · exact le_rfl
    · apply mul_le_mul_of_nonneg_right _ (by norm_num)
      apply clamp_mono
      apply div_le_div_of_nonneg_right ?_ hd.le
      exact_mod_cast max_le_max hn le_rfl
  refine ⟨⟨?_, ?_⟩, ?_⟩
  · rw [if_neg]
    intro hcon
    exact hc1 (lt_of_le_of_lt (clamp_mono hs) hcon)
  · rw [if_neg]
    intro hcon
    exact hc2 (lt_of_le_of_lt (max_le_max hn le_rfl) hcon)
  · rw [if_neg]
    intro ⟨hci, hcon⟩
    exact hc3 ⟨hci, lt_of_le_of_lt hCle hcon⟩

theorem C6_gate_monotone_witness :
    ((3:ℚ)/4 ≤ 4/5) ∧ ((6:ℤ) ≤ 7) ∧
    (evaluate_confidence_gate (3/4) 6 (9/10) true (72/100) 5 (65/100)).1 =
      "respond_normally" ∧
    (evaluate_confidence_gate (4/5) 7 (9/10) true (72/100) 5 (65/100)).1 =
      "respond_normally" :=
  ⟨by norm_num, by norm_num, by norm_num [evaluate_confidence_gate, clamp],
    C6_gate_monotone (3/4) (4/5) 6 7 (9/10) true (72/100) 5 (65/100)
      (by norm_num) (by norm_num) (by norm_num [evaluate_confidence_gate, clamp])⟩

/-! ## C7: semantic dedup properties -/

theorem PyF_eq_of_beq {a b : PyF} (h : PyF.beq a b = true) : a = b := by
  cases a <;> cases b <;> simp [PyF.beq] at h ⊢ <;> exact h

theorem PyF_beq_symm {a b : PyF} (h : PyF.beq a b = true) : PyF.beq b a = true := by
  cases a <;> cases b <;> simp [PyF.beq] at h ⊢
  exact h.symm

theorem PyF_lt_irrefl (a : PyF) : PyF.lt a a = false := by
  cases a <;> simp [PyF.lt]

theorem PyF_lt_trans {a b c : PyF} (h1 : PyF.lt a b = true) (h2 : PyF.lt b c = true) :
    PyF.lt a c = true := by
  cases a <;> cases b <;> cases c <;> simp [PyF.lt] at h1 h2 ⊢
  exact lt_trans h1 h2

theorem mem_dedup {x : String} {l : List String} : x ∈ dedup l ↔ x ∈ l := by
  have key : ∀ (l : List String) (acc : List String),
      x ∈ l.foldl (fun acc x => if x ∈ acc then acc else acc ++ [x]) acc ↔
        x ∈ acc ∨ x ∈ l := by
    intro l
    induction l with
    | nil => simp
    | cons a as ih =>
      intro acc
      simp only [List.foldl_cons]
      rw [ih]
      by_cases ha : a ∈ acc
      · rw [if_pos ha]
        constructor
        · rintro (h | h)
          · exact Or.inl h
          · exact Or.inr (List.mem_cons_of_mem _ h)
        · rintro (h | h)
          · exact Or.inl h
          · rcases List.mem_cons.mp h with h | h
            · exact Or.inl (h ▸ ha)
            · exact Or.inr h
      · rw [if_neg ha]
        simp only [List.mem_append, List.mem_singleton, List.mem_cons]
        tauto
  rw [dedup, key]
  simp

theorem dedup_snoc (l : List String) (x : String) :
    dedup (l ++ [x]) = if x ∈ dedup l then dedup l else dedup l ++ [x] := by
  rw [dedup, List.foldl_append]
  rfl

theorem dedup_nodup (l : List String) : (dedup l).Nodup := by
  have key : ∀ (l acc : List String), acc.Nodup →
      (l.foldl (fun acc x => if x ∈ acc then acc else acc ++ [x]) acc).Nodup := by
    intro l
    induction l with
    | nil => exact fun acc h => h
    | cons a as ih =>
      intro acc h
      simp only [List.foldl_cons]
      by_cases ha : a ∈ acc
      · rw [if_pos ha]
        exact ih _ h
      · rw [if_neg ha]
        apply ih
        rw [List.nodup_append]
        exact ⟨h, List.nodup_singleton a, by simpa using ha⟩
  exact key l [] List.nodup_nil

theorem bestGet_none_iff {best : List (String × MemoryEntry)} {k : String} :
    bestGet best k = none ↔ k ∉ best.map Prod.fst := by
  induction best with
  | nil => simp [bestGet]
  | cons p rest ih =>
    simp only [bestGet, List.map_cons, List.mem_cons]
    by_cases hk : k = p.1
    · simp [hk]
    · rw [if_neg hk]
      rw [ih]
      simp [hk]

theorem bestGet_some_mem {best : List (String × MemoryEntry)} {k : String}
    {b : MemoryEntry} (h : bestGet best k = some b) : (k, b) ∈ best := by
  induction best with
  | nil => simp [bestGet] at h
  | cons p rest ih =>
    simp only [bestGet] at h
    split at h
    · rename_i hk
      cases h
      rw [hk]
      exact List.mem_cons_self _ _
    · exact List.mem_cons_of_mem _ (ih h)

theorem bestSet_append {best : List (String × MemoryEntry)} {k : String}
    (e : MemoryEntry) (h : k ∉ best.map Prod.fst) :
    bestSet best k e = best ++ [(k, e)] := by
  induction best with
  | nil => rfl
  | cons p rest ih =>
    simp only [List.map_cons, List.mem_cons] at h
    push_neg at h
    simp only [bestSet, if_neg h.1, List.cons_append]
    rw [ih h.2]

theorem bestSet_keys_mem {best : List (String × MemoryEntry)} {k : String}
    (e : MemoryEntry) (h : k ∈ best.map Prod.fst) :
    (bestSet best k e).map Prod.fst = best.map Prod.fst := by
  induction best with
  | nil => simp at h
  | cons p rest ih =>
    simp only [List.map_cons, List.mem_cons] at h
    by_cases hk : k = p.1
    · simp [bestSet, hk]
    · rcases h with h | h
      · exact absurd h hk
      · simp only [bestSet, if_neg hk, List.map_cons]
        rw [ih h]

theorem mem_bestSet_elim {best : List (String × MemoryEntry)} {k k2 : String}
    {e b2 : MemoryEntry} (hnd : (best.map Prod.fst).Nodup)
    (h : (k2, b2) ∈ bestSet best k e) :
    (k2 = k ∧ b2 = e) ∨ ((k2, b2) ∈ best ∧ k2 ≠ k) := by
  induction best with
  | nil =>
    simp only [bestSet, List.mem_singleton] at h
    cases h
    exact Or.inl ⟨rfl, rfl⟩
  | cons p rest ih =>
    simp only [List.map_cons, List.nodup_cons] at hnd
    simp only [bestSet] at h
    split at h
    · rename_i hk
      rcases List.mem_cons.mp h with h1 | h1
      · cases h1
        exact Or.inl ⟨hk.symm ▸ rfl, rfl⟩
      · refine Or.inr ⟨List.mem_cons_of_mem _ h1, ?_⟩
        intro hcon
        subst hcon
        subst hk
        exact hnd.1 (List.mem_map.mpr ⟨_, h1, rfl⟩)
    · rename_i hk
      rcases List.mem_cons.mp h with h1 | h1
      · cases h1
        exact Or.inr ⟨List.mem_cons_self _ _, fun hcon => hk hcon.symm⟩
      · rcases ih hnd.2 h1 with h2 | h2
        · exact Or.inl h2
        · exact Or.inr ⟨List.mem_cons_of_mem _ h2.1, h2.2⟩

theorem bestSet_length_mem {best : List (String × MemoryEntry)} {k : String}
    (e : MemoryEntry) (h : k ∈ best.map Prod.fst) :
    (bestSet best k e).length = best.length := by
  have := @bestSet_keys_mem best k e h
  have h2 := congrArg List.length this
  simpa using h2

theorem inheritSup_id (w lo : MemoryEntry) : (inheritSup w lo).entry_id = w.entry_id := by
  unfold inheritSup
  split <;> rfl

theorem inheritSup_body (w lo : MemoryEntry) : (inheritSup w lo).body = w.body := by
  unfold inheritSup
  split <;> rfl

theorem importanceOf_inheritSup (w lo : MemoryEntry) :
    importanceOf (inheritSup w lo) = importanceOf w := by
  unfold inheritSup
  split
  · show MemoryEntry.get_float _ _ _ = _
    unfold MemoryEntry.get_float
    rw [show metaGet (metaSet w.meta "supersedes" (supOf lo)) "importance" =
      metaGet w.meta "importance" from metaGet_metaSet_ne _ _ (by decide)]
    rfl
  · rfl

theorem statusOf_inheritSup (w lo : MemoryEntry) :
    statusOf (inheritSup w lo) = statusOf w := by
  unfold inheritSup
  split
  · show metaGetD _ _ _ = _
    unfold metaGetD
    rw [show metaGet (metaSet w.meta "supersedes" (supOf lo)) "status" =
      metaGet w.meta "status" from metaGet_metaSet_ne _ _ (by decide)]
    rfl
  · rfl

theorem supOf_inheritSup (w lo : MemoryEntry) :
    supOf (inheritSup w lo) =
      if supOf w = "none" ∧ supOf lo ≠ "none" then supOf lo else supOf w := by
  unfold inheritSup
  split
  · show metaGetD _ _ _ = _
    unfold metaGetD
    rw [metaGet_metaSet_self]
    rfl
  · rfl

/-- Properties of the patched winner of one dedup collision, given the
    invariants of the stored best entry `b` over the processed prefix `l`
    and the incoming entry `a` of the same canonical body. -/
theorem survivor_props {l : List MemoryEntry} {b a w' : MemoryEntry}
    (hw' : w' = inheritSup (consolidateWinner b a).1 (consolidateWinner b a).2)
    (hkey : normalize_text a.body = normalize_text b.body)
    (hbB : ∀ o ∈ l, normalize_text o.body = normalize_text b.body →
      PyF.lt (importanceOf b) (importanceOf o) = false)
    (hbC : ∀ o ∈ l, normalize_text o.body = normalize_text b.body →
      PyF.beq (importanceOf b) (importanceOf o) = true →
      _status_rank (statusOf o) ≤ _status_rank (statusOf b))
    (hbD : supOf b = "none" → ∀ o ∈ l, normalize_text o.body = normalize_text b.body →
      supOf o = "none")
    (hbE : supOf b ≠ "none" → ∃ o ∈ l, normalize_text o.body = normalize_text b.body ∧
      supOf o = supOf b) :
    ((w'.entry_id = a.entry_id ∧ w'.body = a.body) ∨
      (w'.entry_id = b.entry_id ∧ w'.body = b.body)) ∧
    (∀ o ∈ l ++ [a], normalize_text o.body = normalize_text b.body →
      PyF.lt (importanceOf w') (importanceOf o) = false) ∧
    (∀ o ∈ l ++ [a], normalize_text o.body = normalize_text b.body →
      PyF.beq (importanceOf w') (importanceOf o) = true →
      _status_rank (statusOf o) ≤ _status_rank (statusOf w')) ∧
    (supOf w' = "none" → ∀ o ∈ l ++ [a], normalize_text o.body = normalize_text b.body →
      supOf o = "none") ∧
    (supOf w' ≠ "none" → ∃ o ∈ l ++ [a], normalize_text o.body = normalize_text b.body ∧
      supOf o = supOf w') := by
  have hmemo : ∀ o : MemoryEntry, o ∈ l ++ [a] → o ∈ l ∨ o = a := by
    intro o ho
    rcases List.mem_append.mp ho with h | h
    · exact Or.inl h
    · exact Or.inr (by simpa using h)
  by_cases hc1 : PyF.lt (importanceOf b) (importanceOf a) = true
  · have hcw : consolidateWinner b a = (a, b) := by
      simp [consolidateWinner, hc1]
    rw [hcw] at hw'
    have hiw : importanceOf w' = importanceOf a := hw' ▸ importanceOf_inheritSup a b
    have hsw : statusOf w' = statusOf a := hw' ▸ statusOf_inheritSup a b
    have hsup : supOf w' =
        if supOf a = "none" ∧ supOf b ≠ "none" then supOf b else supOf a :=
      hw' ▸ supOf_inheritSup a b
    refine ⟨Or.inl ⟨hw' ▸ inheritSup_id a b, hw' ▸ inheritSup_body a b⟩, ?_, ?_, ?_, ?_⟩
    · intro o ho hko
      rcases hmemo o ho with h | h
      · rw [hiw]
        cases hlt : PyF.lt (importanceOf a) (importanceOf o) with
        | false => rfl
        | true =>
          have h1 := PyF_lt_trans hc1 hlt
          rw [hbB o h hko] at h1
          cases h1
      · subst h
        rw [hiw, PyF_lt_irrefl]
    · intro o ho hko hbq
      rcases hmemo o ho with h | h
      · rw [hiw] at hbq
        have heq := PyF_eq_of_beq hbq
        rw [heq] at hc1
        rw [hbB o h hko] at hc1
        cases hc1
      · subst h
        rw [hsw]
    · intro hnone o ho hko
      rw [hsup] at hnone
      by_cases hcond : supOf a = "none" ∧ supOf b ≠ "none"
      · rw [if_pos hcond] at hnone
        exact absurd hnone hcond.2
      · rw [if_neg hcond] at hnone
        have hbn : supOf b = "none" := by
          by_contra hbn
          exact hcond ⟨hnone, hbn⟩
        rcases hmemo o ho with h | h
        · exact hbD hbn o h hko
        · subst h
          exact hnone
    · intro hne
      rw [hsup] at hne ⊢
      by_cases hcond : supOf a = "none" ∧ supOf b ≠ "none"
      · rw [if_pos hcond] at hne ⊢
        obtain ⟨o, ho, hko, hvo⟩ := hbE hcond.2
        exact ⟨o, List.mem_append.mpr (Or.inl ho), hko, hvo⟩
      · rw [if_neg hcond] at hne ⊢
        exact ⟨a, List.mem_append.mpr (Or.inr (by simp)), hkey, rfl⟩
  · rw [Bool.not_eq_true] at hc1
    by_cases hc2 : (PyF.beq (importanceOf a) (importanceOf b) &&
        decide (_status_rank (statusOf b) < _status_rank (statusOf a))) = true
    · have hcw : consolidateWinner b a = (a, b) := by
        simp only [consolidateWinner, hc1, Bool.false_eq_true, if_false, hc2, if_true]
      rw [hcw] at hw'
      rw [Bool.and_eq_true] at hc2
      obtain ⟨hbeq, hrank⟩ := hc2
      have heqab : importanceOf a = importanceOf b := PyF_eq_of_beq hbeq
      have hrank' : _status_rank (statusOf b) < _status_rank (statusOf a) :=
        of_decide_eq_true hrank
      have hiw : importanceOf w' = importanceOf a := hw' ▸ importanceOf_inheritSup a b
      have hsw : statusOf w' = statusOf a := hw' ▸ statusOf_inheritSup a b
      have hsup : supOf w' =
          if supOf a = "none" ∧ supOf b ≠ "none" then supOf b else supOf a :=
        hw' ▸ supOf_inheritSup a b
      refine ⟨Or.inl ⟨hw' ▸ inheritSup_id a b, hw' ▸ inheritSup_body a b⟩, ?_, ?_, ?_, ?_⟩
      · intro o ho hko
        rcases hmemo o ho with h | h
        · rw [hiw, heqab]
          exact hbB o h hko
        · subst h
          rw [hiw, PyF_lt_irrefl]
      · intro o ho hko hbq
        rcases hmemo o ho with h | h
        · rw [hiw, heqab] at hbq
          rw [hsw]
          exact le_trans (hbC o h hko hbq) (le_of_lt hrank')
        · subst h
          rw [hsw]
      · intro hnone o ho hko
        rw [hsup] at hnone
        by_cases hcond : supOf a = "none" ∧ supOf b ≠ "none"
        · rw [if_pos hcond] at hnone
          exact absurd hnone hcond.2
        · rw [if_neg hcond] at hnone
          have hbn : supOf b = "none" := by
            by_contra hbn
            exact hcond ⟨hnone, hbn⟩
          rcases hmemo o ho with h | h
          · exact hbD hbn o h hko
          · subst h
            exact hnone
      · intro hne
        rw [hsup] at hne ⊢
        by_cases hcond : supOf a = "none" ∧ supOf b ≠ "none"
        · rw [if_pos hcond] at hne ⊢
          obtain ⟨o, ho, hko, hvo⟩ := hbE hcond.2
          exact ⟨o, List.mem_append.mpr (Or.inl ho), hko, hvo⟩
        · rw [if_neg hcond] at hne ⊢
          exact ⟨a, List.mem_append.mpr (Or.inr (by simp)), hkey, rfl⟩
    · rw [Bool.not_eq_true] at hc2
      have hcw : consolidateWinner b a = (b, a) := by
        simp only [consolidateWinner, hc1, Bool.false_eq_true, if_false, hc2]
      rw [hcw] at hw'
      have hiw : importanceOf w' = importanceOf b := hw' ▸ importanceOf_inheritSup b a
      have hsw : statusOf w' = statusOf b := hw' ▸ statusOf_inheritSup b a
      have hsup : supOf w' =
          if supOf b = "none" ∧ supOf a ≠ "none" then supOf a else supOf b :=
        hw' ▸ supOf_inheritSup b a
      refine ⟨Or.inr ⟨hw' ▸ inheritSup_id b a, hw' ▸ inheritSup_body b a⟩, ?_, ?_, ?_, ?_⟩
      · intro o ho hko
        rcases hmemo o ho with h | h
        · rw [hiw]
          exact hbB o h hko
        · subst h
          rw [hiw]
          exact hc1
      · intro o ho hko hbq
        rcases hmemo o ho with h | h
        · rw [hiw] at hbq
          rw [hsw]
          exact hbC o h hko hbq
        · subst h
          rw [hiw] at hbq
          rw [hsw]
          have hbeq2 : PyF.beq (importanceOf o) (importanceOf b) = true := PyF_beq_symm hbq
          rw [hbeq2, Bool.true_and] at hc2
          exact Nat.le_of_not_lt (of_decide_eq_false hc2)
      · intro hnone o ho hko
        rw [hsup] at hnone
        by_cases hcond : supOf b = "none" ∧ supOf a ≠ "none"
        · rw [if_pos hcond] at hnone
          exact absurd hnone hcond.2
        · rw [if_neg hcond] at hnone
          have han : supOf a = "none" := by
            by_contra han
            exact hcond ⟨hnone, han⟩
          rcases hmemo o ho with h | h
          · exact hbD hnone o h hko
          · subst h
            exact han
      · intro hne
        rw [hsup] at hne ⊢
        by_cases hcond : supOf b = "none" ∧ supOf a ≠ "none"
        · rw [if_pos hcond] at hne ⊢
          exact ⟨a, List.mem_append.mpr (Or.inr (by simp)), hkey, rfl⟩
        · rw [if_neg hcond] at hne ⊢
          obtain ⟨o, ho, hko, hvo⟩ := hbE hne
          exact ⟨o, List.mem_append.mpr (Or.inl ho), hko, hvo⟩

set_option maxHeartbeats 1000000 in
/-- Invariant of the `consolidate_semantic` fold: the stored keys are the
    first-seen canonical bodies, the dedup counter complements the store
    size, and each stored entry is a group survivor: an input entry (up to
    the supersedes patch) of maximal importance, maximal status rank among
    importance ties, and with the group's supersedes information. -/
theorem consolidateRun_inv (done : List MemoryEntry) :
    ((done.foldl consolidateStep ([], 0)).1.map Prod.fst =
      dedup (done.map (fun e => normalize_text e.body))) ∧
    ((done.foldl consolidateStep ([], 0)).1.length +
      (done.foldl consolidateStep ([], 0)).2 = done.length) ∧
    (∀ p ∈ (done.foldl consolidateStep ([], 0)).1,
      p.1 = normalize_text p.2.body ∧
      (∃ m ∈ done, p.2.entry_id = m.entry_id ∧ p.2.body = m.body) ∧
      (∀ o ∈ done, normalize_text o.body = p.1 →
        PyF.lt (importanceOf p.2) (importanceOf o) = false) ∧
      (∀ o ∈ done, normalize_text o.body = p.1 →
        PyF.beq (importanceOf p.2) (importanceOf o) = true →
        _status_rank (statusOf o) ≤ _status_rank (statusOf p.2)) ∧
      (supOf p.2 = "none" → ∀ o ∈ done, normalize_text o.body = p.1 →
        supOf o = "none") ∧
      (supOf p.2 ≠ "none" → ∃ o ∈ done, normalize_text o.body = p.1 ∧
        supOf o = supOf p.2)) := by
  induction done using List.reverseRecOn with
  | nil => exact ⟨rfl, rfl, by simp⟩
  | append_singleton l a ih =>
    obtain ⟨ih1, ih2, ih3⟩ := ih
    simp only [List.foldl_append, List.foldl_cons, List.foldl_nil]
    have hmemo : ∀ o : MemoryEntry, o ∈ l ++ [a] → o ∈ l ∨ o = a := by
      intro o ho
      rcases List.mem_append.mp ho with h | h
      · exact Or.inl h
      · exact Or.inr (by simpa using h)
    simp only [consolidateStep]
    cases hbg : bestGet (l.foldl consolidateStep ([], 0)).1 (normalize_text a.body) with
    | none =>
      have hknot : normalize_text a.body ∉
          (l.foldl consolidateStep ([], 0)).1.map Prod.fst := bestGet_none_iff.mp hbg
      have hset := @bestSet_append (l.foldl consolidateStep ([], 0)).1
        (normalize_text a.body) a hknot
      have hnotin : ∀ o ∈ l, normalize_text o.body ≠ normalize_text a.body := by
        intro o ho hcon
        apply hknot
        rw [ih1]
        exact mem_dedup.mpr (List.mem_map.mpr ⟨o, ho, hcon⟩)
      refine ⟨?_, ?_, ?_⟩
      · rw [hset, List.map_append, ih1, List.map_append]
        simp only [List.map_cons, List.map_nil]
        rw [dedup_snoc, if_neg]
        rw [← ih1]
        exact hknot
      · rw [hset]
        simp only [List.length_append, List.length_singleton]
        omega
      · intro p hp
        rw [hset] at hp
        rcases List.mem_append.mp hp with hp | hp
        · obtain ⟨c1, c2, c3, c4, c5, c6⟩ := ih3 p hp
          have hpne : normalize_text a.body ≠ p.1 := by
            intro hcon
            apply hknot
            rw [hcon]
            exact List.mem_map.mpr ⟨p, hp, rfl⟩
          refine ⟨c1, ?_, ?_, ?_, ?_, ?_⟩
          · obtain ⟨m, hm, h1, h2⟩ := c2
            exact ⟨m, List.mem_append.mpr (Or.inl hm), h1, h2⟩
          · intro o ho hko
            rcases hmemo o ho with h | h
            · exact c3 o h hko
            · subst h
              exact absurd hko hpne
          · intro o ho hko
            rcases hmemo o ho with h | h
            · exact c4 o h hko
            · subst h
              exact absurd hko hpne
          · intro hnone o ho hko
            rcases hmemo o ho with h | h
            · exact c5 hnone o h hko
            · subst h
              exact absurd hko hpne
          · intro hne
            obtain ⟨o, ho, h1, h2⟩ := c6 hne
            exact ⟨o, List.mem_append.mpr (Or.inl ho), h1, h2⟩
        · have hp2 : p = (normalize_text a.body, a) := by simpa using hp
          subst hp2
          refine ⟨rfl, ⟨a, List.mem_append.mpr (Or.inr (by simp)), rfl, rfl⟩,
            ?_, ?_, ?_, ?_⟩
          · intro o ho hko
            rcases hmemo o ho with h | h
            · exact absurd hko (hnotin o h)
            · subst h
              exact PyF_lt_irrefl _
          · intro o ho hko _
            rcases hmemo o ho with h | h
            · exact absurd hko (hnotin o h)
            · subst h
              exact le_refl _
          · intro hnone o ho hko
            rcases hmemo o ho with h | h
            · exact absurd hko (hnotin o h)
            · subst h
              exact hnone
          · intro _
            exact ⟨a, List.mem_append.mpr (Or.inr (by simp)), rfl, rfl⟩
    | some b =>
      have hmem := bestGet_some_mem hbg
      obtain ⟨hb0, hbA0, hbB0, hbC0, hbD0, hbE0⟩ := ih3 _ hmem
      have hb1 : normalize_text a.body = normalize_text b.body := hb0
      have hbA : ∃ m ∈ l, b.entry_id = m.entry_id ∧ b.body = m.body := hbA0
      have hbB' : ∀ o ∈ l, normalize_text o.body = normalize_text a.body →
          PyF.lt (importanceOf b) (importanceOf o) = false := hbB0
      have hbC' : ∀ o ∈ l, normalize_text o.body = normalize_text a.body →
          PyF.beq (importanceOf b) (importanceOf o) = true →
          _status_rank (statusOf o) ≤ _status_rank (statusOf b) := hbC0
      have hbD' : supOf b = "none" → ∀ o ∈ l,
          normalize_text o.body = normalize_text a.body → supOf o = "none" := hbD0
      have hbE' : supOf b ≠ "none" → ∃ o ∈ l,
          normalize_text o.body = normalize_text a.body ∧ supOf o = supOf b := hbE0
      have hkin : normalize_text a.body ∈
          (l.foldl consolidateStep ([], 0)).1.map Prod.fst :=
        List.mem_map.mpr ⟨_, hmem, rfl⟩
      have hnd : ((l.foldl consolidateStep ([], 0)).1.map Prod.fst).Nodup := by
        rw [ih1]
        exact dedup_nodup _
      have props := @survivor_props l b a _ rfl hb1
        (fun o ho hko => hbB' o ho (hko.trans hb1.symm))
        (fun o ho hko => hbC' o ho (hko.trans hb1.symm))
        (fun hn o ho hko => hbD' hn o ho (hko.trans hb1.symm))
        (fun hn => by
          obtain ⟨o, ho, h1, h2⟩ := hbE' hn
          exact ⟨o, ho, h1.trans hb1, h2⟩)
      obtain ⟨pid, pB, pC, pD, pE⟩ := props
      refine ⟨?_, ?_, ?_⟩
      · rw [bestSet_keys_mem _ hkin, ih1, List.map_append]
        simp only [List.map_cons, List.map_nil]
        rw [dedup_snoc, if_pos]
        rw [← ih1]
        exact hkin
      · rw [bestSet_length_mem _ hkin]
        simp only [List.length_append, List.length_singleton]
        omega
      · intro p hp
        rcases mem_bestSet_elim hnd hp with ⟨hpk, hpw⟩ | ⟨hpr, hpne⟩
        · have hgrp : ∀ o : MemoryEntry,
              (normalize_text o.body = p.1 ↔
                normalize_text o.body = normalize_text b.body) := by
            intro o
            rw [hpk, hb1]
          refine ⟨?_, ?_, ?_, ?_, ?_, ?_⟩
          · rcases pid with ⟨h1, h2⟩ | ⟨h1, h2⟩
            · rw [hpk, hpw, h2]
            · rw [hpk, hpw, h2, ← hb1]
          · rcases pid with ⟨h1, h2⟩ | ⟨h1, h2⟩
            · exact ⟨a, List.mem_append.mpr (Or.inr (by simp)), hpw ▸ h1, hpw ▸ h2⟩
            · obtain ⟨m, hm, h3, h4⟩ := hbA
              exact ⟨m, List.mem_append.mpr (Or.inl hm), hpw ▸ (h1.trans h3),
                hpw ▸ (h2.trans h4)⟩
          · intro o ho hko
            rw [hpw]
            exact pB o ho ((hgrp o).mp hko)
          · intro o ho hko hbq
            rw [hpw]
            exact pC o ho ((hgrp o).mp hko) (hpw ▸ hbq)
          · intro hnone o ho hko
            exact pD (hpw ▸ hnone) o ho ((hgrp o).mp hko)
          · intro hne
            obtain ⟨o, ho, h1, h2⟩ := pE (hpw ▸ hne)
            exact ⟨o, ho, (hgrp o).mpr h1, hpw ▸ h2⟩
        · obtain ⟨c1, c2, c3, c4, c5, c6⟩ := ih3 p hpr
          have hpne2 : normalize_text a.body ≠ p.1 := fun hcon => hpne hcon.symm
          refine ⟨c1, ?_, ?_, ?_, ?_, ?_⟩
          · obtain ⟨m, hm, h1, h2⟩ := c2
            exact ⟨m, List.mem_append.mpr (Or.inl hm), h1, h2⟩
          · intro o ho hko
            rcases hmemo o ho with h | h
            · exact c3 o h hko
            · subst h
              exact absurd hko hpne2
          · intro o ho hko
            rcases hmemo o ho with h | h
            · exact c4 o h hko
            · subst h
              exact absurd hko hpne2
          · intro hnone o ho hko
            rcases hmemo o ho with h | h
            · exact c5 hnone o h hko
            · subst h
              exact absurd hko hpne2
          · intro hne
            obtain ⟨o, ho, h1, h2⟩ := c6 hne
            exact ⟨o, List.mem_append.mpr (Or.inl ho), h1, h2⟩

/-- C7: per semantic file, the dedup pass keeps exactly one entry per
    distinct canonical body (so it removes input-count minus
    distinct-canonical-body-count entries, which is the reported count);
    each survivor is an input entry of its group (up to the supersedes
    patch) with maximal importance, ties broken toward higher status rank,
    and a survivor reads `supersedes: none` only if its whole group does,
    otherwise it carries a group member's non-none pointer. -/
theorem C7_consolidate_dedup (entries : List MemoryEntry) :
    (consolidate_entries entries).1.length =
      (dedup (entries.map (fun e => normalize_text e.body))).length ∧
    (consolidate_entries entries).2 =
      entries.length - (consolidate_entries entries).1.length ∧
    ∀ s ∈ (consolidate_entries entries).1,
      (∃ m ∈ entries, s.entry_id = m.entry_id ∧ s.body = m.body) ∧
      (∀ o ∈ entries, normalize_text o.body = normalize_text s.body →
        PyF.lt (importanceOf s) (importanceOf o) = false) ∧
      (∀ o ∈ entries, normalize_text o.body = normalize_text s.body →
        PyF.beq (importanceOf s) (importanceOf o) = true →
        _status_rank (statusOf o) ≤ _status_rank (statusOf s)) ∧
      (supOf s = "none" → ∀ o ∈ entries,
        normalize_text o.body = normalize_text s.body → supOf o = "none") ∧
      (supOf s ≠ "none" → ∃ o ∈ entries,
        normalize_text o.body = normalize_text s.body ∧ supOf o = supOf s) := by
  obtain ⟨h1, h2, h3⟩ := consolidateRun_inv entries
  have hlen : (consolidate_entries entries).1.length =
      (entries.foldl consolidateStep ([], 0)).1.length := by
    simp [consolidate_entries]
  refine ⟨?_, ?_, ?_⟩
  · rw [hlen, ← congrArg List.length h1]
    simp
  · show (entries.foldl consolidateStep ([], 0)).2 = _
    rw [hlen]
    omega
  · intro s hs
    simp only [consolidate_entries] at hs
    obtain ⟨p, hp, hps⟩ := List.mem_map.mp hs
    obtain ⟨c1, c2, c3, c4, c5, c6⟩ := h3 p hp
    have hgrp : ∀ o : MemoryEntry,
        (normalize_text o.body = normalize_text s.body ↔ normalize_text o.body = p.1) := by
      intro o
      rw [c1, hps]
    refine ⟨hps ▸ c2, ?_, ?_, ?_, ?_⟩
    · intro o ho hko
      rw [← hps]
      exact c3 o ho ((hgrp o).mp hko)
    · intro o ho hko hbq
      rw [← hps]
      exact c4 o ho ((hgrp o).mp hko) (hps ▸ hbq)
    · intro hnone o ho hko
      exact c5 (hps ▸ hnone) o ho ((hgrp o).mp hko)
    · intro hne
      obtain ⟨o, ho, hk2, hv2⟩ := c6 (hps ▸ hne)
      exact ⟨o, ho, (hgrp o).mpr hk2, hps ▸ hv2⟩

theorem C7_consolidate_dedup_witness :
    (consolidate_entries
      [⟨"a", [("supersedes", "mem:x")], "Same body"⟩,
       ⟨"b", [], "same BODY!"⟩]).1.length =
      (dedup ([⟨"a", [("supersedes", "mem:x")], "Same body"⟩,
        ⟨"b", [], "same BODY!"⟩].map (fun e : MemoryEntry =>
          normalize_text e.body))).length ∧
    (consolidate_entries
      [⟨"a", [("supersedes", "mem:x")], "Same body"⟩,
       ⟨"b", [], "same BODY!"⟩]).2 =
      ([⟨"a", [("supersedes", "mem:x")], "Same body"⟩,
        ⟨"b", [], "same BODY!"⟩] : List MemoryEntry).length -
        (consolidate_entries
          [⟨"a", [("supersedes", "mem:x")], "Same body"⟩,
           ⟨"b", [], "same BODY!"⟩]).1.length :=
  ⟨(C7_consolidate_dedup _).1, (C7_consolidate_dedup _).2.1⟩

/-! ## C8: contradiction candidate generator -/

/-- `candidate_generator.SemanticEntry`; timestamps as epoch seconds. -/
structure SemanticEntry where
  entry_id : String
  content : String
  timestamp : ℚ
  tags : List String
  meta : MetaMap
  deriving DecidableEq, Repr

namespace SemanticEntry

/-- `SemanticEntry.tag_set`: the lowercased tags as a set (first-seen
    order). -/
def tag_set (e : SemanticEntry) : List String := dedup (e.tags.map pyLower)

end SemanticEntry

/-- `candidate_generator.compute_similarity`. -/
def compute_similarity (a b : String) : ℚ :=
  jaccard_similarity (strTokens a) (strTokens b)

/-- `candidate_generator.CandidatePair`. -/
structure CandidatePair where
  entry_a : SemanticEntry
  entry_b : SemanticEntry
  prefilter_score : ℚ
  match_reasons : List String
  deriving DecidableEq, Repr

/-- `ContradictionCandidateGenerator.DOMAIN_KEYWORDS`. -/
def DOMAIN_KEYWORDS : List (String × List String) :=
  [("editor", ["editor", "ide", "vscode", "vs code", "sublime", "vim", "neovim",
      "emacs", "cursor", "nano"]),
   ("terminal", ["terminal", "shell", "iterm", "warp", "alacritty", "tmux", "zsh",
      "bash"]),
   ("language", ["python", "typescript", "javascript", "rust", "go", "java", "cpp",
      "c++", "language"]),
   ("cloud", ["aws", "gcp", "azure", "cloud", "hosting", "serverless", "lambda"]),
   ("task_management", ["todoist", "obsidian", "notion", "task", "todo", "reminder"]),
   ("communication", ["slack", "discord", "email", "async", "chat", "message",
      "communication"]),
   ("desk", ["desk", "standing", "sitting", "ergonomic", "chair", "workspace"]),
   ("music", ["music", "spotify", "silence", "headphones", "audio", "sound", "quiet"]),
   ("schedule", ["morning", "evening", "night", "schedule", "routine", "time", "wake"])]

/-- `_detect_domains`: the domains whose keyword list hits the lowercased
    content or the joined lowercased tags. -/
def _detect_domains (e : SemanticEntry) : List String :=
  (DOMAIN_KEYWORDS.filter (fun d => d.2.any (fun kw =>
    strContains (pyLower e.content) kw ||
      strContains (pyLower (String.intercalate " " e.tags)) kw))).map Prod.fst

/-- `_temporal_window_filter`: recent versus older entries relative to the
    reference time (seconds); in sliding mode both sides are all entries. -/
def _temporal_window_filter (entries : List SemanticEntry) (reference : ℚ)
    (recent_days days_back : ℤ) (sliding : Bool) :
    List SemanticEntry × List SemanticEntry :=
  if sliding then (entries, entries)
  else
    let recent_cutoff := reference - (recent_days : ℚ) * 86400
    let older_cutoff := reference - (days_back : ℚ) * 86400
    (entries.filter (fun e => decide (recent_cutoff ≤ e.timestamp)),
     entries.filter (fun e =>
       !decide (recent_cutoff ≤ e.timestamp) && decide (older_cutoff ≤ e.timestamp)))

/-- The per-`entry_a` candidate store of `_tag_overlap_filter`:
    `entry_id ↦ (entry, shared tags, shared domains)`, insertion ordered. -/
abbrev CandStore := List (String × SemanticEntry × List String × List String)

/-- Record a tag-based match in the candidate store. -/
def candAddTag (cands : CandStore) (eb : SemanticEntry) (tag : String) : CandStore :=
  match cands with
  | [] => [(eb.entry_id, eb, [tag], [])]
  | (id0, e0, ts0, ds0) :: rest =>
    if eb.entry_id = id0 then
      (id0, e0, (if tag ∈ ts0 then ts0 else ts0 ++ [tag]), ds0) :: rest
    else (id0, e0, ts0, ds0) :: candAddTag rest eb tag

/-- Record a domain-based match in the candidate store. -/
def candAddDomain (cands : CandStore) (eb : SemanticEntry) (dom : String) : CandStore :=
  match cands with
  | [] => [(eb.entry_id, eb, [], [dom])]
  | (id0, e0, ts0, ds0) :: rest =>
    if eb.entry_id = id0 then
      (id0, e0, ts0, (if dom ∈ ds0 then ds0 else ds0 ++ [dom])) :: rest
    else (id0, e0, ts0, ds0) :: candAddDomain rest eb dom

/-- Set intersection of two first-seen-ordered string sets. -/
def interStr (a b : List String) : List String := a.filter (fun x => x ∈ b)

/-- The sliding-mode recency guard: in sliding mode a match also requires
    `entry_a` to be strictly newer. -/
def tagKeep (a o : SemanticEntry) (sliding : Bool) : Bool :=
  !sliding || decide (o.timestamp < a.timestamp)

/-- The tag-based match loop of `_tag_overlap_filter` for one `entry_a`. -/
def tagPhase (a : SemanticEntry) (older : List SemanticEntry) (sliding : Bool)
    (cs : CandStore) : CandStore :=
  a.tag_set.foldl (fun cs2 tag =>
    (older.filter (fun o => decide (tag ∈ o.tag_set) && tagKeep a o sliding)).foldl
      (fun cs3 ob => candAddTag cs3 ob tag) cs2) cs

/-- The domain-based match loop of `_tag_overlap_filter` for one `entry_a`. -/
def domPhase (a : SemanticEntry) (older : List SemanticEntry) (sliding : Bool)
    (cs : CandStore) : CandStore :=
  (_detect_domains a).foldl (fun cs2 dom =>
    (older.filter (fun o =>
        decide (dom ∈ _detect_domains o) && tagKeep a o sliding)).foldl
      (fun cs3 ob => candAddDomain cs3 ob dom) cs2) cs

/-- The overlap score of one candidate-store record against `entry_a`. -/
def pairScore (a : SemanticEntry) (c : String × SemanticEntry × List String × List String) :
    ℚ :=
  if c.2.2.1 ≠ [] then
    1/2 + 1/2 * ((c.2.2.1.length : ℚ) /
      (max (unionCount a.tag_set c.2.1.tag_set) 1 : ℕ))
  else if c.2.2.2 ≠ [] then
    3/10 * ((c.2.2.2.length : ℚ) /
      (max (unionCount (_detect_domains a) (_detect_domains c.2.1)) 1 : ℕ))
  else 0

/-- The candidate pairs one `entry_a` contributes: tag matches, then domain
    matches, then the overlap scoring keeps positive scores. -/
def pairsFor (a : SemanticEntry) (older : List SemanticEntry) (sliding : Bool) :
    List (SemanticEntry × SemanticEntry × ℚ) :=
  (domPhase a older sliding (tagPhase a older sliding [])).filterMap (fun c =>
    if 0 < pairScore a c then some (a, c.2.1, pairScore a c) else none)

/-- `_tag_overlap_filter`. -/
def _tag_overlap_filter (recent older : List SemanticEntry) (sliding : Bool) :
    List (SemanticEntry × SemanticEntry × ℚ) :=
  recent.flatMap (fun a => pairsFor a older sliding)

/-- `_semantic_prefilter`; the external qmd search and Python's `%.3f`
    formatting are abstracted as the `qmd` and `fmt` parameters. -/
def _semantic_prefilter (threshold : ℚ) (qmd : String → List (String × ℚ))
    (fmt : ℚ → String) (pairs : List (SemanticEntry × SemanticEntry × ℚ)) :
    List CandidatePair :=
  if threshold ≤ 0 then
    pairs.map (fun p =>
      ⟨p.1, p.2.1, 3/10 * p.2.2, ["tag_overlap:" ++ fmt p.2.2, "no_semantic_filter"]⟩)
  else
    (dedup (pairs.map (fun p => p.1.entry_id))).flatMap (fun rid =>
      let grp := pairs.filter (fun p => p.1.entry_id = rid)
      match grp with
      | [] => []
      | p0 :: _ =>
        let similar := qmd p0.1.content
        let use_local := similar.isEmpty
        grp.filterMap (fun q =>
          let sem : ℚ := if use_local then compute_similarity q.1.content q.2.1.content
            else
              match similar.reverse.find? (fun s => s.1 = q.2.1.entry_id) with
              | some s => s.2
              | none => 0
          if threshold ≤ sem then
            some ⟨q.1, q.2.1, 7/10 * sem + 3/10 * q.2.2,
              ["semantic_similarity:" ++ fmt sem, "tag_overlap:" ++ fmt q.2.2] ++
                (if use_local then ["local_fallback"] else [])⟩
          else none))

/-- A stable insertion into a descending-by-score list (equal scores keep
    their order, as Python's stable sort does). -/
def insertDesc (x : CandidatePair) : List CandidatePair → List CandidatePair
  | [] => [x]
  | y :: ys =>
    if y.prefilter_score < x.prefilter_score then x :: y :: ys
    else y :: insertDesc x ys

/-- `list.sort(key=prefilter_score, reverse=True)`. -/
def sortByScoreDesc (l : List CandidatePair) : List CandidatePair :=
  l.foldl (fun acc x => insertDesc x acc) []

/-- Python `l[:stop]` with a possibly negative stop. -/
def pySliceTo {α : Type} (l : List α) (stop : ℤ) : List α :=
  if 0 ≤ stop then l.take stop.toNat else l.take ((l.length : ℤ) + stop).toNat

/-- The `"|"`-joined sorted shared tags of a pair (`"none"` when disjoint):
    the diversity grouping key. -/
def tagComboKey (c : CandidatePair) : String :=
  let st := sortStrings (interStr c.entry_a.tag_set c.entry_b.tag_set)
  if st = [] then "none" else String.intercalate "|" st

/-- The diversity grouping keys in first-seen order. -/
def diversityKeys (cands : List CandidatePair) : List String :=
  dedup (cands.map tagComboKey)

/-- First diversity pass: the per-combo top slices, in key order. -/
def diversityFirstPass (max_candidates : ℤ) (cands : List CandidatePair) :
    List CandidatePair :=
  (diversityKeys cands).flatMap (fun k =>
    pySliceTo (sortByScoreDesc (cands.filter (fun c => decide (tagComboKey c = k))))
      (max 3 (Int.fdiv max_candidates ((diversityKeys cands).length : ℤ))))

/-- Second diversity pass: top up by score from the unselected candidates
    while under the limit. -/
def diversityTopUp (max_candidates : ℤ) (cands selected : List CandidatePair) :
    List CandidatePair :=
  if (selected.length : ℤ) < max_candidates then
    selected ++ pySliceTo
      (sortByScoreDesc (cands.filter (fun c => decide (c ∉ selected))))
      (max_candidates - selected.length)
  else selected

/-- `_diversity_enhancement`. -/
def _diversity_enhancement (max_candidates : ℤ) (cands : List CandidatePair) :
    List CandidatePair :=
  if (cands.length : ℤ) ≤ max_candidates then cands
  else
    let selected2 := diversityTopUp max_candidates cands
      (diversityFirstPass max_candidates cands)
    if max_candidates < (selected2.length : ℤ) then
      pySliceTo (sortByScoreDesc selected2) max_candidates
    else selected2

/-- `ContradictionCandidateGenerator.generate_candidates`, from the temporal
    window on; the reference date is a parameter (the code derives it from
    the wall clock and the data), as are the qmd oracle and the float
    formatter. -/
def generate_candidates (similarity_threshold : ℚ)
    (max_candidates recent_days days_back : ℤ) (entries : List SemanticEntry)
    (reference : ℚ) (sliding : Bool) (qmd : String → List (String × ℚ))
    (fmt : ℚ → String) : List CandidatePair :=
  let tw := _temporal_window_filter entries reference recent_days days_back sliding
  sortByScoreDesc (_diversity_enhancement max_candidates
    (_semantic_prefilter similarity_threshold qmd fmt
      (_tag_overlap_filter tw.1 tw.2 sliding)))

/-! ### Structural lemmas for the generator pipeline -/

/-- Membership through a stable descending insertion. -/
theorem mem_insertDesc {x y : CandidatePair} {l : List CandidatePair} :
    x ∈ insertDesc y l ↔ x = y ∨ x ∈ l := by
  induction l with
  | nil => simp [insertDesc]
  | cons z zs ih =>
    by_cases h : z.prefilter_score < y.prefilter_score
    · simp [insertDesc, h]
    · simp [insertDesc, h, ih]
      tauto

/-- A stable descending insertion adds one element. -/
theorem length_insertDesc (y : CandidatePair) (l : List CandidatePair) :
    (insertDesc y l).length = l.length + 1 := by
  induction l with
  | nil => rfl
  | cons z zs ih =>
    by_cases h : z.prefilter_score < y.prefilter_score
    · simp [insertDesc, h]
    · simp [insertDesc, h, ih]

/-- Membership through the insertion-sort fold. -/
theorem mem_sortFold (l : List CandidatePair) (acc : List CandidatePair)
    (x : CandidatePair) :
    x ∈ l.foldl (fun a c => insertDesc c a) acc ↔ x ∈ acc ∨ x ∈ l := by
  induction l generalizing acc with
  | nil => simp
  | cons z zs ih =>
    rw [List.foldl_cons, ih]
    rw [mem_insertDesc]
    simp
    tauto

/-- The insertion-sort fold preserves total length. -/
theorem length_sortFold (l acc : List CandidatePair) :
    (l.foldl (fun a c => insertDesc c a) acc).length = acc.length + l.length := by
  induction l generalizing acc with
  | nil => simp
  | cons z zs ih =>
    rw [List.foldl_cons, ih, length_insertDesc, List.length_cons]
    omega

/-- Sorting by score preserves membership. -/
theorem mem_sortByScoreDesc {x : CandidatePair} {l : List CandidatePair} :
    x ∈ sortByScoreDesc l ↔ x ∈ l := by
  rw [sortByScoreDesc, mem_sortFold]
  simp

/-- Sorting by score preserves length. -/
theorem length_sortByScoreDesc (l : List CandidatePair) :
    (sortByScoreDesc l).length = l.length := by
  rw [sortByScoreDesc, length_sortFold]
  simp

/-- A Python slice is a sublist. -/
theorem pySliceTo_subset {α : Type} (l : List α) (k : ℤ) : pySliceTo l k ⊆ l := by
  unfold pySliceTo
  split
  · exact List.take_subset _ _
  · exact List.take_subset _ _

/-- A slice by a non-negative stop has length at most the stop. -/
theorem length_pySliceTo_le {α : Type} (l : List α) (k : ℤ) (hk : 0 ≤ k) :
    ((pySliceTo l k).length : ℤ) ≤ k := by
  unfold pySliceTo
  rw [if_pos hk, List.length_take]
  have h1 : min k.toNat l.length ≤ k.toNat := Nat.min_le_left _ _
  omega

/-- Everything the first diversity pass selects is a candidate. -/
theorem diversityFirstPass_subset (m : ℤ) (cands : List CandidatePair) :
    diversityFirstPass m cands ⊆ cands := by
  intro x hx
  rw [diversityFirstPass, List.mem_flatMap] at hx
  obtain ⟨k, -, hx⟩ := hx
  have h1 := pySliceTo_subset _ _ hx
  rw [mem_sortByScoreDesc, List.mem_filter] at h1
  exact h1.1

/-- Everything the top-up pass selects is a candidate. -/
theorem diversityTopUp_subset {m : ℤ} {cands selected : List CandidatePair}
    (hs : selected ⊆ cands) : diversityTopUp m cands selected ⊆ cands := by
  intro x hx
  rw [diversityTopUp] at hx
  split at hx
  · rw [List.mem_append] at hx
    rcases hx with hx | hx
    · exact hs hx
    · have h1 := pySliceTo_subset _ _ hx
      rw [mem_sortByScoreDesc, List.mem_filter] at h1
      exact h1.1
  · exact hs hx

/-- Every output of the diversity enhancement is an input candidate. -/
theorem mem_diversity {c : CandidatePair} {m : ℤ} {cands : List CandidatePair}
    (h : c ∈ _diversity_enhancement m cands) : c ∈ cands := by
  rw [_diversity_enhancement] at h
  split at h
  · exact h
  · dsimp only at h
    split at h
    · have h1 := pySliceTo_subset _ _ h
      rw [mem_sortByScoreDesc] at h1
      exact diversityTopUp_subset (diversityFirstPass_subset m cands) h1
    · exact diversityTopUp_subset (diversityFirstPass_subset m cands) h

/-- With a non-negative limit the diversity enhancement respects it. -/
theorem length_diversity {m : ℤ} {cands : List CandidatePair} (hm : 0 ≤ m) :
    ((_diversity_enhancement m cands).length : ℤ) ≤ m := by
  rw [_diversity_enhancement]
  split
  · omega
  · dsimp only
    split
    · exact length_pySliceTo_le _ _ hm
    · omega

/-- Tag-phase invariant of the candidate store: each record's entry comes
    from the older pool, respects the sliding recency guard, and some
    accumulated tag really is shared between `a` and the record's entry. -/
def storeTagOK (a : SemanticEntry) (older : List SemanticEntry) (sliding : Bool)
    (cs : CandStore) : Prop :=
  ∀ c ∈ cs, c.2.1 ∈ older ∧ (sliding = true → c.2.1.timestamp < a.timestamp) ∧
    (∃ t ∈ c.2.2.1, t ∈ a.tag_set ∧ t ∈ c.2.1.tag_set)

/-- Full invariant of the candidate store: like `storeTagOK`, but a record
    created by the domain phase instead carries a shared detected domain. -/
def storeOK (a : SemanticEntry) (older : List SemanticEntry) (sliding : Bool)
    (cs : CandStore) : Prop :=
  ∀ c ∈ cs, c.2.1 ∈ older ∧ (sliding = true → c.2.1.timestamp < a.timestamp) ∧
    ((∃ t ∈ c.2.2.1, t ∈ a.tag_set ∧ t ∈ c.2.1.tag_set) ∨
     (c.2.2.1 = [] ∧ ∃ d ∈ c.2.2.2, d ∈ _detect_domains a ∧ d ∈ _detect_domains c.2.1))

/-- The tag-phase invariant implies the full invariant. -/
theorem storeOK_of_tagOK {a : SemanticEntry} {older : List SemanticEntry}
    {sliding : Bool} {cs : CandStore} (h : storeTagOK a older sliding cs) :
    storeOK a older sliding cs := by
  intro c hc
  obtain ⟨h1, h2, h3⟩ := h c hc
  exact ⟨h1, h2, Or.inl h3⟩

/-- Recording a genuine tag match preserves the tag-phase invariant. -/
theorem storeTagOK_candAddTag {a eb : SemanticEntry} {older : List SemanticEntry}
    {sliding : Bool} {tag : String} {cs : CandStore}
    (hcs : storeTagOK a older sliding cs) (heb : eb ∈ older)
    (hk : sliding = true → eb.timestamp < a.timestamp)
    (h1 : tag ∈ a.tag_set) (h2 : tag ∈ eb.tag_set) :
    storeTagOK a older sliding (candAddTag cs eb tag) := by
  induction cs with
  | nil =>
    intro c hc
    rw [candAddTag] at hc
    rw [List.mem_singleton] at hc
    subst hc
    exact ⟨heb, hk, tag, List.mem_singleton.mpr rfl, h1, h2⟩
  | cons c0 rest ih =>
    obtain ⟨id0, e0, ts0, ds0⟩ := c0
    have hhead := hcs _ (List.mem_cons_self _ _)
    have htail : storeTagOK a older sliding rest :=
      fun c hc => hcs c (List.mem_cons_of_mem _ hc)
    intro c hc
    rw [candAddTag] at hc
    split at hc
    · rcases List.mem_cons.mp hc with hc | hc
      · subst hc
        refine ⟨hhead.1, hhead.2.1, ?_⟩
        obtain ⟨t, ht, hta, hte⟩ := hhead.2.2
        split
        · exact ⟨t, ht, hta, hte⟩
        · exact ⟨t, List.mem_append_left _ ht, hta, hte⟩
      · exact hcs c (List.mem_cons_of_mem _ hc)
    · rcases List.mem_cons.mp hc with hc | hc
      · subst hc
        exact hhead
      · exact ih htail c hc
/-- Recording a genuine domain match preserves the full invariant. -/
theorem storeOK_candAddDomain {a eb : SemanticEntry} {older : List SemanticEntry}
    {sliding : Bool} {dom : String} {cs : CandStore}
    (hcs : storeOK a older sliding cs) (heb : eb ∈ older)
    (hk : sliding = true → eb.timestamp < a.timestamp)
    (h1 : dom ∈ _detect_domains a) (h2 : dom ∈ _detect_domains eb) :
    storeOK a older sliding (candAddDomain cs eb dom) := by
  induction cs with
  | nil =>
    intro c hc
    rw [candAddDomain] at hc
    rw [List.mem_singleton] at hc
    subst hc
    exact ⟨heb, hk, Or.inr ⟨rfl, dom, List.mem_singleton.mpr rfl, h1, h2⟩⟩
  | cons c0 rest ih =>
    obtain ⟨id0, e0, ts0, ds0⟩ := c0
    have hhead := hcs _ (List.mem_cons_self _ _)
    have htail : storeOK a older sliding rest :=
      fun c hc => hcs c (List.mem_cons_of_mem _ hc)
    intro c hc
    rw [candAddDomain] at hc
    split at hc
    · rcases List.mem_cons.mp hc with hc | hc
      · subst hc
        refine ⟨hhead.1, hhead.2.1, ?_⟩
        rcases hhead.2.2 with ⟨t, ht, hta, hte⟩ | ⟨hnil, d, hd, hda, hde⟩
        · exact Or.inl ⟨t, ht, hta, hte⟩
        · refine Or.inr ⟨hnil, ?_⟩
          split
          · exact ⟨d, hd, hda, hde⟩
          · exact ⟨d, List.mem_append_left _ hd, hda, hde⟩
      · exact hcs c (List.mem_cons_of_mem _ hc)
    · rcases List.mem_cons.mp hc with hc | hc
      · subst hc
        exact hhead
      · exact ih htail c hc

/-- Folding genuine tag matches over a list of valid entries preserves the
    tag-phase invariant. -/
theorem storeTagOK_foldAdd {a : SemanticEntry} {older : List SemanticEntry}
    {sliding : Bool} {tag : String} (l : List SemanticEntry)
    (hl : ∀ o ∈ l, o ∈ older ∧ (sliding = true → o.timestamp < a.timestamp) ∧
      tag ∈ o.tag_set)
    (htag : tag ∈ a.tag_set) :
    ∀ cs, storeTagOK a older sliding cs →
      storeTagOK a older sliding
        (l.foldl (fun cs3 ob => candAddTag cs3 ob tag) cs) := by
  induction l with
  | nil => intro cs h; simpa using h
  | cons o os ih =>
    intro cs h
    rw [List.foldl_cons]
    refine ih (fun o' ho' => hl o' (List.mem_cons_of_mem _ ho')) _ ?_
    have ho := hl o (List.mem_cons_self _ _)
    exact storeTagOK_candAddTag h ho.1 ho.2.1 htag ho.2.2

/-- Folding genuine domain matches preserves the full invariant. -/
theorem storeOK_foldAdd {a : SemanticEntry} {older : List SemanticEntry}
    {sliding : Bool} {dom : String} (l : List SemanticEntry)
    (hl : ∀ o ∈ l, o ∈ older ∧ (sliding = true → o.timestamp < a.timestamp) ∧
      dom ∈ _detect_domains o)
    (hdom : dom ∈ _detect_domains a) :
    ∀ cs, storeOK a older sliding cs →
      storeOK a older sliding
        (l.foldl (fun cs3 ob => candAddDomain cs3 ob dom) cs) := by
  induction l with
  | nil => intro cs h; simpa using h
  | cons o os ih =>
    intro cs h
    rw [List.foldl_cons]
    refine ih (fun o' ho' => hl o' (List.mem_cons_of_mem _ ho')) _ ?_
    have ho := hl o (List.mem_cons_self _ _)
    exact storeOK_candAddDomain h ho.1 ho.2.1 hdom ho.2.2

/-- The tag phase establishes the tag-phase invariant. -/
theorem storeTagOK_tagPhase (a : SemanticEntry) (older : List SemanticEntry)
    (sliding : Bool) :
    storeTagOK a older sliding (tagPhase a older sliding []) := by
  rw [tagPhase]
  have main : ∀ (tags : List String), (∀ t ∈ tags, t ∈ a.tag_set) →
      ∀ cs, storeTagOK a older sliding cs →
        storeTagOK a older sliding
          (tags.foldl (fun cs2 tag =>
            (older.filter (fun o =>
                decide (tag ∈ o.tag_set) && tagKeep a o sliding)).foldl
              (fun cs3 ob => candAddTag cs3 ob tag) cs2) cs) := by
    intro tags
    induction tags with
    | nil => intro _ cs h; simpa using h
    | cons tg tgs ih =>
      intro hsub cs h
      rw [List.foldl_cons]
      refine ih (fun t ht => hsub t (List.mem_cons_of_mem _ ht)) _ ?_
      refine storeTagOK_foldAdd _ ?_ (hsub tg (List.mem_cons_self _ _)) _ h
      intro o ho
      rw [List.mem_filter] at ho
      obtain ⟨ho1, ho2⟩ := ho
      rw [Bool.and_eq_true] at ho2
      refine ⟨ho1, ?_, of_decide_eq_true ho2.1⟩
      intro hs
      have := ho2.2
      rw [hs] at this
      rw [tagKeep] at this
      simpa using this
  exact main a.tag_set (fun _ h => h) [] (by intro c hc; simp at hc)

/-- The domain phase preserves the full invariant. -/
theorem storeOK_domPhase (a : SemanticEntry) (older : List SemanticEntry)
    (sliding : Bool) (cs : CandStore) (h : storeOK a older sliding cs) :
    storeOK a older sliding (domPhase a older sliding cs) := by
  rw [domPhase]
  have main : ∀ (doms : List String), (∀ d ∈ doms, d ∈ _detect_domains a) →
      ∀ cs, storeOK a older sliding cs →
        storeOK a older sliding
          (doms.foldl (fun cs2 dom =>
            (older.filter (fun o =>
                decide (dom ∈ _detect_domains o) && tagKeep a o sliding)).foldl
              (fun cs3 ob => candAddDomain cs3 ob dom) cs2) cs) := by
    intro doms
    induction doms with
    | nil => intro _ cs h; simpa using h
    | cons d ds ih =>
      intro hsub cs h
      rw [List.foldl_cons]
      refine ih (fun d' hd' => hsub d' (List.mem_cons_of_mem _ hd')) _ ?_
      refine storeOK_foldAdd _ ?_ (hsub d (List.mem_cons_self _ _)) _ h
      intro o ho
      rw [List.mem_filter] at ho
      obtain ⟨ho1, ho2⟩ := ho
      rw [Bool.and_eq_true] at ho2
      refine ⟨ho1, ?_, of_decide_eq_true ho2.1⟩
      intro hs
      have := ho2.2
      rw [hs] at this
      rw [tagKeep] at this
      simpa using this
  exact main (_detect_domains a) (fun _ h => h) cs h

/-- Every pair `pairsFor` emits is against an older-pool entry, respects the
    sliding recency guard, and shares a tag or a detected domain. -/
theorem pairsFor_mem {a x y : SemanticEntry} {s : ℚ} {older : List SemanticEntry}
    {sliding : Bool} (h : (x, y, s) ∈ pairsFor a older sliding) :
    x = a ∧ y ∈ older ∧ (sliding = true → y.timestamp < x.timestamp) ∧
      (interStr x.tag_set y.tag_set ≠ [] ∨
       interStr (_detect_domains x) (_detect_domains y) ≠ []) := by
  have hstore : storeOK a older sliding (domPhase a older sliding
      (tagPhase a older sliding [])) :=
    storeOK_domPhase a older sliding _ (storeOK_of_tagOK (storeTagOK_tagPhase a older sliding))
  rw [pairsFor] at h
  rw [List.mem_filterMap] at h
  obtain ⟨c, hc, hf⟩ := h
  have hrec := hstore c hc
  split at hf
  · rw [Option.some_inj, Prod.mk.injEq, Prod.mk.injEq] at hf
    obtain ⟨hx, hy, -⟩ := hf
    subst hx
    subst hy
    refine ⟨rfl, hrec.1, hrec.2.1, ?_⟩
    rcases hrec.2.2 with ⟨t, ht, hta, hte⟩ | ⟨-, d, hd, hda, hde⟩
    · have hmt : t ∈ interStr a.tag_set c.2.1.tag_set := by
        rw [interStr, List.mem_filter]
        exact ⟨hta, decide_eq_true hte⟩
      exact Or.inl (List.ne_nil_of_mem hmt)
    · have hmd : d ∈ interStr (_detect_domains a) (_detect_domains c.2.1) := by
        rw [interStr, List.mem_filter]
        exact ⟨hda, decide_eq_true hde⟩
      exact Or.inr (List.ne_nil_of_mem hmd)
  · exact absurd hf (by simp)

/-- Every pair the tag-overlap filter emits pairs a recent entry with an
    older-pool entry, respects the sliding recency guard, and shares a tag
    or a detected domain. -/
theorem tag_overlap_mem {x y : SemanticEntry} {s : ℚ}
    {recent older : List SemanticEntry} {sliding : Bool}
    (h : (x, y, s) ∈ _tag_overlap_filter recent older sliding) :
    x ∈ recent ∧ y ∈ older ∧ (sliding = true → y.timestamp < x.timestamp) ∧
      (interStr x.tag_set y.tag_set ≠ [] ∨
       interStr (_detect_domains x) (_detect_domains y) ≠ []) := by
  rw [_tag_overlap_filter, List.mem_flatMap] at h
  obtain ⟨a, ha, h⟩ := h
  obtain ⟨hx, h2, h3, h4⟩ := pairsFor_mem h
  subst hx
  exact ⟨ha, h2, h3, h4⟩

/-- Every candidate the semantic prefilter emits inherits its two entries
    from some incoming pair. -/
theorem prefilter_mem {c : CandidatePair} {th : ℚ}
    {qmd : String → List (String × ℚ)} {fmt : ℚ → String}
    {pairs : List (SemanticEntry × SemanticEntry × ℚ)}
    (h : c ∈ _semantic_prefilter th qmd fmt pairs) :
    ∃ p ∈ pairs, c.entry_a = p.1 ∧ c.entry_b = p.2.1 := by
  rw [_semantic_prefilter] at h
  split at h
  · rw [List.mem_map] at h
    obtain ⟨p, hp, hc⟩ := h
    exact ⟨p, hp, by rw [← hc], by rw [← hc]⟩
  · rw [List.mem_flatMap] at h
    obtain ⟨rid, -, h⟩ := h
    rcases hg : pairs.filter (fun p => decide (p.1.entry_id = rid)) with - | ⟨p0, rest⟩
    · rw [hg] at h
      simp at h
    · rw [hg] at h
      dsimp only at h
      rw [List.mem_filterMap] at h
      obtain ⟨q, hq, hf⟩ := h
      have hq2 : q ∈ pairs := by
        have : q ∈ pairs.filter (fun p => decide (p.1.entry_id = rid)) := by
          rw [hg]; exact hq
        rw [List.mem_filter] at this
        exact this.1
      split at hf <;> split at hf <;>
        first
          | (rw [Option.some_inj] at hf
             exact ⟨q, hq2, by rw [← hf], by rw [← hf]⟩)
          | exact absurd hf (by simp)

set_option maxHeartbeats 2000000 in
/-- C8 counterexample: with `max_candidates = -1` (negative), a run over two
    entries sharing tag `t` produces an output that does not satisfy
    `size ≤ max_candidates`: the final Python slice `selected[:-1]` empties
    the list, and no size is ≤ −1, so the claimed bound fails. -/
theorem C8_generator_cex :
    ¬ (((generate_candidates 0 (-1) 7 30
        [⟨"a1", "x", 8553600, ["t"], []⟩, ⟨"b1", "y", 6912000, ["t"], []⟩]
        8640000 false (fun _ => []) (fun _ => "")).length : ℤ) ≤ -1) := by
  norm_num [generate_candidates, _temporal_window_filter, _tag_overlap_filter,
    pairsFor, tagPhase, domPhase, tagKeep, pairScore, candAddTag, candAddDomain,
    _detect_domains, DOMAIN_KEYWORDS, _semantic_prefilter, _diversity_enhancement,
    diversityKeys, diversityFirstPass, diversityTopUp, sortByScoreDesc, insertDesc,
    pySliceTo, tagComboKey, interStr, SemanticEntry.tag_set, dedup, unionCount,
    strContains, pyLower, strTokens, List.filter, List.flatMap, List.filterMap,
    List.foldl, String.intercalate]

/-- C8 (amended): when `max_candidates` is non-negative the Candidate
    Generator's output has size at most `max_candidates`; and
    unconditionally every output pair is strictly newer-to-older
    (`entry_a.timestamp > entry_b.timestamp`) and shares at least one
    (lowercased) tag or at least one detected domain. -/
theorem C8_generator_amended (threshold : ℚ)
    (max_candidates recent_days days_back : ℤ) (entries : List SemanticEntry)
    (reference : ℚ) (sliding : Bool) (qmd : String → List (String × ℚ))
    (fmt : ℚ → String) :
    (0 ≤ max_candidates →
      ((generate_candidates threshold max_candidates recent_days days_back entries
          reference sliding qmd fmt).length : ℤ) ≤ max_candidates) ∧
    ∀ c ∈ generate_candidates threshold max_candidates recent_days days_back entries
        reference sliding qmd fmt,
      c.entry_b.timestamp < c.entry_a.timestamp ∧
      (interStr c.entry_a.tag_set c.entry_b.tag_set ≠ [] ∨
       interStr (_detect_domains c.entry_a) (_detect_domains c.entry_b) ≠ []) := by
  constructor
  · intro hm
    rw [generate_candidates]
    rw [length_sortByScoreDesc]
    exact length_diversity hm
  · intro c hc
    rw [generate_candidates] at hc
    rw [mem_sortByScoreDesc] at hc
    obtain ⟨p, hp, ha, hb⟩ := prefilter_mem (mem_diversity hc)
    obtain ⟨hx, hy, hguard, hshare⟩ := tag_overlap_mem hp
    rw [ha, hb]
    refine ⟨?_, hshare⟩
    cases sliding with
    | true => exact hguard rfl
    | false =>
      simp only [_temporal_window_filter, Bool.false_eq_true, if_false,
        List.mem_filter, Bool.and_eq_true, Bool.not_eq_true', decide_eq_true_eq,
        decide_eq_false_iff_not] at hx hy
      exact lt_of_lt_of_le (not_le.mp hy.2.1) hx.2
/-- Witness for C8: at `max_candidates = 400` the hypothesis `0 ≤ 400` holds
    and the size bound follows for a concrete two-entry run. -/
theorem C8_generator_amended_witness :
    (0 : ℤ) ≤ 400 ∧
      ((generate_candidates 0 400 7 30
          [⟨"a1", "x", 8553600, ["t"], []⟩, ⟨"b1", "y", 6912000, ["t"], []⟩]
          8640000 false (fun _ => []) (fun _ => "")).length : ℤ) ≤ 400 :=
  ⟨by decide,
   (C8_generator_amended 0 400 7 30
      [⟨"a1", "x", 8553600, ["t"], []⟩, ⟨"b1", "y", 6912000, ["t"], []⟩]
      8640000 false (fun _ => []) (fun _ => "")).1 (by decide)⟩
/-! ## C9: identity promoter semantic grouping -/

/-- Drop characters up to and including the first `'.'`; `none` when there
    is no dot (Python `split(".", 1)` yielding a single part). -/
def dropUntilDot : List Char → Option (List Char)
  | [] => none
  | c :: cs => if c = '.' then some cs else dropUntilDot cs

/-- `weekly_identity_promote._extract_semantic_key`: strip a leading
    `Derived from mem:XXX.` prefix, then normalize. -/
def _extract_semantic_key (body : String) : String :=
  let body2 :=
    if ("Derived from mem:".data).isPrefixOf body.data then
      match dropUntilDot body.data with
      | some rest => pyStrip ⟨rest⟩
      | none => body
    else body
  normalize_text body2

/-- Append an entry to its keyed group, creating the group at the end on a
    fresh key (insertion-ordered `defaultdict(list)`). -/
def groupAdd (g : List (String × List MemoryEntry)) (k : String) (e : MemoryEntry) :
    List (String × List MemoryEntry) :=
  match g with
  | [] => [(k, [e])]
  | (k0, es) :: rest =>
    if k = k0 then (k0, es ++ [e]) :: rest else (k0, es) :: groupAdd rest k e

/-- One loop step of `_load_semantic_entries`: skip entries without a
    parsable time, before the cutoff, or with an empty semantic key; group
    the rest by the body-derived key. -/
def loadStep (tsOf : MemoryEntry → Option ℚ) (cutoff : ℚ)
    (acc : List (String × List MemoryEntry)) (e : MemoryEntry) :
    List (String × List MemoryEntry) :=
  match tsOf e with
  | none => acc
  | some t =>
    if t < cutoff then acc
    else if _extract_semantic_key e.body = "" then acc
    else groupAdd acc (_extract_semantic_key e.body) e

/-- `weekly_identity_promote._load_semantic_entries` at the data level: the
    timestamp parser `parse_iso_date(meta["time"])` is the `tsOf`
    parameter, and the files' entries arrive as one list. -/
def _load_semantic_entries (tsOf : MemoryEntry → Option ℚ) (cutoff : ℚ)
    (entries : List MemoryEntry) : List (String × List MemoryEntry) :=
  entries.foldl (loadStep tsOf cutoff) []

/-- Group lookup by key (first match). -/
def gLookup : List (String × List MemoryEntry) → String → Option (List MemoryEntry)
  | [], _ => none
  | (k0, es) :: rest, k => if k = k0 then some es else gLookup rest k

/-- Adding under key `k` appends to that key's group. -/
theorem gLookup_groupAdd_self (g : List (String × List MemoryEntry)) (k : String)
    (e : MemoryEntry) :
    gLookup (groupAdd g k e) k = some ((gLookup g k).getD [] ++ [e]) := by
  induction g with
  | nil => simp [groupAdd, gLookup]
  | cons p rest ih =>
    obtain ⟨k0, es⟩ := p
    by_cases h : k = k0
    · subst h
      simp [groupAdd, gLookup]
    · simp [groupAdd, gLookup, h, ih]

/-- Adding under key `k` leaves other keys' groups unchanged. -/
theorem gLookup_groupAdd_other (g : List (String × List MemoryEntry))
    (k k' : String) (e : MemoryEntry) (hne : k' ≠ k) :
    gLookup (groupAdd g k e) k' = gLookup g k' := by
  induction g with
  | nil => simp [groupAdd, gLookup, hne]
  | cons p rest ih =>
    obtain ⟨k0, es⟩ := p
    by_cases h : k = k0
    · subst h
      simp [groupAdd, gLookup, hne]
    · by_cases h' : k' = k0
      · subst h'
        simp [groupAdd, gLookup, h]
      · simp [groupAdd, gLookup, h, h', ih]

/-- A successful lookup names an actual group. -/
theorem gLookup_mem {g : List (String × List MemoryEntry)} {k : String}
    {es : List MemoryEntry} (h : gLookup g k = some es) : (k, es) ∈ g := by
  induction g with
  | nil => simp [gLookup] at h
  | cons p rest ih =>
    obtain ⟨k0, es0⟩ := p
    rw [gLookup] at h
    split at h
    · rw [Option.some_inj] at h
      subst h
      rename_i hk
      subst hk
      exact List.mem_cons_self _ _
    · exact List.mem_cons_of_mem _ (ih h)

/-- A qualifying entry (parsable time not before the cutoff, nonempty key)
    ends up in the group of its body-derived key. -/
theorem load_fold_mem (tsOf : MemoryEntry → Option ℚ) (cutoff : ℚ)
    (l : List MemoryEntry) :
    ∀ acc (e : MemoryEntry),
      ((∃ es, gLookup acc (_extract_semantic_key e.body) = some es ∧ e ∈ es) ∨
        (e ∈ l ∧ (∃ t, tsOf e = some t ∧ ¬ t < cutoff) ∧
          _extract_semantic_key e.body ≠ "")) →
      ∃ es, gLookup (l.foldl (loadStep tsOf cutoff) acc)
          (_extract_semantic_key e.body) = some es ∧ e ∈ es := by
  induction l with
  | nil =>
    intro acc e he
    rcases he with he | ⟨he, -⟩
    · simpa using he
    · simp at he
  | cons x xs ih =>
    intro acc e he
    rw [List.foldl_cons]
    refine ih (loadStep tsOf cutoff acc x) e ?_
    rcases he with ⟨es, hes, hmem⟩ | ⟨hx, hq, hk⟩
    · left
      rw [loadStep]
      rcases htx : tsOf x with - | t
      · exact ⟨es, hes, hmem⟩
      · dsimp only
        split
        · exact ⟨es, hes, hmem⟩
        · split
          · exact ⟨es, hes, hmem⟩
          · by_cases hkk : _extract_semantic_key e.body = _extract_semantic_key x.body
            · rw [hkk, gLookup_groupAdd_self]
              exact ⟨_, rfl, by rw [← hkk, hes]; simp [hmem]⟩
            · rw [gLookup_groupAdd_other _ _ _ _ hkk]
              exact ⟨es, hes, hmem⟩
    · rcases List.mem_cons.mp hx with hex | hex
      · subst hex
        left
        obtain ⟨t, ht, htc⟩ := hq
        rw [loadStep, ht]
        dsimp only
        rw [if_neg htc, if_neg hk, gLookup_groupAdd_self]
        exact ⟨_, rfl, List.mem_append_right _ (List.mem_singleton.mpr rfl)⟩
      · exact Or.inr ⟨hex, hq, hk⟩


/-- C9 counterexample: two entries with identical stripped bodies
    (`Derived from mem:a0. Vim is best` versus `Vim is best`) and disjoint
    tag sets (`alpha` versus `beta`) land in ONE shared group keyed only by
    the normalized stripped body — not in different groups, so the tags are
    not part of the concept key. -/
theorem C9_grouping_cex :
    _load_semantic_entries (fun _ => some 0) 0
      [⟨"a1", [("tags", "alpha"), ("time", "2024-05-01")],
        "Derived from mem:a0. Vim is best"⟩,
       ⟨"a2", [("tags", "beta"), ("time", "2024-05-01")], "Vim is best"⟩]
    = [("vim is best",
        [⟨"a1", [("tags", "alpha"), ("time", "2024-05-01")],
          "Derived from mem:a0. Vim is best"⟩,
         ⟨"a2", [("tags", "beta"), ("time", "2024-05-01")], "Vim is best"⟩])] := by
  decide

/-- C9 (amended): the Identity Promoter groups semantic entries by the
    concept key derived from the body alone (with any `Derived from
    mem:<id>. ` prefix stripped), ignoring tags: any two qualifying entries
    whose stripped bodies normalize to the same nonempty key fall into the
    same group, whatever their tags. -/
theorem C9_grouping_amended (tsOf : MemoryEntry → Option ℚ) (cutoff : ℚ)
    (entries : List MemoryEntry) (e1 e2 : MemoryEntry)
    (h1m : e1 ∈ entries) (h1q : ∃ t, tsOf e1 = some t ∧ ¬ t < cutoff)
    (h1k : _extract_semantic_key e1.body ≠ "")
    (h2m : e2 ∈ entries) (h2q : ∃ t, tsOf e2 = some t ∧ ¬ t < cutoff)
    (hkey : _extract_semantic_key e1.body = _extract_semantic_key e2.body) :
    ∃ g ∈ _load_semantic_entries tsOf cutoff entries,
      g.1 = _extract_semantic_key e1.body ∧ e1 ∈ g.2 ∧ e2 ∈ g.2 := by
  have a1 := load_fold_mem tsOf cutoff entries [] e1 (Or.inr ⟨h1m, h1q, h1k⟩)
  have a2 := load_fold_mem tsOf cutoff entries [] e2
    (Or.inr ⟨h2m, h2q, by rw [← hkey]; exact h1k⟩)
  obtain ⟨es1, hl1, hm1⟩ := a1
  obtain ⟨es2, hl2, hm2⟩ := a2
  rw [← hkey] at hl2
  rw [hl1] at hl2
  have hes := Option.some_inj.mp hl2
  subst hes
  exact ⟨(_extract_semantic_key e1.body, es1), gLookup_mem hl1, rfl, hm1, hm2⟩

/-- Witness for C9: a concrete pair of tag-disjoint entries with the same
    stripped body satisfies every hypothesis and shares one group. -/
theorem C9_grouping_amended_witness :
    ∃ g ∈ _load_semantic_entries (fun _ => some 0) 0
        [⟨"a1", [("tags", "alpha"), ("time", "2024-05-01")],
          "Derived from mem:a0. Vim is best"⟩,
         ⟨"a2", [("tags", "beta"), ("time", "2024-05-01")], "Vim is best"⟩],
      g.1 = _extract_semantic_key "Derived from mem:a0. Vim is best" ∧
      (⟨"a1", [("tags", "alpha"), ("time", "2024-05-01")],
        "Derived from mem:a0. Vim is best"⟩ : MemoryEntry) ∈ g.2 ∧
      (⟨"a2", [("tags", "beta"), ("time", "2024-05-01")], "Vim is best"⟩ :
        MemoryEntry) ∈ g.2 :=
  C9_grouping_amended (fun _ => some 0) 0
    [⟨"a1", [("tags", "alpha"), ("time", "2024-05-01")],
      "Derived from mem:a0. Vim is best"⟩,
     ⟨"a2", [("tags", "beta"), ("time", "2024-05-01")], "Vim is best"⟩]
    ⟨"a1", [("tags", "alpha"), ("time", "2024-05-01")],
      "Derived from mem:a0. Vim is best"⟩
    ⟨"a2", [("tags", "beta"), ("time", "2024-05-01")], "Vim is best"⟩
    (by decide) ⟨0, rfl, by decide⟩ (by decide)
    (by decide) ⟨0, rfl, by decide⟩ (by decide)

/-! ## C10: importance scorer rewrite frame -/

/-- `importance_score.load_candidate_entries` at the data level: the sorted
    episodic and semantic globs arrive as lists of
    `(filename, preamble, entries)`; filename-date parsing is the `dayOf`
    and `monthOf` parameters, and the cutoffs (the code derives
    `cutoff_month` from `cutoff_day`) are day indices. A file with an
    unparsable name is kept. -/
def load_candidate_entries (dayOf monthOf : String → Option ℤ)
    (cutoff_day cutoff_month : ℤ)
    (episodic semantic : List (String × String × List MemoryEntry)) :
    List (String × String × List MemoryEntry) :=
  episodic.filter (fun b =>
      match dayOf b.1 with
      | some d => !decide (d < cutoff_day)
      | none => true)
    ++ semantic.filter (fun b =>
      match monthOf b.1 with
      | some m => !decide (m < cutoff_month)
      | none => true)

/-- Index the entries of one bundle, as Python `enumerate`. -/
def enumFrom : Nat → List MemoryEntry → List (Nat × MemoryEntry)
  | _, [] => []
  | n, e :: es => (n, e) :: enumFrom (n + 1) es

/-- The `all_entries` pass of `main`: every indexed entry of every bundle
    whose concept key (the `keyOf` parameter, standing for
    `concept_key(entry, aliases)`) is nonempty, tagged with its file. -/
def importanceAllEntries (keyOf : MemoryEntry → String)
    (bundles : List (String × String × List MemoryEntry)) :
    List (String × Nat × MemoryEntry) :=
  bundles.flatMap (fun b =>
    (enumFrom 0 b.2.2).filterMap (fun ie =>
      if keyOf ie.2 = "" then none else some (b.1, ie.1, ie.2)))

/-- Strict lexicographic order on the sort key
    `(last_scored_at, time)` (as day indices). -/
def pairLt (a b : ℤ × ℤ) : Prop := a.1 < b.1 ∨ (a.1 = b.1 ∧ a.2 < b.2)

instance (a b : ℤ × ℤ) : Decidable (pairLt a b) := by
  unfold pairLt
  infer_instance

/-- Stable ascending insertion by sort key (equal keys keep their order, as
    Python's stable sort). -/
def insertByKey (sKey : MemoryEntry → ℤ × ℤ) (x : String × Nat × MemoryEntry) :
    List (String × Nat × MemoryEntry) → List (String × Nat × MemoryEntry)
  | [] => [x]
  | y :: ys =>
    if pairLt (sKey x.2.2) (sKey y.2.2) then x :: y :: ys
    else y :: insertByKey sKey x ys

/-- `candidates.sort(key=...)`: stable ascending sort by the timestamp
    pair. -/
def sortCands (sKey : MemoryEntry → ℤ × ℤ) (l : List (String × Nat × MemoryEntry)) :
    List (String × Nat × MemoryEntry) :=
  l.foldl (fun acc x => insertByKey sKey x acc) []

/-- The selected rescoring candidates: the `should_rescore` filter (the
    `resc` parameter, standing for `should_rescore(entry, now)`), the
    stable sort by `(last_scored_at, time)` (the `sKey` parameter), and the
    `[: max(max_updates, 0)]` truncation. -/
def importanceCandidates (keyOf : MemoryEntry → String)
    (resc : MemoryEntry → Bool) (sKey : MemoryEntry → ℤ × ℤ)
    (max_updates : ℤ) (bundles : List (String × String × List MemoryEntry)) :
    List (String × Nat × MemoryEntry) :=
  (sortCands sKey
    ((importanceAllEntries keyOf bundles).filter (fun it => resc it.2.2))).take
    (max max_updates 0).toNat

/-- The per-candidate mutation: `main` assigns meta fields (importance,
    tags, scope, durability, last_scored_at, valid_until, score_*) computed
    by `compute_score`; the resulting meta map is the `upd` parameter. The
    entry id and body are untouched. -/
def applyScore (upd : MemoryEntry → MetaMap) (e : MemoryEntry) : MemoryEntry :=
  ⟨e.entry_id, upd e, e.body⟩

/-- Apply every candidate mutation at its `(path, index)` position. -/
def applyCands (upd : MemoryEntry → MetaMap)
    (bundles : List (String × String × List MemoryEntry))
    (cands : List (String × Nat × MemoryEntry)) :
    List (String × String × List MemoryEntry) :=
  cands.foldl (fun bs c =>
    bs.map (fun b =>
      if b.1 = c.1 then (b.1, b.2.1, b.2.2.set c.2.1 (applyScore upd c.2.2))
      else b)) bundles

/-- The files `main` saves with their saved contents: on a dry run nothing,
    otherwise every window bundle (`changed_paths` is built from all of
    `bundles` before any mutation) with the candidate mutations applied. -/
def importance_score_saves (keyOf : MemoryEntry → String)
    (resc : MemoryEntry → Bool) (sKey : MemoryEntry → ℤ × ℤ)
    (upd : MemoryEntry → MetaMap) (max_updates : ℤ) (dry_run : Bool)
    (bundles : List (String × String × List MemoryEntry)) :
    List (String × String × List MemoryEntry) :=
  if dry_run then []
  else applyCands upd bundles (importanceCandidates keyOf resc sKey max_updates bundles)

/-- Candidate application never changes which files are written. -/
theorem applyCands_map_fst (upd : MemoryEntry → MetaMap)
    (cands : List (String × Nat × MemoryEntry))
    (bundles : List (String × String × List MemoryEntry)) :
    (applyCands upd bundles cands).map (fun b => b.1) =
      bundles.map (fun b => b.1) := by
  induction cands generalizing bundles with
  | nil => rfl
  | cons c cs ih =>
    show (applyCands upd (bundles.map _) cs).map _ = _
    rw [ih, List.map_map]
    refine List.map_congr_left ?_
    intro b _
    show (if b.1 = c.1 then _ else b).1 = b.1
    split <;> rfl

/-- A bundle survives candidate application with the same path, preamble
    and entry count, and unchanged entries at every position that is not a
    candidate position of that file. -/
theorem applyCands_get (upd : MemoryEntry → MetaMap)
    (cands : List (String × Nat × MemoryEntry)) :
    ∀ (bundles : List (String × String × List MemoryEntry))
      (p pre : String) (es : List MemoryEntry),
      (p, pre, es) ∈ bundles →
      ∃ es', (p, pre, es') ∈ applyCands upd bundles cands ∧
        es'.length = es.length ∧
        ∀ j, (∀ e, (p, j, e) ∉ cands) → es'.get? j = es.get? j := by
  induction cands with
  | nil => exact fun bundles p pre es hmem => ⟨es, hmem, rfl, fun _ _ => rfl⟩
  | cons c cs ih =>
    intro bundles p pre es hmem
    have hmem1 : (if p = c.1 then (p, pre, es.set c.2.1 (applyScore upd c.2.2))
        else (p, pre, es)) ∈ bundles.map (fun b =>
          if b.1 = c.1 then (b.1, b.2.1, b.2.2.set c.2.1 (applyScore upd c.2.2))
          else b) := by
      have := List.mem_map_of_mem (fun b =>
        if b.1 = c.1 then (b.1, b.2.1, b.2.2.set c.2.1 (applyScore upd c.2.2))
        else b) hmem
      split <;> rename_i hp
      · simpa [hp] using this
      · simpa [hp] using this
    by_cases hp : p = c.1
    · rw [if_pos hp] at hmem1
      obtain ⟨es', hm, hl, hg⟩ := ih _ p pre _ hmem1
      refine ⟨es', hm, ?_, ?_⟩
      · rw [hl, List.length_set]
      · intro j hj
        rw [hg j (fun e he => hj e (List.mem_cons_of_mem _ he))]
        have hne : c.2.1 ≠ j := by
          intro hEq
          exact hj c.2.2 (by
            rw [hp, ← hEq]
            exact List.mem_cons_self _ _)
        exact List.get?_set_ne _ _ hne
    · rw [if_neg hp] at hmem1
      obtain ⟨es', hm, hl, hg⟩ := ih _ p pre _ hmem1
      exact ⟨es', hm, hl, fun j hj =>
        hg j (fun e he => hj e (List.mem_cons_of_mem _ he))⟩


/-- C10: on a non-dry run the Importance Scorer saves every episodic and
    semantic file inside the scoring window — the saved paths are exactly
    the window bundles in order, including files with zero selected
    candidates — and each saved file keeps its preamble, its entry count,
    and, at every position that is not a selected candidate position of
    that file, the exact parsed entry (id, meta, body). -/
theorem C10_scorer_frame (dayOf monthOf : String → Option ℤ)
    (cutoff_day cutoff_month : ℤ)
    (episodic semantic : List (String × String × List MemoryEntry))
    (keyOf : MemoryEntry → String) (resc : MemoryEntry → Bool)
    (sKey : MemoryEntry → ℤ × ℤ) (upd : MemoryEntry → MetaMap)
    (max_updates : ℤ) :
    (importance_score_saves keyOf resc sKey upd max_updates false
        (load_candidate_entries dayOf monthOf cutoff_day cutoff_month episodic
          semantic)).map (fun b => b.1) =
      (load_candidate_entries dayOf monthOf cutoff_day cutoff_month episodic
        semantic).map (fun b => b.1) ∧
    ∀ p pre es,
      (p, pre, es) ∈ load_candidate_entries dayOf monthOf cutoff_day cutoff_month
        episodic semantic →
      ∃ es', (p, pre, es') ∈ importance_score_saves keyOf resc sKey upd
          max_updates false
          (load_candidate_entries dayOf monthOf cutoff_day cutoff_month episodic
            semantic) ∧
        es'.length = es.length ∧
        ∀ j, (∀ e, (p, j, e) ∉ importanceCandidates keyOf resc sKey max_updates
            (load_candidate_entries dayOf monthOf cutoff_day cutoff_month episodic
              semantic)) →
          es'.get? j = es.get? j := by
  constructor
  · rw [importance_score_saves, if_neg (by simp)]
    exact applyCands_map_fst _ _ _
  · intro p pre es hmem
    rw [importance_score_saves, if_neg (by simp)]
    exact applyCands_get upd _ _ p pre es hmem

/-- Witness for C10: a concrete one-file window where the single entry is
    not rescored (its concept key is empty, so it is no candidate): the
    file is still saved, bit-identical at every position. -/
theorem C10_scorer_frame_witness :
    ∃ es', ("2024-05.md", "pre", es') ∈ importance_score_saves
        (fun _ => "") (fun _ => true) (fun _ => (0, 0)) (fun e => e.meta) 400 false
        (load_candidate_entries (fun _ => none) (fun _ => none) 0 0 []
          [("2024-05.md", "pre", [⟨"a1", [("time", "t")], "Body"⟩])]) ∧
      es'.length = [(⟨"a1", [("time", "t")], "Body"⟩ : MemoryEntry)].length ∧
      ∀ j, (∀ e, ("2024-05.md", j, e) ∉ importanceCandidates
          (fun _ => "") (fun _ => true) (fun _ => (0, 0)) 400
          (load_candidate_entries (fun _ => none) (fun _ => none) 0 0 []
            [("2024-05.md", "pre", [⟨"a1", [("time", "t")], "Body"⟩])])) →
        es'.get? j = [(⟨"a1", [("time", "t")], "Body"⟩ : MemoryEntry)].get? j :=
  (C10_scorer_frame (fun _ => none) (fun _ => none) 0 0 []
    [("2024-05.md", "pre", [⟨"a1", [("time", "t")], "Body"⟩])]
    (fun _ => "") (fun _ => true) (fun _ => (0, 0)) (fun e => e.meta) 400).2
    "2024-05.md" "pre" [⟨"a1", [("time", "t")], "Body"⟩] (by decide)

end OpenClaw
